import Mathlib

/-!
Shallow embedding of the `bnf_sampler` repository (Dan-wanna-M/bnf_sampler):
the terminals trie, the arena stack store, the grammar data model, and the
parser-state engine (`Sampler::accept_a_token`, `Sampler::all_possible_next_tokens`,
`Sampler::match_stack_to_bytes`, `Sampler::find_stacks_matching_bytes` from
`src/bnf_sampler/src/sampler.rs`, `TerminalsTrie::add` from
`src/sampler/src/trie.rs`, `StackArena::allocate_a_stack` from
`src/sampler/src/stack.rs`, and the `add_tokens` closure of `Grammar::new`
from `src/bnf_sampler/src/grammar.rs`).

Bytes are modelled as `Nat`, hash maps as association lists (iteration order of
the source's deterministic-but-unspecified hash maps is made explicit as list
order), `BitSet` as `Finset ℕ`, and the unbounded recursion of
`find_stacks_matching_bytes` is given explicit fuel (`none` = out of fuel /
panic).  Rust panics of fallible operations are modelled as explicit error or
`none` results where noted.
-/

namespace BnfSampler

/- Nonterminal ids (`NonterminalID(pub usize)` in `utils.rs`) and trie node
ids (`TrieNodeID { id: usize }` in `trie.rs`) are plain `Nat`. -/

/-- A trie node (`TrieNode` in `src/sampler/src/trie.rs`): parent-relative depth
`index`, the `can_stop` flag, the optional negative-bytes marker, the optional
terminal value, and the byte-keyed child map (embedded as an association list). -/
structure TrieNode where
  index : Nat
  canStop : Bool
  negativeBytesIndex : Option Nat
  value : Option (List Nat)
  children : List (Nat × Nat)
  deriving DecidableEq, Repr

instance : Inhabited TrieNode := ⟨⟨0, false, none, none, []⟩⟩

/-- `TerminalsTrie`: one root per nonterminal, arena-stored nodes. -/
structure TerminalsTrie where
  roots : List (Nat × Nat)
  arena : List TrieNode
  deriving DecidableEq, Repr

/-- First association-list hit, mirroring a hash-map `get`. -/
def assocFind {α β : Type} [DecidableEq α] (l : List (α × β)) (k : α) : Option β :=
  (l.find? (fun p => decide (p.1 = k))).map (fun p => p.2)

/-- Child lookup in a trie node (`node.children.get(byte)`). -/
def childLookup (n : TrieNode) (b : Nat) : Option Nat :=
  assocFind n.children b

/-- `TerminalsTrie::get`; the source indexes the arena and panics when the id is
invalid, we return a default node (theorems only use valid ids). -/
def TerminalsTrie.get (t : TerminalsTrie) (nid : Nat) : TrieNode :=
  t.arena.getD nid default

/-- Replace the node at `nid` (the effect of `get_mut` plus a field update). -/
def TerminalsTrie.setNode (t : TerminalsTrie) (nid : Nat) (n : TrieNode) : TerminalsTrie :=
  { t with arena := t.arena.set nid n }

/-- The missing-child arm of the `TerminalsTrie::add` loop, first half: push a
fresh node (depth `index + 1`, the call's `can_stop`, no value, no children)
into the arena; its id is the old arena length. -/
def grown (t : TerminalsTrie) (cur : Nat) (canStop : Bool) : TerminalsTrie :=
  ⟨t.roots, t.arena ++ [⟨(t.get cur).index + 1, canStop, none, none, []⟩]⟩

/-- Register the freshly pushed node as the `b`-child of `cur`. -/
def growChild (t : TerminalsTrie) (cur : Nat) (b : Nat) (canStop : Bool) : TerminalsTrie :=
  (grown t cur canStop).setNode cur
    { (grown t cur canStop).get cur with
      children := ((grown t cur canStop).get cur).children ++ [(b, t.arena.length)] }

/-- The per-byte loop of `TerminalsTrie::add`: follow or create child nodes,
then mark the final node with `value = terminal`.  `full` is the complete
terminal whose bytes are being inserted. -/
def addLoop (t : TerminalsTrie) (cur : Nat) (full : List Nat) (canStop : Bool) :
    List Nat → TerminalsTrie
  | [] => t.setNode cur { t.get cur with value := some full }
  | b :: rest =>
    match childLookup (t.get cur) b with
    | some cid => addLoop t cid full canStop rest
    | none => addLoop (growChild t cur b canStop) t.arena.length full canStop rest

/-- `TerminalsTrie::add` (src/sampler/src/trie.rs, lines 67-104).  Note that
Rust's `entry(..).or_insert(Self::new_node(..))` evaluates its argument
eagerly, so a fresh node is pushed into the arena even when the root already
exists (it is then orphaned); we mirror that. -/
def TerminalsTrie.add (t : TerminalsTrie) (terminal : List Nat) (ntid : Nat)
    (canStop : Bool) : TerminalsTrie :=
  let freshId := t.arena.length
  let t1 : TerminalsTrie :=
    { t with arena := t.arena ++ [⟨0, canStop, none, none, []⟩] }
  match assocFind t.roots ntid with
  | some r => addLoop t1 r terminal canStop terminal
  | none =>
    addLoop { t1 with roots := t1.roots ++ [(ntid, freshId)] } freshId terminal canStop terminal

/-- `U8Term` from `grammar.rs`. -/
inductive U8Term where
  | terminal (v : List Nat)
  | nonterminal (name : String)
  deriving DecidableEq, Repr

/-- `SimplifiedExpressions` from `grammar.rs`; the hash set of right-hand sides
is embedded as a list in iteration order. -/
inductive SimplifiedExpressions where
  | expressions (es : List (List U8Term))
  | terminals (node : Nat)
  deriving DecidableEq, Repr

/-- The `Grammar` struct from `grammar.rs` (hash maps as association lists,
`BitSet` as `Finset ℕ`). -/
structure Grammar where
  nonterminalIdToExpression : List (Nat × SimplifiedExpressions)
  nonterminalToTerminalId : List (String × Nat)
  terminalsTrie : TerminalsTrie
  nonterminalToTokenIds : List (Nat × Finset ℕ)

/-- The `Vocabulary` struct from `vocabulary.rs`.  `tokenToId` embeds the
qp-trie `token_to_id` as its (lexicographically sorted) entry list, which is
also the `tokens_buffer` the sampler builds from it. -/
structure Vocabulary where
  tokenToId : List (List Nat × ℕ)
  idToToken : List (ℕ × List Nat)

/-- `StackItem` from `sampler.rs` (a `Terminal` holds the grammar-owned bytes
the source points to). -/
inductive StackItem where
  | nonterminal (id : Nat)
  | terminal (bytes : List Nat)
  | terminals (node : Nat)
  deriving DecidableEq, Repr

/-- Lookup of `grammar.nonterminal_id_to_expression[&top]`; the source panics
on a missing id, we default to an empty expression list (no expansion). -/
def exprFind (g : Grammar) (id : Nat) : SimplifiedExpressions :=
  (assocFind g.nonterminalIdToExpression id).getD (.expressions [])

/-- Conversion of a grammar term to a stack item as done in
`find_stacks_matching_bytes` (nonterminal names are resolved through
`nonterminal_to_terminal_id`; the source panics on a missing name, we
default to id 0 — theorems assume well-formed grammars). -/
def toItem (g : Grammar) : U8Term → StackItem
  | .terminal v => .terminal v
  | .nonterminal name => .nonterminal ((assocFind g.nonterminalToTerminalId name).getD 0)

/-- `BytesMatchResult`: `remainingBytesStart = none` encodes the source's
`INVALID_INDEX = -1` (demand fully consumed). -/
structure BytesMatchResult where
  remainingBytesStart : Option Nat
  stackOffset : Nat
  modifiedItemAtOffset : Option StackItem
  deriving DecidableEq, Repr

/-- `BytesMatchResults`; in `failed idx`, `none` encodes `usize::MAX`
(no byte index was ever recorded). -/
inductive BytesMatchResults where
  | failed (idx : Option Nat)
  | matches (rs : List BytesMatchResult)
  deriving DecidableEq, Repr

/-- The mutable state threaded through `_match_stack_to_bytes`:
the `found` flag, the shortest failed index (`none` = `usize::MAX`),
and the accumulated result vector. -/
structure MatchSt where
  found : Bool
  shortest : Option Nat
  results : List BytesMatchResult
  deriving DecidableEq, Repr

/-- `min(i, *shortest_failed_index)` with `none` as `usize::MAX`. -/
def minShort (o : Option Nat) (n : Nat) : Option Nat :=
  match o with
  | none => some n
  | some m => some (min m n)

/-- Outcome of the byte-comparison loop in the `StackItem::Terminal` branch of
`_match_stack_to_bytes`. -/
inductive TermScanRes where
  | leafExact
  | leafModified (rest : List Nat)
  | mismatch (at_ : Nat)
  | continueBelow
  deriving DecidableEq, Repr

/-- The `for i in 0..terminal.len()` loop of the `Terminal` branch: `rb` is
`bytes[bytes_index..]`, `tl` the terminal, `pos` the absolute byte position. -/
def termScan : List Nat → List Nat → Nat → TermScanRes
  | [], [] , _ => .leafExact
  | _ :: _, [], _ => .continueBelow
  | [], b :: tl', _ => .leafModified (b :: tl')
  | rb0 :: rb', tb :: tl', pos =>
    if rb0 = tb then termScan rb' tl' (pos + 1) else .mismatch pos

/-- The trie walk of the `StackItem::Terminals` branch: walk `rb` from `cur`,
collecting visited node ids; returns `(nodes, flag, failIdx)` where a negative
marker truncates the node list and clears `flag`, and a missing child clears
`flag` and records the failing absolute index.  A negative marker larger than
the walk depth would underflow `usize` in the source (a panic in debug
builds); we saturate to an empty node list. -/
def walkNodes (t : TerminalsTrie) (bI : Nat) :
    Nat → List Nat → Nat → List Nat → (List Nat × Bool × Option Nat)
  | _, [], _, acc => (acc, true, none)
  | cur, b :: rb', i, acc =>
    match childLookup (t.get cur) b with
    | some nid =>
      let acc' := acc ++ [nid]
      match (t.get nid).negativeBytesIndex with
      | some k => (acc'.take (i + 1 - bI - k), false, none)
      | none => walkNodes t bI nid rb' (i + 1) acc'
    | none => (acc, false, some i)

/-- The value-split loop of the `Terminals` branch (`for (i, node_id) in
nodes.iter().enumerate()`): recurse on the byte tail below each value-marked
node that does not end at the last demand byte.  `rec` is the recursive call
into `_match_stack_to_bytes` at the next smaller fuel. -/
def splitLoop (trie : TerminalsTrie) (bytes : List Nat) (findAll : Bool)
    (rec : Nat → Nat → MatchSt → MatchSt) (bI so : Nat) :
    List Nat → Nat → MatchSt → MatchSt
  | [], _, st => st
  | nid :: rest, i, st =>
    if (trie.get nid).value.isSome && 0 < so && i + bI < bytes.length - 1 then
      let st' := rec (bI + i + 1) (so - 1) st
      if !findAll && st'.found then st'
      else splitLoop trie bytes findAll rec bI so rest (i + 1) st'
    else splitLoop trie bytes findAll rec bI so rest (i + 1) st

/-- `_match_stack_to_bytes` from `sampler.rs` (lines 395-535): `bytes` is the
whole demand slice, `bI` the current byte index, `so` the current stack offset
(the stack is indexed bottom-up, as in the source's `FixedBuffer`).  The fuel
bounds the stack-offset descent (callers pass `stack.length + 1`, which can
never run out since every recursive call decreases `so`). -/
def matchAux (trie : TerminalsTrie) (stack : List StackItem) (bytes : List Nat)
    (findAll : Bool) : Nat → Nat → Nat → MatchSt → MatchSt
  | 0, _, _, st => st
  | fuel + 1, bI, so, st =>
    if bytes.isEmpty || (!findAll && st.found) then st
    else
      match stack.getD so (.nonterminal 0) with
      | .nonterminal _ =>
        if bI ≠ 0 then
          { st with results := st.results ++ [⟨some bI, so, none⟩] }
        else st
      | .terminal t =>
        match termScan (bytes.drop bI) t bI with
        | .leafExact =>
          { st with found := true, results := st.results ++ [⟨none, so, none⟩] }
        | .leafModified rest =>
          { st with found := true,
                    results := st.results ++ [⟨none, so, some (.terminal rest)⟩] }
        | .mismatch p => { st with shortest := minShort st.shortest p }
        | .continueBelow =>
          if 0 < so then matchAux trie stack bytes findAll fuel (bI + t.length) (so - 1) st
          else st
      | .terminals nid =>
        let w := walkNodes trie bI nid (bytes.drop bI) bI []
        let nodes := w.1
        let flag := w.2.1
        let st1 :=
          match w.2.2 with
          | some i => { st with shortest := minShort st.shortest i }
          | none => st
        let st2 := splitLoop trie bytes findAll
          (fun a b c => matchAux trie stack bytes findAll fuel a b c) bI so nodes 0 st1
        match nodes.getLast? with
        | none => st2
        | some lastId =>
          if flag then
            let ln := trie.get lastId
            let st3 :=
              if !ln.children.isEmpty && ln.canStop then
                { st2 with found := true,
                           results := st2.results ++ [⟨none, so, some (.terminals lastId)⟩] }
              else st2
            if ln.value.isSome then
              { st3 with found := true, results := st3.results ++ [⟨none, so, none⟩] }
            else st3
          else st2

/-- `Sampler::match_stack_to_bytes` (lines 388-562): `none` demand yields
`matches []`; otherwise run the byte matcher from offset `stack.len() - 1`
and report `failed shortest` when no result was recorded. -/
def matchStackToBytes (trie : TerminalsTrie) (stack : List StackItem)
    (bytes? : Option (List Nat)) (findAll : Bool) : BytesMatchResults :=
  match bytes? with
  | none => .matches []
  | some bytes =>
    let st := matchAux trie stack bytes findAll (stack.length + 1) 0
      (stack.length - 1) ⟨false, none, []⟩
    if st.results.isEmpty then .failed st.shortest else .matches st.results

/-- The `(stack-suffix, remaining-bytes) → bool` cache
(`stack_to_bytes_cache` in the source), most recent entry first. -/
abbrev Cache := List ((List StackItem × List Nat) × Bool)

/-- Cache lookup. -/
def cacheFind (c : Cache) (k : List StackItem × List Nat) : Option Bool :=
  (c.find? (fun p => decide (p.1 = k))).map (fun p => p.2)

/-- The leaf loop of `find_stacks_matching_bytes` (lines 672-683): report each
result with `remaining_bytes_start == INVALID_INDEX` through
`after_finding_stack`, and in find-one mode return immediately after the
first.  Returns `(state, flag, earlyStop)`. -/
def leafLoop {σ : Type} (findAll : Bool) (stack : List StackItem)
    (afterFind : σ → List StackItem → Option StackItem → σ) :
    List BytesMatchResult → σ → Bool → (σ × Bool × Bool)
  | [], st, flag => (st, flag, false)
  | r :: rest, st, flag =>
    match r.remainingBytesStart with
    | none =>
      if !findAll then
        (afterFind st (stack.take r.stackOffset) r.modifiedItemAtOffset, true, true)
      else
        leafLoop findAll stack afterFind rest
          (afterFind st (stack.take r.stackOffset) r.modifiedItemAtOffset) true
    | some _ => leafLoop findAll stack afterFind rest st flag

/-- The cache key's stack component for a non-leaf match result
(`temp_stack` at sampler.rs lines 696-703): the stack below the offset, plus
the modified item when present — the nonterminal at the offset is *not*
included when `modified_item_at_offset` is `None`. -/
def rKey (stack : List StackItem) (r : BytesMatchResult) : List StackItem :=
  match r.modifiedItemAtOffset with
  | some v => stack.take r.stackOffset ++ [v]
  | none => stack.take r.stackOffset

/-- The call states of the `find_stacks_matching_bytes` recursion: the
function entry (`fcall`), the `_find_stacks_matching_bytes` expansion helper
(`ecall`), its loop over an expression set (`eloop`), and the loop over
non-leaf match results in source order reversed (`rloop`). -/
inductive FindCall where
  | fcall (stack : List StackItem) (bytes? : Option (List Nat))
  | ecall (pre : List StackItem) (id : Nat) (bytes? : Option (List Nat))
  | eloop (pre : List StackItem) (es : List (List U8Term))
      (bytes? : Option (List Nat)) (found : Bool)
  | rloop (stack : List StackItem) (bytes : List Nat)
      (rs : List BytesMatchResult) (flag : Bool)

/-- `Sampler::find_stacks_matching_bytes` (lines 566-753) together with its
inner closure `_find_stacks_matching_bytes`, embedded as one fueled function
over `FindCall` states.  `σ` is the state mutated by the two callbacks
(`after_finding_stack`, `after_match_failed`); the byte cache is threaded
explicitly (`none` = cache disabled).  The result is `none` when the fuel
runs out (the source recursion is unbounded) or on one of the source's
`panic!` paths (a non-nonterminal at a match-result offset). -/
def findGo {σ : Type} (g : Grammar) (findAll : Bool)
    (afterFind : σ → List StackItem → Option StackItem → σ)
    (afterFail : σ → List Nat → Option Nat → σ) :
    Nat → FindCall → Option Cache → σ → Option (Bool × Option Cache × σ)
  | 0, _, _, _ => none
  | fuel + 1, .fcall stack bytes?, cache?, st =>
    match stack.getLast? with
    | none => some (false, cache?, st)
    | some (.nonterminal id) =>
      findGo g findAll afterFind afterFail fuel (.ecall stack.dropLast id bytes?) cache? st
    | some _ =>
      match matchStackToBytes g.terminalsTrie stack bytes? findAll with
      | .failed idx => some (false, cache?, afterFail st (bytes?.getD []) idx)
      | .matches rs =>
        if rs.isEmpty then some (true, cache?, afterFind st stack none)
        else
          match leafLoop findAll stack afterFind rs st false with
          | (st1, _, true) => some (true, cache?, st1)
          | (st1, flag1, false) =>
            findGo g findAll afterFind afterFail fuel
              (.rloop stack (bytes?.getD []) rs.reverse flag1) cache? st1
  | fuel + 1, .ecall pre id bytes?, cache?, st =>
    match exprFind g id with
    | .expressions es =>
      findGo g findAll afterFind afterFail fuel (.eloop pre es bytes? false) cache? st
    | .terminals nid =>
      findGo g findAll afterFind afterFail fuel
        (.fcall (pre ++ [.terminals nid]) bytes?) cache? st
  | _ + 1, .eloop _ [] _ found, cache?, st => some (found, cache?, st)
  | fuel + 1, .eloop pre (e :: rest) bytes? found, cache?, st =>
    match findGo g findAll afterFind afterFail fuel
      (.fcall (pre ++ (e.map (toItem g)).reverse) bytes?) cache? st with
    | none => none
    | some (v, cache', st') =>
      let found' := found || v
      if !findAll && found' then some (found', cache', st')
      else findGo g findAll afterFind afterFail fuel (.eloop pre rest bytes? found') cache' st'
  | _ + 1, .rloop _ _ [] flag, cache?, st => some (flag, cache?, st)
  | fuel + 1, .rloop stack bytes (r :: rest) flag, cache?, st =>
    match r.remainingBytesStart with
    | none => findGo g findAll afterFind afterFail fuel (.rloop stack bytes rest flag) cache? st
    | some rem =>
      match r.modifiedItemAtOffset.getD (stack.getD r.stackOffset (.nonterminal 0)) with
      | .nonterminal top =>
        match cache? with
        | some c =>
          match cacheFind c (rKey stack r, bytes.drop rem) with
          | some v =>
            if !findAll && (flag || v) then some (true, some c, st)
            else findGo g findAll afterFind afterFail fuel
              (.rloop stack bytes rest (flag || v)) (some c) st
          | none =>
            match findGo g findAll afterFind afterFail fuel
              (.ecall (stack.take r.stackOffset) top (some (bytes.drop rem))) (some c) st with
            | none => none
            | some (v, cache', st') =>
              if !findAll && (flag || v) then
                some (true, some (((rKey stack r, bytes.drop rem), v) :: cache'.getD []), st')
              else findGo g findAll afterFind afterFail fuel
                (.rloop stack bytes rest (flag || v))
                (some (((rKey stack r, bytes.drop rem), v) :: cache'.getD [])) st'
        | none =>
          match findGo g findAll afterFind afterFail fuel
            (.ecall (stack.take r.stackOffset) top (some (bytes.drop rem))) none st with
          | none => none
          | some (v, _, st') =>
            if !findAll && (flag || v) then some (true, none, st')
            else findGo g findAll afterFind afterFail fuel
              (.rloop stack bytes rest (flag || v)) none st'
      | _ => none

/-- `AcceptTokensResult` from `sampler.rs`. -/
inductive AcceptTokensResult where
  | Continue
  | End
  | Failed
  deriving DecidableEq, Repr

/-- `PossibleTokensResult` from `sampler.rs` (the `Continue` borrow of the id
bit-set is embedded by value). -/
inductive PossibleTokensResult where
  | Continue (ids : Finset ℕ)
  | End
  | InputTokenRejected
  deriving DecidableEq

/-- `Vec::swap_remove(i)`: replace index `i` with the last element and pop. -/
def swapRemove {α : Type} (l : List α) (i : Nat) : List α :=
  if i + 1 = l.length then l.dropLast
  else
    match l.getLast? with
    | none => l
    | some last => (l.set i last).dropLast

/-- The `for i in (0..len).rev() { self.stacks.swap_remove(i); }` loop of
`accept_a_token` (lines 366-368). -/
def swapRemoveAll {α : Type} (l : List α) : Nat → List α
  | 0 => l
  | n + 1 => swapRemoveAll (swapRemove l n) n

/-- The successor stack built by the `after_finding_stack` callback of
`accept_a_token` (lines 348-352): the reported stack prefix plus the modified
top item when present. -/
def acceptNewVec (tempStack : List StackItem) (top : Option StackItem) :
    List StackItem :=
  tempStack ++ (match top with | some t => [t] | none => [])

/-- The `after_finding_stack` callback of `accept_a_token` (lines 347-356):
build the successor stack and push it unless it duplicates one of the
already-appended stacks (`self.stacks[len..]`). -/
def acceptCallback (app : List (List StackItem)) (tempStack : List StackItem)
    (top : Option StackItem) : List (List StackItem) :=
  if acceptNewVec tempStack top ∈ app then app else app ++ [acceptNewVec tempStack top]

/-- One pass of the closure `find_stacks_matching_bytes` inside
`accept_a_token` (lines 319-377), before the result classification: run the
matcher over every current stack (skipping empty ones, as the source's
`stack.last()` match does), collecting appended successor stacks.  The byte
cache is created fresh per original stack, as in the source. -/
def acceptLoop (fuel : Nat) (g : Grammar) (cacheEnabled : Bool)
    (bytes? : Option (List Nat)) :
    List (List StackItem) → Bool → List (List StackItem) →
    Option (Bool × List (List StackItem))
  | [], acc, app => some (acc, app)
  | s :: rest, acc, app =>
    if s.isEmpty then acceptLoop fuel g cacheEnabled bytes? rest acc app
    else
      match findGo g true acceptCallback (fun st _ _ => st) fuel (.fcall s bytes?)
        (if cacheEnabled then some [] else none) app with
      | none => none
      | some (v, _, app') => acceptLoop fuel g cacheEnabled bytes? rest (acc || v) app'

/-- One full pass (`find_stacks_matching_bytes(bytes)` closure in
`accept_a_token`): match all stacks, swap-remove the original ones, and
classify the result. -/
def acceptPass (fuel : Nat) (g : Grammar) (cacheEnabled : Bool)
    (stks : List (List StackItem)) (bytes? : Option (List Nat)) :
    Option (AcceptTokensResult × List (List StackItem)) :=
  match acceptLoop fuel g cacheEnabled bytes? stks false [] with
  | none => none
  | some (accepted, app) =>
    let stks' := swapRemoveAll (stks ++ app) stks.length
    let r : AcceptTokensResult :=
      if accepted then
        if stks'.isEmpty || stks'.all (fun x => x.isEmpty) then .End else .Continue
      else .Failed
    some (r, stks')

/-- `Sampler::accept_a_token` (lines 318-387): if a token id is given, first
consume its bytes (returning early on `Failed`/`End`), then run the
canonicalising `None` pass.  The token bytes come from `id_to_token` (the
source panics on an unknown id; we default to the empty byte string —
theorems hypothesise known ids). -/
def acceptAToken (fuel : Nat) (g : Grammar) (v : Vocabulary) (cacheEnabled : Bool)
    (stks : List (List StackItem)) (tokenId? : Option ℕ) :
    Option (AcceptTokensResult × List (List StackItem)) :=
  match tokenId? with
  | some id =>
    let bytes := (assocFind v.idToToken id).getD []
    match acceptPass fuel g cacheEnabled stks (some bytes) with
    | none => none
    | some (r, stks') =>
      if r = .Failed ∨ r = .End then some (r, stks')
      else acceptPass fuel g cacheEnabled stks' none
  | none => acceptPass fuel g cacheEnabled stks none

/-- Longest prefix of `q` that is a prefix of some key (the byte-level
behaviour of `qp_trie`'s `longest_common_prefix`). -/
def qpLcp (keys : List (List Nat)) (q : List Nat) : List Nat :=
  go q.length
where
  go : Nat → List Nat
    | 0 => []
    | n + 1 =>
      let cand := q.take (n + 1)
      if keys.any (fun k => decide (cand <+: k)) then cand else go n

/-- `token_to_id.iter_prefix(p)`: all vocabulary entries whose bytes start
with `p`, in entry (lexicographic) order. -/
def iterPref (v : Vocabulary) (p : List Nat) : List (List Nat × ℕ) :=
  v.tokenToId.filter (fun e => decide (p <+: e.1))

/-- `TerminalsTrie::iter(node)` (the `TerminalsTrieIter`): depth-first
pre-order walk below `node` yielding, for every node carrying a `value`,
that value with the first `index`-of-`node` bytes removed. -/
def trieValuesGo (t : TerminalsTrie) : Nat → Nat → List (List Nat)
  | 0, _ => []
  | fuel + 1, n =>
    (t.get n).children.flatMap
      (fun c =>
        (match (t.get c.2).value with
         | some v => [v]
         | none => []) ++ trieValuesGo t fuel c.2)

/-- The terminal byte strings reachable strictly below `start`, relative to
`start`'s depth. -/
def trieValues (fuel : Nat) (t : TerminalsTrie) (start : Nat) : List (List Nat) :=
  (trieValuesGo t fuel start).map (fun v => v.drop (t.get start).index)

/-- `BufferOrTreeIter::new` + its `Iterator` implementation (lines 89-160):
the candidate token enumeration for one stack, keyed on the stack top.
A `nonterminal` top panics in the source (unreachable for canonical stacks);
an empty stack panics at the `stack.last().unwrap()` call site — both are
embedded as an empty candidate list. -/
def candidatesFor (fuel : Nat) (g : Grammar) (v : Vocabulary)
    (top? : Option StackItem) : List (List Nat × ℕ) :=
  match top? with
  | some (.terminal t) => iterPref v (qpLcp (v.tokenToId.map (fun e => e.1)) t)
  | some (.terminals nid) =>
    if 127 < (g.terminalsTrie.get nid).children.length then v.tokenToId
    else
      (trieValues fuel g.terminalsTrie nid).flatMap
        (fun key => iterPref v (qpLcp (v.tokenToId.map (fun e => e.1)) key))
  | some (.nonterminal _) => []
  | none => []

/-- The skip-optimisation of `all_possible_next_tokens` (lines 224-246): for
each stack whose top is a `Terminals` node that is the root of a nonterminal
with a precomputed token-id set, union that set (deduplicating visited node
ids).  An empty stack would panic in the source (`expect`); unreachable. -/
def skipUnion (g : Grammar) (stks : List (List StackItem)) (ids0 : Finset ℕ) : Finset ℕ :=
  (stks.foldl
    (fun (acc : Finset ℕ × Finset Nat) stack =>
      match stack.getLast? with
      | some (.terminals nid) =>
        if nid ∈ acc.2 then acc
        else
          match (g.terminalsTrie.roots.find? (fun p => decide (p.2 = nid))).map
              (fun p => p.1) with
          | some k =>
            match assocFind g.nonterminalToTokenIds k with
            | some x => (acc.1 ∪ x, insert nid acc.2)
            | none => acc
          | none => acc
      | _ => acc)
    (ids0, (∅ : Finset Nat))).1

/-- Insert a key into the `failed_prefixs` qp-trie (embedded as its key set). -/
def insertKey (fp : List (List Nat)) (k : List Nat) : List (List Nat) :=
  if k ∈ fp then fp else fp ++ [k]

/-- The `after_match_failed` callback of `all_possible_next_tokens`
(lines 295-302): record `bytes[..index+1]` unless `index == usize::MAX`. -/
def failCallback (fp : List (List Nat)) (bytes : List Nat) (idx : Option Nat) :
    List (List Nat) :=
  match idx with
  | some i => insertKey fp (bytes.take (i + 1))
  | none => fp

/-- The per-token loop body inside the `or_insert_with` closure of
`all_possible_next_tokens` (lines 264-308), for one stack: skip tokens whose
id is already present or which are pruned by the failed-prefix trie, else run
the matcher in find-one mode.  Threads the token-id set, the per-stack
failed-prefix key set, and the cross-stack byte cache. -/
def tokenLoop (fuel : Nat) (g : Grammar) (cacheEnabled : Bool)
    (stack : List StackItem) :
    List (List Nat × ℕ) → Finset ℕ → List (List Nat) → Cache →
    Option (Finset ℕ × Cache)
  | [], ids, _, c => some (ids, c)
  | (tok, tid) :: rest, ids, fp, c =>
    if tid ∈ ids ∨ qpLcp fp tok ∈ fp then
      tokenLoop fuel g cacheEnabled stack rest ids fp c
    else
      match findGo g false (fun st _ _ => st) failCallback fuel (.fcall stack (some tok))
        (if cacheEnabled then some c else none) fp with
      | none => none
      | some (res, c', fp') =>
        tokenLoop fuel g cacheEnabled stack rest
          (if res then insert tid ids else ids) fp' (if cacheEnabled then c'.getD [] else c)

/-- The stack loop of the `or_insert_with` closure (lines 255-310): a fresh
failed-prefix trie per stack, the byte cache shared across stks and
tokens. -/
def stacksTokenLoop (fuel : Nat) (g : Grammar) (v : Vocabulary) (cacheEnabled : Bool) :
    List (List StackItem) → Finset ℕ → Cache → Option (Finset ℕ)
  | [], ids, _ => some ids
  | stack :: rest, ids, c =>
    match tokenLoop fuel g cacheEnabled stack
      (candidatesFor fuel g v stack.getLast?) ids [] c with
    | none => none
    | some (ids', c') => stacksTokenLoop fuel g v cacheEnabled rest ids' c'

/-- The mutable engine state of `Sampler` (the immutable grammar and
vocabulary are passed separately). -/
structure SamplerState where
  stks : List (List StackItem)
  stacksToTokenIds : List (List (List StackItem) × Finset ℕ)
  tokenIds : Finset ℕ
  deriving DecidableEq

/-- `Sampler::all_possible_next_tokens` (lines 214-316). -/
def allPossibleNextTokens (fuel : Nat) (g : Grammar) (v : Vocabulary)
    (cacheEnabled : Bool) (s : SamplerState) (tokenId? : Option ℕ) :
    Option (PossibleTokensResult × SamplerState) :=
  match acceptAToken fuel g v cacheEnabled s.stks tokenId? with
  | none => none
  | some (.End, stks') =>
    some (.End, { s with stks := stks', tokenIds := ∅ })
  | some (.Failed, stks') =>
    some (.InputTokenRejected, { s with stks := stks', tokenIds := ∅ })
  | some (.Continue, stks') =>
    let skipIds := skipUnion g stks' ∅
    match assocFind s.stacksToTokenIds stks' with
    | some cached =>
      some (.Continue cached,
        { stks := stks', stacksToTokenIds := s.stacksToTokenIds, tokenIds := skipIds })
    | none =>
      match stacksTokenLoop fuel g v cacheEnabled stks' skipIds [] with
      | none => none
      | some ids =>
        some (.Continue ids,
          { stks := stks',
            stacksToTokenIds := (stks', ids) :: s.stacksToTokenIds,
            tokenIds := ids })

/-- Construction failures of `Sampler::new`.  The source indexes
`nonterminal_to_terminal_id` and panics on a missing start name
(`panicKeyNotFound`); `unknownStartNonterminal` is the error the
specification describes and is never produced by the code. -/
inductive NewError where
  | panicKeyNotFound
  | unknownStartNonterminal
  deriving DecidableEq, Repr

/-- `Sampler::new` (lines 181-206), reduced to its observable state. -/
def samplerNew (g : Grammar) (startNT : String) : Except NewError SamplerState :=
  match assocFind g.nonterminalToTerminalId startNT with
  | none => .error .panicKeyNotFound
  | some id => .ok { stks := [[.nonterminal id]], stacksToTokenIds := [], tokenIds := ∅ }

/-- `Sampler::reset` (lines 208-212): restore the initial stack, keep the
caches.  (The start name is resolved again; for constructed samplers the
lookup succeeds.) -/
def resetSampler (g : Grammar) (startNT : String) (s : SamplerState) : SamplerState :=
  { s with stks := [[.nonterminal ((assocFind g.nonterminalToTerminalId startNT).getD 0)]] }

/-- `StackArena` from `src/sampler/src/stack.rs`. -/
structure StackArena (T : Type) where
  arena : List (Option T)
  currentPtr : Nat

/-- `StackArena::with_capacity`. -/
def StackArena.withCapacity (T : Type) (cap : Nat) : StackArena T :=
  ⟨List.replicate cap none, 0⟩

/-- Failure modes of stack allocation.  The source's
`allocate_a_stack` takes `&mut self.arena[self.current_ptr..self.current_ptr + capacity]`,
which panics with a slice-index-out-of-range error when the remaining
capacity is smaller than the request (`panicSliceOutOfBounds`).
`stackArenaExhausted` is the recoverable error the specification describes;
no such error value exists anywhere in the source. -/
inductive ArenaError where
  | panicSliceOutOfBounds
  | stackArenaExhausted
  deriving DecidableEq, Repr

/-- `StackArena::allocate_a_stack` (src/sampler/src/stack.rs, lines 19-23). -/
def allocateAStack {T : Type} (a : StackArena T) (capacity : Nat) :
    Except ArenaError (List (Option T) × StackArena T) :=
  if a.currentPtr + capacity ≤ a.arena.length then
    .ok ((a.arena.drop a.currentPtr).take capacity,
      { a with currentPtr := a.currentPtr + capacity })
  else .error .panicSliceOutOfBounds

/-- Remaining capacity of the arena. -/
def StackArena.remaining {T : Type} (a : StackArena T) : Nat :=
  a.arena.length - a.currentPtr

/-- The token predicate of the `add_tokens` closure in `Grammar::new`
(grammar.rs, lines 118-126): with excepted literals, keep a token iff it
differs from every literal and contains none of them as a sub-sequence
(`memmem::find(haystack, x).is_none()`). -/
def exceptPredB (excepted? : Option (List (List Nat))) (tok : List Nat) : Bool :=
  match excepted? with
  | none => true
  | some xs => xs.all (fun x => decide (tok ≠ x) && ! decide (x <:+: tok))

/-- The production set `add_tokens` installs for the nonterminal
(grammar.rs, lines 129-137 / 158-165): one single-terminal right-hand side
per kept vocabulary token. -/
def addTokensExprs (v : Vocabulary) (excepted? : Option (List (List Nat))) :
    List (List U8Term) :=
  (v.tokenToId.filter (fun e => exceptPredB excepted? e.1)).map
    (fun e => [U8Term.terminal e.1])

/-- The id bit-set `add_tokens` records in `nonterminal_to_token_ids`
(grammar.rs, lines 145-155 / 166-176). -/
def addTokensIdSet (v : Vocabulary) (excepted? : Option (List (List Nat))) : Finset ℕ :=
  (v.tokenToId.filter (fun e => exceptPredB excepted? e.1)).foldl
    (fun s e => insert e.2 s) ∅

/-- The trie insertions of `add_tokens`: every vocabulary token is added under
the nonterminal's root with `can_stop = false` (both branches). -/
def addTokensTrie (v : Vocabulary) (t : TerminalsTrie) (ntid : Nat) : TerminalsTrie :=
  v.tokenToId.foldl (fun tr e => tr.add e.1 ntid false) t

/-- Walk the trie from `n` along `w`, failing on a missing child or on any
visited node carrying a `negative_bytes_index` marker (the matcher backtracks
and discards such completions; the start node's own marker is not consulted,
matching `_match_stack_to_bytes`). -/
def trieWalk (t : TerminalsTrie) : Nat → List Nat → Option Nat
  | n, [] => some n
  | n, b :: bs =>
    match childLookup (t.get n) b with
    | some c =>
      if (t.get c).negativeBytesIndex.isSome then none
      else trieWalk t c bs
    | none => none

/-- A complete terminal of the sub-trie at `n`: the walk succeeds and the
final node carries a `value` marker. -/
def trieAccepts (t : TerminalsTrie) (n : Nat) (w : List Nat) : Bool :=
  match trieWalk t n w with
  | some m => (t.get m).value.isSome
  | none => false

/-- Derivation semantics of a sentential form (a list of stack items, leftmost
symbol first): a nonterminal expands through the grammar's production table, a
terminal contributes its bytes, and a `terminals` trie item contributes any
complete terminal of its sub-trie.  This is the language the grammar data
structure denotes; `SentDerives g [.nonterminal s] w` says `w ∈ L(g)` from
start id `s`. -/
inductive SentDerives (g : Grammar) : List StackItem → List Nat → Prop where
  | nil : SentDerives g [] []
  | term {t rest w} : SentDerives g rest w →
      SentDerives g (.terminal t :: rest) (t ++ w)
  | expand {id es e rest w} : exprFind g id = .expressions es → e ∈ es →
      SentDerives g (e.map (toItem g) ++ rest) w →
      SentDerives g (.nonterminal id :: rest) w
  | expandT {id nid rest w} : exprFind g id = .terminals nid →
      SentDerives g (.terminals nid :: rest) w →
      SentDerives g (.nonterminal id :: rest) w
  | tnode {nid t rest w} : trieAccepts g.terminalsTrie nid t = true →
      SentDerives g rest w →
      SentDerives g (.terminals nid :: rest) (t ++ w)

/-- Derivation from a parser stack: the stack's top is its last element, so
the sentential form is the reversed stack. -/
def StackDerives (g : Grammar) (stack : List StackItem) (w : List Nat) : Prop :=
  SentDerives g stack.reverse w

/-- `w` is a word of the grammar's language from start id `s`. -/
def InLanguage (g : Grammar) (s : Nat) (w : List Nat) : Prop :=
  SentDerives g [.nonterminal s] w

/-- The bytes `acc ++ tok` extend into a prefix of some word of the language:
the legality notion of the specification's claims. -/
def ExtendsIntoPrefix (g : Grammar) (s : Nat) (acc tok : List Nat) : Prop :=
  ∃ rest, InLanguage g s (acc ++ tok ++ rest)

/-- The optional modified item of a match result as a zero- or one-element
item list (the successor-stack suffix `find_stacks_matching_bytes` reports). -/
def modL : Option StackItem → List StackItem
  | some m => [m]
  | none => []

/-- An item is productive: on its own it derives at least one byte string. -/
def ItemProd (g : Grammar) (it : StackItem) : Prop :=
  ∃ w, SentDerives g [it] w

/-- Every item of the stack is productive (so the stack as a whole derives at
least one byte string). -/
def GoodStack (g : Grammar) (stack : List StackItem) : Prop :=
  ∀ it ∈ stack, ItemProd g it

/-- The trie carries no `negative_bytes_index` markers: the grammar uses no
`except!` construct. -/
def MarkerFree (t : TerminalsTrie) : Prop :=
  ∀ n, (t.get n).negativeBytesIndex = none

/-- Every child pointer of every node stays inside the arena. -/
def ChildrenWf (t : TerminalsTrie) : Prop :=
  ∀ n p, p ∈ (t.get n).children → p.2 < t.arena.length

/-- Every arena node completes to some terminal of its sub-trie. -/
def NodesProd (g : Grammar) : Prop :=
  ∀ n, n < g.terminalsTrie.arena.length → ItemProd g (.terminals n)

/-- The production table is productive: expansion pushes only productive
items, and `terminals` entries point into the arena. -/
def GramProd (g : Grammar) : Prop :=
  (∀ id es, exprFind g id = .expressions es →
    ∀ e ∈ es, ∀ tm ∈ e, ItemProd g (toItem g tm)) ∧
  (∀ id nid, exprFind g id = .terminals nid → nid < g.terminalsTrie.arena.length)

/-- Soundness of one byte-match result for `stack` against demand `bytes`: a
leaf result (demand fully consumed) maps every word of the reported residual
stack to a word of the original stack extending `bytes`, and its modified
item is productive; a partial result stops at a nonterminal of the stack with
the demand tail starting at `rem`. -/
def ResultSound (g : Grammar) (stack : List StackItem) (bytes : List Nat)
    (r : BytesMatchResult) : Prop :=
  (r.remainingBytesStart = none →
    (∀ m, r.modifiedItemAtOffset = some m → ItemProd g m) ∧
    ∀ w, SentDerives g
        ((stack.take r.stackOffset ++ modL r.modifiedItemAtOffset).reverse) w →
      SentDerives g stack.reverse (bytes ++ w)) ∧
  (∀ rem, r.remainingBytesStart = some rem →
    r.modifiedItemAtOffset = none ∧ rem ≤ bytes.length ∧
    r.stackOffset < stack.length ∧
    (∃ nt, stack.getD r.stackOffset (.nonterminal 0) = .nonterminal nt) ∧
    ∀ w, SentDerives g ((stack.take (r.stackOffset + 1)).reverse) w →
      SentDerives g stack.reverse (bytes.take rem ++ w))

/-! Concrete instances (byte codes: 'a' = 97, 'b' = 98, 'c' = 99, 'd' = 100).
Each grammar value is written as `Grammar::new` produces it: nonterminals
whose right-hand sides are all single terminals are collapsed to a
`terminals` trie root whose nodes carry `can_stop = true`. -/

/-- Grammar `<s> ::= 'a' <n>`, `<n> ::= 'c'`. -/
def gACn : Grammar where
  nonterminalIdToExpression :=
    [(0, .expressions [[.terminal [97], .nonterminal "n"]]), (1, .terminals 0)]
  nonterminalToTerminalId := [("s", 0), ("n", 1)]
  terminalsTrie :=
    { roots := [(1, 0)],
      arena := [⟨0, true, none, none, [(99, 1)]⟩, ⟨1, true, none, some [99], []⟩] }
  nonterminalToTokenIds := []

/-- Vocabulary `{0 ↦ "aab", 1 ↦ "ac"}` (entry list in qp-trie order). -/
def vACn : Vocabulary where
  tokenToId := [([97, 97, 98], 0), ([97, 99], 1)]
  idToToken := [(0, [97, 97, 98]), (1, [97, 99])]

/-- Grammar `<s> ::= 'a' <n>`, `<n> ::= 'b' <n>`: the nonterminal `n` is
unproductive, so the language is empty. -/
def gUnprod : Grammar where
  nonterminalIdToExpression :=
    [(0, .expressions [[.terminal [97], .nonterminal "n"]]),
     (1, .expressions [[.terminal [98], .nonterminal "n"]])]
  nonterminalToTerminalId := [("s", 0), ("n", 1)]
  terminalsTrie := { roots := [], arena := [] }
  nonterminalToTokenIds := []

/-- Vocabulary `{0 ↦ "a"}`. -/
def vUnprod : Vocabulary where
  tokenToId := [([97], 0)]
  idToToken := [(0, [97])]

/-- Grammar `<s> ::= 'a' <n1> | 'c' <n2>`, `<n1> ::= 'd'`, `<n2> ::= 'b'`
(language `{"ad", "cb"}`); the expression-set iteration order lists the
`'a' <n1>` alternative first. -/
def gCache : Grammar where
  nonterminalIdToExpression :=
    [(0, .expressions [[.terminal [97], .nonterminal "n1"],
                       [.terminal [99], .nonterminal "n2"]]),
     (1, .terminals 0), (2, .terminals 2)]
  nonterminalToTerminalId := [("s", 0), ("n1", 1), ("n2", 2)]
  terminalsTrie :=
    { roots := [(1, 0), (2, 2)],
      arena := [⟨0, true, none, none, [(100, 1)]⟩, ⟨1, true, none, some [100], []⟩,
                ⟨0, true, none, none, [(98, 3)]⟩, ⟨1, true, none, some [98], []⟩] }
  nonterminalToTokenIds := []

/-- Vocabulary `{0 ↦ "ab", 1 ↦ "cb"}`. -/
def vCache : Vocabulary where
  tokenToId := [([97, 98], 0), ([99, 98], 1)]
  idToToken := [(0, [97, 98]), (1, [99, 98])]

/-- Grammar `<s> ::= 'a' | 'a' <s>` (language `{"a", "aa", ...}`). -/
def gAs : Grammar where
  nonterminalIdToExpression :=
    [(0, .expressions [[.terminal [97]], [.terminal [97], .nonterminal "s"]])]
  nonterminalToTerminalId := [("s", 0)]
  terminalsTrie := { roots := [], arena := [] }
  nonterminalToTokenIds := []

/-- Vocabulary `{0 ↦ "a"}`. -/
def vAs : Vocabulary where
  tokenToId := [([97], 0)]
  idToToken := [(0, [97])]

/-- The freshly constructed engine state with start id 0. -/
def initState : SamplerState :=
  { stks := [[.nonterminal 0]], stacksToTokenIds := [], tokenIds := ∅ }

/-! Helper lemmas. -/

theorem getD_append_lt {α : Type} [Inhabited α] (l l' : List α) (n : Nat)
    (h : n < l.length) : (l ++ l').getD n default = l.getD n default := by
  rw [List.getD_eq_getElem?_getD, List.getD_eq_getElem?_getD, List.getElem?_append,
    if_pos h]

theorem canStop_setNode (t : TerminalsTrie) (i : Nat) (m : TrieNode)
    (h : m.canStop = (t.get i).canStop) (j : Nat) :
    ((t.setNode i m).get j).canStop = (t.get j).canStop := by
  show ((t.arena.set i m).getD j default).canStop = (t.arena.getD j default).canStop
  rcases eq_or_ne i j with rfl | hne
  · by_cases hi : i < t.arena.length
    · rw [List.getD_eq_getElem?_getD, List.getElem?_set_self hi, Option.getD_some]
      exact h
    · rw [List.set_eq_of_length_le (le_of_not_lt hi)]
  · rw [List.getD_eq_getElem?_getD, List.getElem?_set, if_neg hne,
      ← List.getD_eq_getElem?_getD]

theorem get_arena_append (t : TerminalsTrie) (ns : List TrieNode) (j : Nat)
    (hj : j < t.arena.length) :
    (TerminalsTrie.mk t.roots (t.arena ++ ns)).get j = t.get j := by
  unfold TerminalsTrie.get
  exact getD_append_lt _ _ _ hj

theorem growChild_length (t : TerminalsTrie) (cur : Nat) (b : Nat) (cs : Bool) :
    (growChild t cur b cs).arena.length = t.arena.length + 1 := by
  simp [growChild, grown, TerminalsTrie.setNode]

theorem growChild_canStop_old (t : TerminalsTrie) (cur : Nat) (b : Nat) (cs : Bool)
    (j : Nat) (hj : j < t.arena.length) :
    ((growChild t cur b cs).get j).canStop = (t.get j).canStop := by
  unfold growChild
  refine Eq.trans (canStop_setNode _ cur _ ?_ j) ?_
  · rfl
  · exact congrArg TrieNode.canStop
      (get_arena_append t [⟨(t.get cur).index + 1, cs, none, none, []⟩] j hj)

theorem growChild_canStop_new (t : TerminalsTrie) (cur : Nat) (b : Nat) (cs : Bool) :
    ((growChild t cur b cs).get t.arena.length).canStop = cs := by
  unfold growChild
  refine Eq.trans (canStop_setNode _ cur _ ?_ _) ?_
  · rfl
  · show ((grown t cur cs).get t.arena.length).canStop = cs
    unfold grown TerminalsTrie.get
    rw [List.getD_eq_getElem?_getD, List.getElem?_append, if_neg (lt_irrefl _)]
    simp

theorem addLoop_canStop (full : List Nat) (cs : Bool) :
    ∀ (bs : List Nat) (t : TerminalsTrie) (cur : Nat) (j : Nat),
      j < t.arena.length →
      ((addLoop t cur full cs bs).get j).canStop = (t.get j).canStop := by
  intro bs
  induction bs with
  | nil =>
    intro t cur j _
    refine canStop_setNode t cur _ ?_ j
    rfl
  | cons b rest ih =>
    intro t cur j hj
    unfold addLoop
    cases hc : childLookup (t.get cur) b with
    | some cid => exact ih t cid j hj
    | none =>
      have hj' : j < (growChild t cur b cs).arena.length := by
        rw [growChild_length]
        exact Nat.lt_succ_of_lt hj
      rw [ih (growChild t cur b cs) t.arena.length j hj',
        growChild_canStop_old t cur b cs j hj]

theorem addLoop_arena_le (full : List Nat) (cs : Bool) :
    ∀ (bs : List Nat) (t : TerminalsTrie) (cur : Nat),
      t.arena.length ≤ (addLoop t cur full cs bs).arena.length := by
  intro bs
  induction bs with
  | nil =>
    intro t cur
    show t.arena.length ≤ (t.arena.set cur _).length
    rw [List.length_set]
  | cons b rest ih =>
    intro t cur
    unfold addLoop
    cases hc : childLookup (t.get cur) b with
    | some cid => exact ih t cid
    | none =>
      refine le_trans ?_ (ih (growChild t cur b cs) t.arena.length)
      rw [growChild_length]
      omega

theorem addLoop_new_canStop (full : List Nat) (cs : Bool) :
    ∀ (bs : List Nat) (t : TerminalsTrie) (cur : Nat) (j : Nat),
      t.arena.length ≤ j → j < (addLoop t cur full cs bs).arena.length →
      ((addLoop t cur full cs bs).get j).canStop = cs := by
  intro bs
  induction bs with
  | nil =>
    intro t cur j hj hj'
    have hlen : (addLoop t cur full cs []).arena.length = t.arena.length := by
      show (t.arena.set cur { t.get cur with value := some full }).length = t.arena.length
      exact List.length_set _ _ _
    omega
  | cons b rest ih =>
    intro t cur j hj hj'
    unfold addLoop at hj' ⊢
    cases hc : childLookup (t.get cur) b with
    | some cid =>
      rw [hc] at hj'
      exact ih t cid j hj hj'
    | none =>
      rw [hc] at hj'
      simp only at hj' ⊢
      rcases eq_or_lt_of_le hj with heq | hlt
      · have hjlt : j < (growChild t cur b cs).arena.length := by
          rw [growChild_length]; omega
        rw [addLoop_canStop full cs rest _ _ j hjlt, ← heq]
        exact growChild_canStop_new t cur b cs
      · exact ih (growChild t cur b cs) t.arena.length j
          (by rw [growChild_length]; omega) hj'

theorem get_mk_append (roots' : List (Nat × Nat)) (t : TerminalsTrie)
    (ns : List TrieNode) (j : Nat) (hj : j < t.arena.length) :
    (TerminalsTrie.mk roots' (t.arena ++ ns)).get j = t.get j := by
  unfold TerminalsTrie.get
  exact getD_append_lt _ _ _ hj

theorem get_mk_append_at_length (roots' : List (Nat × Nat)) (t : TerminalsTrie)
    (n : TrieNode) :
    (TerminalsTrie.mk roots' (t.arena ++ [n])).get t.arena.length = n := by
  unfold TerminalsTrie.get
  rw [List.getD_eq_getElem?_getD, List.getElem?_append, if_neg (lt_irrefl _)]
  simp

/-- C10: `TerminalsTrie::add` assigns the `can_stop` flag only to the nodes it
creates during that call: every node that existed before the call keeps its
flag unchanged (in particular, re-inserting an already-present terminal with a
different `can_stop` value updates no flag), and every node the call creates
carries the call's `can_stop` argument. -/
theorem C10_add_can_stop_frame (t : TerminalsTrie) (terminal : List Nat) (ntid : Nat)
    (cs : Bool) :
    (∀ nid, nid < t.arena.length →
      ((t.add terminal ntid cs).get nid).canStop = (t.get nid).canStop) ∧
    (∀ nid, t.arena.length ≤ nid → nid < (t.add terminal ntid cs).arena.length →
      ((t.add terminal ntid cs).get nid).canStop = cs) := by
  unfold TerminalsTrie.add
  cases hr : assocFind t.roots ntid with
  | some r =>
    simp only
    constructor
    · intro nid hnid
      have h1 : nid < (TerminalsTrie.mk t.roots
          (t.arena ++ [⟨0, cs, none, none, []⟩])).arena.length := by
        simp only [List.length_append, List.length_singleton]
        omega
      rw [addLoop_canStop terminal cs terminal _ r nid h1,
        get_mk_append t.roots t [⟨0, cs, none, none, []⟩] nid hnid]
    · intro nid hnid hnid'
      rcases eq_or_lt_of_le hnid with heq | hlt
      · have h1 : nid < (TerminalsTrie.mk t.roots
            (t.arena ++ [⟨0, cs, none, none, []⟩])).arena.length := by
          simp only [List.length_append, List.length_singleton]
          omega
        rw [addLoop_canStop terminal cs terminal _ r nid h1, ← heq,
          get_mk_append_at_length t.roots t ⟨0, cs, none, none, []⟩]
      · exact addLoop_new_canStop terminal cs terminal _ r nid
          (by simp only [List.length_append, List.length_singleton]; omega) hnid'
  | none =>
    simp only
    constructor
    · intro nid hnid
      have h1 : nid < (TerminalsTrie.mk (t.roots ++ [(ntid, t.arena.length)])
          (t.arena ++ [⟨0, cs, none, none, []⟩])).arena.length := by
        simp only [List.length_append, List.length_singleton]
        omega
      rw [addLoop_canStop terminal cs terminal _ t.arena.length nid h1,
        get_mk_append (t.roots ++ [(ntid, t.arena.length)]) t
          [⟨0, cs, none, none, []⟩] nid hnid]
    · intro nid hnid hnid'
      rcases eq_or_lt_of_le hnid with heq | hlt
      · have h1 : nid < (TerminalsTrie.mk (t.roots ++ [(ntid, t.arena.length)])
            (t.arena ++ [⟨0, cs, none, none, []⟩])).arena.length := by
          simp only [List.length_append, List.length_singleton]
          omega
        rw [addLoop_canStop terminal cs terminal _ t.arena.length nid h1, ← heq,
          get_mk_append_at_length (t.roots ++ [(ntid, t.arena.length)]) t
            ⟨0, cs, none, none, []⟩]
      · exact addLoop_new_canStop terminal cs terminal _ t.arena.length nid
          (by simp only [List.length_append, List.length_singleton]; omega) hnid'

/-- Witness for C10 at a concrete trie: re-inserting below the existing root
of `gACn` (which has `can_stop = true` everywhere) with `can_stop = false`
leaves node 0 unchanged, while a node created by the call gets `false`. -/
theorem C10_witness :
    ((gACn.terminalsTrie.add [99, 100] 1 false).get 0).canStop =
      (gACn.terminalsTrie.get 0).canStop ∧
    ((gACn.terminalsTrie.add [99, 100] 1 false).get 2).canStop = false :=
  ⟨(C10_add_can_stop_frame gACn.terminalsTrie [99, 100] 1 false).1 0 (by decide),
   (C10_add_can_stop_frame gACn.terminalsTrie [99, 100] 1 false).2 2 (by decide) (by decide)⟩

/-- C8 counterexample: at an arena with remaining capacity 1, a request for 2
slots does not fail with a `StackArenaExhausted` error value — the code
panics on the out-of-range slice (`self.arena[p .. p + cap]`); no
`StackArenaExhausted` error exists in the source. -/
theorem C8_counterexample :
    allocateAStack (StackArena.withCapacity StackItem 1) 2 =
      .error .panicSliceOutOfBounds ∧
    (StackArena.withCapacity StackItem 1).remaining < 2 ∧
    ArenaError.panicSliceOutOfBounds ≠ ArenaError.stackArenaExhausted :=
  ⟨rfl, by decide, by decide⟩

/-- C8 amended: every allocation request larger than the remaining capacity
panics with the out-of-range slice index (uniformly), rather than returning a
recoverable `StackArenaExhausted` error. -/
theorem C8_amended {T : Type} (a : StackArena T) (cap : Nat)
    (h : a.remaining < cap) :
    allocateAStack a cap = .error .panicSliceOutOfBounds := by
  have hn : ¬ (a.currentPtr + cap ≤ a.arena.length) := by
    unfold StackArena.remaining at h
    omega
  simp [allocateAStack, hn]

/-- Witness for the amended C8 at a concrete exhausted arena. -/
theorem C8_witness :
    (StackArena.withCapacity StackItem 1).remaining < 2 ∧
    allocateAStack (StackArena.withCapacity StackItem 1) 2 =
      .error .panicSliceOutOfBounds :=
  ⟨by decide, C8_amended (StackArena.withCapacity StackItem 1) 2 (by decide)⟩

/-- C9 counterexample: constructing a sampler whose start name is not a
grammar nonterminal does not fail with `UnknownStartNonterminal` — the code
panics on the missing hash-map key
(`grammar.nonterminal_to_terminal_id[&start_nonterminal]`). -/
theorem C9_counterexample :
    samplerNew gACn "start" = .error .panicKeyNotFound ∧
    NewError.panicKeyNotFound ≠ NewError.unknownStartNonterminal :=
  ⟨rfl, by decide⟩

/-- C9 amended: when the start name is not a key of
`nonterminal_to_terminal_id`, `Sampler::new` panics on the missing key; no
`UnknownStartNonterminal` error value exists in the source. -/
theorem C9_amended (g : Grammar) (startNT : String)
    (h : assocFind g.nonterminalToTerminalId startNT = none) :
    samplerNew g startNT = .error .panicKeyNotFound := by
  unfold samplerNew
  rw [h]

/-- Witness for the amended C9 at a concrete grammar. -/
theorem C9_witness :
    assocFind gACn.nonterminalToTerminalId "start" = none ∧
    samplerNew gACn "start" = .error .panicKeyNotFound :=
  ⟨rfl, C9_amended gACn "start" rfl⟩

theorem assocFind_mem {α β : Type} [DecidableEq α] {l : List (α × β)} {k : α} {v : β}
    (h : assocFind l k = some v) : (k, v) ∈ l := by
  unfold assocFind at h
  cases hf : l.find? (fun p => decide (p.1 = k)) with
  | none => rw [hf] at h; exact Option.noConfusion h
  | some p =>
    rw [hf] at h
    have h2 : p.2 = v := Option.some.inj h
    have hmem := List.mem_of_find?_eq_some hf
    have hkey := List.find?_some hf
    simp only [decide_eq_true_eq] at hkey
    have hp : p = (k, v) := by
      cases p
      simp_all
    rw [← hp]
    exact hmem

/-- Inversion: a derivation of the empty sentential form yields the empty word. -/
theorem sentDerives_nil_inv {g : Grammar} {u : List Nat}
    (h : SentDerives g [] u) : u = [] := by
  cases h
  rfl

/-- Inversion for a terminal-headed sentential form. -/
theorem sentDerives_terminal_inv {g : Grammar} {t : List Nat} {rest : List StackItem}
    {u : List Nat} (h : SentDerives g (.terminal t :: rest) u) :
    ∃ w, SentDerives g rest w ∧ u = t ++ w := by
  cases h with
  | term hr => exact ⟨_, hr, rfl⟩

/-- Inversion for a trie-node-headed sentential form. -/
theorem sentDerives_terminals_inv {g : Grammar} {nid : Nat} {rest : List StackItem}
    {u : List Nat} (h : SentDerives g (.terminals nid :: rest) u) :
    ∃ t w, trieAccepts g.terminalsTrie nid t = true ∧ SentDerives g rest w ∧
      u = t ++ w := by
  cases h with
  | tnode hacc hrest => exact ⟨_, _, hacc, hrest, rfl⟩

/-- Inversion for a nonterminal-headed sentential form. -/
theorem sentDerives_nonterminal_inv {g : Grammar} {id : Nat} {rest : List StackItem}
    {u : List Nat} (h : SentDerives g (.nonterminal id :: rest) u) :
    (∃ es e, exprFind g id = .expressions es ∧ e ∈ es ∧
      SentDerives g (e.map (toItem g) ++ rest) u) ∨
    (∃ nid, exprFind g id = .terminals nid ∧
      SentDerives g (.terminals nid :: rest) u) := by
  cases h with
  | expand hf hm hs => exact Or.inl ⟨_, _, hf, hm, hs⟩
  | expandT hf hs => exact Or.inr ⟨_, hf, hs⟩

/-- Every production entry of `gUnprod` is an `expressions`. -/
theorem gUnprod_no_terminals : ∀ (id nid : Nat), exprFind gUnprod id ≠ .terminals nid
  | 0, _, h => SimplifiedExpressions.noConfusion h
  | 1, _, h => SimplifiedExpressions.noConfusion h
  | _ + 2, _, h => SimplifiedExpressions.noConfusion h

/-- In `gUnprod` no derivable sentential form contains the unproductive
nonterminal `n` (id 1): every expansion of it reproduces it. -/
theorem gUnprod_n_unproductive :
    ∀ sf w, SentDerives gUnprod sf w → StackItem.nonterminal 1 ∉ sf := by
  intro sf w h
  induction h with
  | nil => simp
  | term _ ih =>
    intro hmem
    rcases List.mem_cons.mp hmem with heq | hrest
    · exact StackItem.noConfusion heq
    · exact ih hrest
  | expand hf hm _ ih =>
    intro hmem
    rcases List.mem_cons.mp hmem with heq | hrest
    · have hid := StackItem.nonterminal.inj heq
      rw [← hid] at hf
      have hes := SimplifiedExpressions.expressions.inj
        (show SimplifiedExpressions.expressions [[.terminal [98], .nonterminal "n"]] =
          _ from hf)
      rw [← hes] at hm
      rw [List.mem_singleton.mp hm] at ih
      exact ih (List.mem_append_left _ (by decide))
    · exact ih (List.mem_append_right _ hrest)
  | expandT hf _ ih =>
    intro hmem
    rcases List.mem_cons.mp hmem with heq | hrest
    · have hid := StackItem.nonterminal.inj heq
      rw [← hid] at hf
      exact gUnprod_no_terminals 1 _ hf
    · exact ih (List.mem_cons_of_mem _ hrest)
  | tnode _ _ ih =>
    intro hmem
    rcases List.mem_cons.mp hmem with heq | hrest
    · exact StackItem.noConfusion heq
    · exact ih hrest

/-- The language of `gUnprod` is empty. -/
theorem gUnprod_lang_empty (w : List Nat) : ¬ InLanguage gUnprod 0 w := by
  intro h
  cases h with
  | expand hf hm hsub =>
    have hes := SimplifiedExpressions.expressions.inj
      (show SimplifiedExpressions.expressions [[.terminal [97], .nonterminal "n"]] =
        _ from hf)
    rw [← hes] at hm
    rw [List.mem_singleton.mp hm] at hsub
    exact gUnprod_n_unproductive _ _ hsub (by decide)
  | expandT hf _ => exact gUnprod_no_terminals 0 _ hf

/-- `"ab"` extends into no word of `gCache`'s language `{"ad", "cb"}`. -/
theorem gCache_ab_not_prefix : ¬ ExtendsIntoPrefix gCache 0 [] [97, 98] := by
  rintro ⟨rest, h⟩
  have h' : SentDerives gCache (.nonterminal 0 :: []) (97 :: 98 :: rest) := h
  rcases sentDerives_nonterminal_inv h' with ⟨es, e, hf, hm, hs⟩ | ⟨nid, hf, _⟩
  · have hes := SimplifiedExpressions.expressions.inj
      (show SimplifiedExpressions.expressions
        [[.terminal [97], .nonterminal "n1"], [.terminal [99], .nonterminal "n2"]] =
        _ from hf)
    rw [← hes] at hm
    rcases List.mem_cons.mp hm with he | hm2
    · rw [he] at hs
      have hs' : SentDerives gCache
          (.terminal [97] :: [.nonterminal 1]) (97 :: 98 :: rest) := hs
      rcases sentDerives_terminal_inv hs' with ⟨w1, hw1, heq1⟩
      have hw1eq : w1 = 98 :: rest := by
        have := heq1.symm
        simpa using this
      rw [hw1eq] at hw1
      rcases sentDerives_nonterminal_inv hw1 with ⟨es2, e2, hf2, _, _⟩ | ⟨nid2, hf2, hs3⟩
      · exact SimplifiedExpressions.noConfusion
          (show SimplifiedExpressions.terminals 0 = _ from hf2)
      · have hnid := SimplifiedExpressions.terminals.inj
          (show SimplifiedExpressions.terminals 0 = _ from hf2)
        rw [← hnid] at hs3
        rcases sentDerives_terminals_inv hs3 with ⟨t, w2, hacc, hnil, heq2⟩
        rw [sentDerives_nil_inv hnil, List.append_nil] at heq2
        rw [← heq2] at hacc
        exact Bool.noConfusion
          (show trieAccepts gCache.terminalsTrie 0 (98 :: rest) = true from hacc)
    · rw [List.mem_singleton.mp hm2] at hs
      have hs' : SentDerives gCache
          (.terminal [99] :: [.nonterminal 2]) (97 :: 98 :: rest) := hs
      rcases sentDerives_terminal_inv hs' with ⟨w1, _, heq1⟩
      simp at heq1
  · exact SimplifiedExpressions.noConfusion
      (show SimplifiedExpressions.expressions
        [[.terminal [97], .nonterminal "n1"], [.terminal [99], .nonterminal "n2"]] =
        _ from hf)

/-- `"ac" ∈ L(gACn)`. -/
theorem gACn_ac_in_lang : InLanguage gACn 0 [97, 99] := by
  have h1 : trieAccepts gACn.terminalsTrie 0 [99] = true := by decide
  have h2 : SentDerives gACn [.terminals 0] ([99] ++ []) := .tnode h1 .nil
  have h3 : SentDerives gACn [.nonterminal 1] ([99] ++ []) := .expandT rfl h2
  have h4 : SentDerives gACn [.terminal [97], .nonterminal 1]
      ([97] ++ ([99] ++ [])) := .term h3
  exact SentDerives.expand rfl (List.mem_singleton_self _) h4

/-- C2: the failed-prefix pruning records tail-relative prefixes and prunes a
legal token.  On grammar `<s> ::= 'a' <n>`, `<n> ::= 'c'` with vocabulary
`{0 ↦ "aab", 1 ↦ "ac"}`, the first `all_possible_next_tokens(None)` call
returns the empty id set although `"ac"` (id 1) is a word of the language:
while rejecting `"aab"` the matcher fails on the tail `"ab"` at index 0 and
the callback inserts `"a"` — a prefix of the tail, not of the whole token —
into `failed_prefixs`, which then prunes the candidate `"ac"`. -/
theorem C2_tail_relative_pruning :
    allPossibleNextTokens 50 gACn vACn false initState none =
      some (.Continue ∅,
        ⟨[[.nonterminal 1, .terminal [97]]],
         [([[.nonterminal 1, .terminal [97]]], ∅)], ∅⟩) ∧
    ([97, 99], 1) ∈ vACn.tokenToId ∧
    ExtendsIntoPrefix gACn 0 [] [97, 99] ∧
    (1 : ℕ) ∉ (∅ : Finset ℕ) :=
  ⟨rfl, by decide, ⟨[], gACn_ac_in_lang⟩, by decide⟩

/-- C5: enabling the byte cache changes the returned token-id set.  The cache
key omits the nonterminal at the result's stack offset when
`modified_item_at_offset` is `None`, so the entry computed for `<n2>` under
key `([], "b")` is reused for `<n1>`: with the cache on, token `"ab"` (id 0)
is wrongly reported legal; with the cache off it is rejected. -/
theorem C5_byte_cache_not_transparent :
    (allPossibleNextTokens 50 gCache vCache true initState none).map Prod.fst =
      some (.Continue {0, 1}) ∧
    (allPossibleNextTokens 50 gCache vCache false initState none).map Prod.fst =
      some (.Continue {1}) ∧
    PossibleTokensResult.Continue {0, 1} ≠ .Continue {1} :=
  ⟨by decide, by decide, by decide⟩

/-- C1 counterexample: two soundness failures of the legal-token set.
(a) With the unproductive grammar `<s> ::= 'a' <n>`, `<n> ::= 'b' <n>`
(empty language) the set contains id 0 although `"a"` extends into no word.
(b) With the byte cache enabled on `gCache`, the set contains id 0 although
`"ab"` extends into no word of `{"ad", "cb"}` (the poisoned cache entry of
`C5_byte_cache_not_transparent`). -/
theorem C1_counterexample :
    ((allPossibleNextTokens 50 gUnprod vUnprod false initState none).map Prod.fst =
       some (.Continue {0}) ∧
     (0, [97]) ∈ vUnprod.idToToken ∧
     ¬ ExtendsIntoPrefix gUnprod 0 [] [97]) ∧
    ((allPossibleNextTokens 50 gCache vCache true initState none).map Prod.fst =
       some (.Continue {0, 1}) ∧
     (0, [97, 98]) ∈ vCache.idToToken ∧
     (0 : ℕ) ∈ ({0, 1} : Finset ℕ) ∧
     ¬ ExtendsIntoPrefix gCache 0 [] [97, 98]) :=
  ⟨⟨by decide, by decide, fun ⟨rest, h⟩ => gUnprod_lang_empty _ h⟩,
   ⟨by decide, by decide, by decide, gCache_ab_not_prefix⟩⟩

/-! Frame and monotonicity lemmas for `findGo`: the returned boolean
accumulates the loop flags with `||`, and when the overall result is `false`
no `after_finding_stack` callback can have fired. -/

theorem leafLoop_flag_true {σ : Type} (findAll : Bool) (stack : List StackItem)
    (afterFind : σ → List StackItem → Option StackItem → σ) :
    ∀ (rs : List BytesMatchResult) (st : σ),
      (leafLoop findAll stack afterFind rs st true).2.1 = true := by
  intro rs
  induction rs with
  | nil => intro st; rfl
  | cons r rest ih =>
    intro st
    unfold leafLoop
    split
    · split
      · rfl
      · exact ih _
    · exact ih st

theorem leafLoop_false {σ : Type} (findAll : Bool) (stack : List StackItem)
    (afterFind : σ → List StackItem → Option StackItem → σ) :
    ∀ (rs : List BytesMatchResult) (st st1 : σ) (stop : Bool),
      leafLoop findAll stack afterFind rs st false = (st1, false, stop) →
      st1 = st ∧ stop = false := by
  intro rs
  induction rs with
  | nil =>
    intro st st1 stop h
    injection h with h1 h2
    injection h2 with h2 h3
    exact ⟨h1.symm, h3.symm⟩
  | cons r rest ih =>
    intro st st1 stop h
    unfold leafLoop at h
    split at h
    · split at h
      · injection h with h1 h2
        injection h2 with h2 h3
        exact absurd h2.symm (by decide)
      · have := leafLoop_flag_true findAll stack afterFind rest
          (afterFind st (stack.take r.stackOffset) r.modifiedItemAtOffset)
        rw [h] at this
        exact Bool.noConfusion this
    · exact ih st st1 stop h

theorem findGo_eloop_true {σ : Type} (g : Grammar) (findAll : Bool)
    (afterFind : σ → List StackItem → Option StackItem → σ)
    (afterFail : σ → List Nat → Option Nat → σ) :
    ∀ (fuel : Nat) (pre : List StackItem) (es : List (List U8Term))
      (b? : Option (List Nat)) (cache? : Option Cache) (st : σ)
      (b : Bool) (c' : Option Cache) (st' : σ),
      findGo g findAll afterFind afterFail fuel (.eloop pre es b? true) cache? st =
        some (b, c', st') → b = true := by
  intro fuel
  induction fuel with
  | zero =>
    intro pre es b? cache? st b c' st' h
    exact Option.noConfusion h
  | succ n ih =>
    intro pre es b? cache? st b c' st' h
    cases es with
    | nil =>
      simp only [findGo] at h
      injection h with h1
      injection h1 with h1 _
      exact h1.symm
    | cons e rest =>
      simp only [findGo, Bool.true_or] at h
      cases hres : findGo g findAll afterFind afterFail n
          (.fcall (pre ++ (e.map (toItem g)).reverse) b?) cache? st with
      | none => rw [hres] at h; exact Option.noConfusion h
      | some r =>
        rcases r with ⟨v, c1, st1⟩
        rw [hres] at h
        simp only [Bool.true_or] at h
        split at h
        · injection h with h1
          injection h1 with h1 _
          exact h1.symm
        · exact ih pre rest b? c1 st1 b c' st' h

theorem findGo_rloop_true {σ : Type} (g : Grammar) (findAll : Bool)
    (afterFind : σ → List StackItem → Option StackItem → σ)
    (afterFail : σ → List Nat → Option Nat → σ) :
    ∀ (fuel : Nat) (stack : List StackItem) (bytes : List Nat)
      (rs : List BytesMatchResult) (cache? : Option Cache) (st : σ)
      (b : Bool) (c' : Option Cache) (st' : σ),
      findGo g findAll afterFind afterFail fuel (.rloop stack bytes rs true) cache? st =
        some (b, c', st') → b = true := by
  intro fuel
  induction fuel with
  | zero =>
    intro stack bytes rs cache? st b c' st' h
    exact Option.noConfusion h
  | succ n ih =>
    intro stack bytes rs cache? st b c' st' h
    cases rs with
    | nil =>
      simp only [findGo] at h
      injection h with h1
      injection h1 with h1 _
      exact h1.symm
    | cons r rest =>
      simp only [findGo, Bool.true_or] at h
      split at h
      · exact ih stack bytes rest cache? st b c' st' h
      · split at h
        · -- nonterminal at the offset
          split at h
          · -- cache enabled
            split at h
            · -- cache hit
              split at h
              · injection h with h1
                injection h1 with h1 _
                exact h1.symm
              · exact ih stack bytes rest _ st b c' st' h
            · -- cache miss
              split at h
              · exact Option.noConfusion h
              · split at h
                · injection h with h1
                  injection h1 with h1 _
                  exact h1.symm
                · exact ih stack bytes rest _ _ b c' st' h
          · -- cache disabled
            split at h
            · exact Option.noConfusion h
            · split at h
              · injection h with h1
                injection h1 with h1 _
                exact h1.symm
              · exact ih stack bytes rest none _ b c' st' h
        · exact Option.noConfusion h

/-- When `after_match_failed` does not mutate the state and a `findGo` call
returns `false`, no `after_finding_stack` callback fired: the callback state
is returned unchanged.  (Leaf callbacks and the empty-`Matches` callback set
the flag, and the loop flags accumulate with `||`.) -/
theorem findGo_false_frame {σ : Type} (g : Grammar) (findAll : Bool)
    (afterFind : σ → List StackItem → Option StackItem → σ)
    (afterFail : σ → List Nat → Option Nat → σ)
    (hfail : ∀ (st : σ) b i, afterFail st b i = st) :
    ∀ (fuel : Nat) (call : FindCall) (cache? : Option Cache) (st : σ)
      (c' : Option Cache) (st' : σ),
      (match call with
       | .eloop _ _ _ f => f = false
       | .rloop _ _ _ f => f = false
       | _ => True) →
      findGo g findAll afterFind afterFail fuel call cache? st = some (false, c', st') →
      st' = st := by
  intro fuel
  induction fuel with
  | zero =>
    intro call cache? st c' st' _ h
    exact Option.noConfusion h
  | succ n ih =>
    intro call cache? st c' st' hinit h
    cases call with
    | fcall stack b? =>
      simp only [findGo] at h
      split at h
      · injection h with h1
        injection h1 with _ h2
        injection h2 with _ h3
        exact h3.symm
      · exact ih _ cache? st c' st' trivial h
      · split at h
        · injection h with h1
          injection h1 with _ h2
          injection h2 with _ h3
          rw [← h3]
          exact hfail st _ _
        · split at h
          · injection h with h1
            injection h1 with h1 _
            exact Bool.noConfusion h1
          · split at h
            · injection h with h1
              injection h1 with h1 _
              exact Bool.noConfusion h1
            · rename_i st1 flag1 heq
              cases flag1 with
              | true =>
                have := findGo_rloop_true g findAll afterFind afterFail n _ _ _ _ _ _ _ _ h
                exact Bool.noConfusion this
              | false =>
                have hl := leafLoop_false findAll _ afterFind _ st st1 _ heq
                rw [← hl.1]
                exact ih _ cache? st1 c' st' rfl h
    | ecall pre id b? =>
      simp only [findGo] at h
      split at h
      · exact ih _ cache? st c' st' rfl h
      · exact ih _ cache? st c' st' trivial h
    | eloop pre es b? f =>
      have hf : f = false := hinit
      subst hf
      cases es with
      | nil =>
        simp only [findGo] at h
        injection h with h1
        injection h1 with _ h2
        injection h2 with _ h3
        exact h3.symm
      | cons e rest =>
        simp only [findGo] at h
        cases hres : findGo g findAll afterFind afterFail n
            (.fcall (pre ++ (e.map (toItem g)).reverse) b?) cache? st with
        | none => rw [hres] at h; exact Option.noConfusion h
        | some r =>
          rcases r with ⟨v, c1, st1⟩
          rw [hres] at h
          simp only [Bool.false_or] at h
          cases v with
          | true =>
            split at h
            · injection h with h1
              injection h1 with h1 _
              exact Bool.noConfusion h1
            · have := findGo_eloop_true g findAll afterFind afterFail n _ _ _ _ _ _ _ _ h
              exact Bool.noConfusion this
          | false =>
            split at h
            · rename_i hc
              rw [Bool.and_false] at hc
              exact Bool.noConfusion hc
            · have h1 := ih _ cache? st c1 st1 trivial hres
              rw [← h1] at *
              exact ih _ c1 st1 c' st' rfl h
    | rloop stack bytes rs f =>
      have hf : f = false := hinit
      subst hf
      cases rs with
      | nil =>
        simp only [findGo] at h
        injection h with h1
        injection h1 with _ h2
        injection h2 with _ h3
        exact h3.symm
      | cons r rest =>
        simp only [findGo] at h
        split at h
        · exact ih _ cache? st c' st' rfl h
        · split at h
          · split at h
            · -- cache enabled
              split at h
              · -- cache hit
                rename_i v hcf
                simp only [Bool.false_or] at h
                cases v with
                | true =>
                  split at h
                  · injection h with h1
                    injection h1 with h1 _
                    exact Bool.noConfusion h1
                  · have := findGo_rloop_true g findAll afterFind afterFail n _ _ _ _ _ _ _ _ h
                    exact Bool.noConfusion this
                | false =>
                  split at h
                  · rename_i hc
                    rw [Bool.and_false] at hc
                    exact Bool.noConfusion hc
                  · exact ih _ _ st c' st' rfl h
              · -- cache miss
                cases hres : findGo g findAll afterFind afterFail n
                    (.ecall (stack.take r.stackOffset) _ (some (bytes.drop _))) _ st with
                | none => rw [hres] at h; exact Option.noConfusion h
                | some rr =>
                  rcases rr with ⟨v, c1, st1⟩
                  rw [hres] at h
                  simp only [Bool.false_or] at h
                  cases v with
                  | true =>
                    split at h
                    · injection h with h1
                      injection h1 with h1 _
                      exact Bool.noConfusion h1
                    · have := findGo_rloop_true g findAll afterFind afterFail n _ _ _ _ _ _ _ _ h
                      exact Bool.noConfusion this
                  | false =>
                    split at h
                    · rename_i hc
                      rw [Bool.and_false] at hc
                      exact Bool.noConfusion hc
                    · have h1 := ih _ _ st c1 st1 trivial hres
                      rw [← h1] at *
                      exact ih _ _ st1 c' st' rfl h
            · -- cache disabled
              cases hres : findGo g findAll afterFind afterFail n
                  (.ecall (stack.take r.stackOffset) _ (some (bytes.drop _))) none st with
              | none => rw [hres] at h; exact Option.noConfusion h
              | some rr =>
                rcases rr with ⟨v, c1, st1⟩
                rw [hres] at h
                simp only [Bool.false_or] at h
                cases v with
                | true =>
                  split at h
                  · injection h with h1
                    injection h1 with h1 _
                    exact Bool.noConfusion h1
                  · have := findGo_rloop_true g findAll afterFind afterFail n _ _ _ _ _ _ _ _ h
                    exact Bool.noConfusion this
                | false =>
                  split at h
                  · rename_i hc
                    rw [Bool.and_false] at hc
                    exact Bool.noConfusion hc
                  · have h1 := ih _ none st c1 st1 trivial hres
                    rw [← h1] at *
                    exact ih _ none st1 c' st' rfl h
          · exact Option.noConfusion h

/-! The `swap_remove` loop of `accept_a_token`: removing indices
`len-1, …, 0` from a vector deletes the first `len` elements and leaves a
permutation of the appended region. -/

theorem swapRemove_length {α : Type} (l : List α) (i : Nat) (h : i < l.length) :
    (swapRemove l i).length = l.length - 1 := by
  unfold swapRemove
  split
  · rw [List.length_dropLast]
  · split
    · rename_i hnone
      rw [List.getLast?_eq_none_iff.mp hnone] at h
      exact absurd h (by simp)
    · rw [List.length_dropLast, List.length_set]

theorem swapRemoveAll_self {α : Type} :
    ∀ (n : Nat) (l : List α), l.length = n → swapRemoveAll l n = [] := by
  intro n
  induction n with
  | zero =>
    intro l h
    exact List.length_eq_zero.mp h
  | succ m ih =>
    intro l h
    unfold swapRemoveAll
    have hsr : swapRemove l m = l.dropLast := by
      unfold swapRemove
      rw [if_pos (by omega)]
    rw [hsr]
    exact ih _ (by rw [List.length_dropLast]; omega)

theorem swapRemove_drop_perm {α : Type} (l : List α) (n : Nat) (h : n + 1 ≤ l.length) :
    List.Perm ((swapRemove l n).drop n) (l.drop (n + 1)) := by
  unfold swapRemove
  by_cases hlast : n + 1 = l.length
  · rw [if_pos hlast]
    have h1 : l.dropLast.drop n = [] :=
      List.drop_eq_nil_of_le (by rw [List.length_dropLast]; omega)
    have h2 : l.drop (n + 1) = [] := List.drop_eq_nil_of_le (by omega)
    rw [h1, h2]
  · rw [if_neg hlast]
    have hlt : n + 1 < l.length := lt_of_le_of_ne h hlast
    have hne : l ≠ [] := by
      intro he
      rw [he] at h
      simp at h
    split
    · rename_i hnone
      exact absurd (List.getLast?_eq_none_iff.mp hnone) hne
    · rename_i last hsome
      have hxs : l.drop (n + 1) ≠ [] := by
        intro he
        have := congrArg List.length he
        simp only [List.length_drop, List.length_nil] at this
        omega
      have hset : l.set n last = l.take n ++ last :: l.drop (n + 1) := by
        rw [List.set_eq_take_append_cons_drop]
        rw [if_pos (by omega)]
      rw [hset, List.dropLast_append_cons,
        List.dropLast_cons_of_ne_nil hxs]
      have hdrop : (l.take n ++ (last :: (l.drop (n + 1)).dropLast)).drop n =
          last :: (l.drop (n + 1)).dropLast := by
        have hd := List.drop_left (l.take n) (last :: (l.drop (n + 1)).dropLast)
        rwa [List.length_take_of_le (by omega)] at hd
      rw [hdrop]
      -- `last` is the last element of `l`, hence of `l.drop (n+1)`
      have hlast2 : (l.drop (n + 1)).getLast hxs = last := by
        have hsplit := List.take_append_drop (n + 1) l
        have hga := @List.getLast?_append _ (l.take (n + 1)) (l.drop (n + 1))
        rw [hsplit, List.getLast?_eq_getLast _ hxs] at hga
        rw [hsome] at hga
        simp only [Option.or_some] at hga
        exact (Option.some.inj hga).symm
      have hxs2 : (l.drop (n + 1)).dropLast ++ [last] = l.drop (n + 1) := by
        rw [← hlast2]
        exact List.dropLast_append_getLast hxs
      have hperm := (List.perm_append_singleton last ((l.drop (n + 1)).dropLast)).symm
      rw [hxs2] at hperm
      exact hperm

theorem swapRemoveAll_drop_perm {α : Type} :
    ∀ (n : Nat) (l : List α), n ≤ l.length →
      List.Perm (swapRemoveAll l n) (l.drop n) := by
  intro n
  induction n with
  | zero =>
    intro l _
    rw [List.drop_zero]
    exact List.Perm.refl l
  | succ m ih =>
    intro l h
    unfold swapRemoveAll
    have hlen : m ≤ (swapRemove l m).length := by
      rw [swapRemove_length l m (by omega)]
      omega
    exact (ih _ hlen).trans (swapRemove_drop_perm l m h)


theorem acceptNewVec_ne_nil (ts : List StackItem) (top : Option StackItem)
    (h : ts ≠ []) : acceptNewVec ts top ≠ [] := by
  unfold acceptNewVec
  intro he
  exact h (List.append_eq_nil.mp he).1

theorem acceptCallback_apref (app : List (List StackItem)) (ts : List StackItem)
    (top : Option StackItem) : app <+: acceptCallback app ts top := by
  unfold acceptCallback
  split
  · exact List.prefix_refl _
  · exact List.prefix_append _ _

theorem acceptCallback_mem_cases {app : List (List StackItem)} {ts : List StackItem}
    {top : Option StackItem} {s : List StackItem} (h : s ∈ acceptCallback app ts top) :
    s ∈ app ∨ s = acceptNewVec ts top := by
  unfold acceptCallback at h
  split at h
  · exact Or.inl h
  · rcases List.mem_append.mp h with h1 | h2
    · exact Or.inl h1
    · exact Or.inr (List.mem_singleton.mp h2)

theorem acceptCallback_mem_self (app : List (List StackItem)) (ts : List StackItem)
    (top : Option StackItem) : acceptNewVec ts top ∈ acceptCallback app ts top := by
  unfold acceptCallback
  split
  · rename_i hmem
    exact hmem
  · exact List.mem_append_right _ (List.mem_singleton_self _)

/-- In canonicalisation mode (`bytes = None`) the matcher reports only whole
stacks: every list the `accept_a_token` callback appends is non-empty, the
callback state only ever grows, and a `true` verdict guarantees a non-empty
appended list. -/
theorem findGo_none_app (g : Grammar) :
    ∀ (fuel : Nat) (call : FindCall) (cache? : Option Cache)
      (app app' : List (List StackItem)) (v : Bool) (c' : Option Cache),
      (match call with
       | .fcall _ b? => b? = none
       | .ecall _ _ b? => b? = none
       | .eloop _ _ b? f => b? = none ∧ (f = true → ∃ s ∈ app, s ≠ [])
       | .rloop _ _ _ _ => False) →
      findGo g true acceptCallback (fun st _ _ => st) fuel call cache? app =
        some (v, c', app') →
      (app <+: app') ∧ (∀ s ∈ app', s ∈ app ∨ s ≠ []) ∧
        (v = true → ∃ s ∈ app', s ≠ []) := by
  intro fuel
  induction fuel with
  | zero =>
    intro call cache? app app' v c' _ h
    exact Option.noConfusion h
  | succ n ih =>
    intro call cache? app app' v c' hmode h
    cases call with
    | fcall stack b? =>
      have hb : b? = none := hmode
      subst hb
      simp only [findGo] at h
      cases hlast : stack.getLast? with
      | none =>
        rw [hlast] at h
        have h2 : some (false, cache?, app) = some (v, c', app') := h
        injection h2 with h3
        injection h3 with h3 h4
        injection h4 with _ h5
        subst h5
        exact ⟨List.prefix_refl _, fun s hs => Or.inl hs,
          fun hv => Bool.noConfusion (h3.trans hv)⟩
      | some item =>
        rw [hlast] at h
        have hne : stack ≠ [] := by
          intro hnil
          rw [hnil] at hlast
          exact Option.noConfusion hlast
        cases item with
        | nonterminal idn =>
          exact ih _ cache? app app' v c' rfl h
        | terminal t =>
          have h2 : some (true, cache?, acceptCallback app stack none) =
              some (v, c', app') := h
          injection h2 with h3
          injection h3 with _ h4
          injection h4 with _ h5
          subst h5
          refine ⟨acceptCallback_apref _ _ _, ?_, ?_⟩
          · intro s hs
            rcases acceptCallback_mem_cases hs with hsa | hsn
            · exact Or.inl hsa
            · refine Or.inr ?_
              rw [hsn]
              exact acceptNewVec_ne_nil _ _ hne
          · intro _
            exact ⟨acceptNewVec stack none, acceptCallback_mem_self _ _ _,
              acceptNewVec_ne_nil _ _ hne⟩
        | terminals nid =>
          have h2 : some (true, cache?, acceptCallback app stack none) =
              some (v, c', app') := h
          injection h2 with h3
          injection h3 with _ h4
          injection h4 with _ h5
          subst h5
          refine ⟨acceptCallback_apref _ _ _, ?_, ?_⟩
          · intro s hs
            rcases acceptCallback_mem_cases hs with hsa | hsn
            · exact Or.inl hsa
            · refine Or.inr ?_
              rw [hsn]
              exact acceptNewVec_ne_nil _ _ hne
          · intro _
            exact ⟨acceptNewVec stack none, acceptCallback_mem_self _ _ _,
              acceptNewVec_ne_nil _ _ hne⟩
    | ecall pre idn b? =>
      have hb : b? = none := hmode
      subst hb
      simp only [findGo] at h
      split at h
      · exact ih _ cache? app app' v c' (by exact ⟨rfl, fun hf => Bool.noConfusion hf⟩) h
      · exact ih _ cache? app app' v c' rfl h
    | eloop pre es b? f =>
      obtain ⟨hb, hf⟩ := hmode
      subst hb
      cases es with
      | nil =>
        simp only [findGo] at h
        injection h with h1
        injection h1 with h1 h2
        injection h2 with _ h3
        subst h3
        exact ⟨List.prefix_refl _, fun s hs => Or.inl hs, fun hv => hf (h1.trans hv)⟩
      | cons e rest =>
        simp only [findGo] at h
        cases hres : findGo g true acceptCallback (fun st _ _ => st) n
            (.fcall (pre ++ (e.map (toItem g)).reverse) none) cache? app with
        | none =>
          rw [hres] at h
          exact Option.noConfusion h
        | some p =>
          rcases p with ⟨v1, c1, app1⟩
          rw [hres] at h
          have h2 : findGo g true acceptCallback (fun st _ _ => st) n
              (.eloop pre rest none (f || v1)) c1 app1 = some (v, c', app') := h
          have hfc := ih _ cache? app app1 v1 c1 rfl hres
          have hmode2 : (f || v1) = true → ∃ s ∈ app1, s ≠ [] := by
            intro hor
            cases f with
            | true =>
              obtain ⟨x, hx, hxne⟩ := hf rfl
              exact ⟨x, hfc.1.subset hx, hxne⟩
            | false =>
              rw [Bool.false_or] at hor
              exact hfc.2.2 hor
          have hrec := ih _ c1 app1 app' v c' (by exact ⟨rfl, hmode2⟩) h2
          refine ⟨hfc.1.trans hrec.1, ?_, hrec.2.2⟩
          intro s hs
          rcases hrec.2.1 s hs with hs1 | hne
          · rcases hfc.2.1 s hs1 with hs0 | hne'
            · exact Or.inl hs0
            · exact Or.inr hne'
          · exact Or.inr hne
    | rloop stack bytes rs f =>
      exact hmode.elim

/-- The accept loop's verdict is monotone: once a stack matched, later stacks
cannot clear the flag. -/
theorem acceptLoop_true (fuel : Nat) (g : Grammar) (ce : Bool)
    (b? : Option (List Nat)) :
    ∀ (stks : List (List StackItem)) (app : List (List StackItem))
      (r : Bool × List (List StackItem)),
      acceptLoop fuel g ce b? stks true app = some r → r.1 = true := by
  intro stks
  induction stks with
  | nil =>
    intro app r h
    injection h with h1
    rw [← h1]
  | cons s rest ih =>
    intro app r h
    unfold acceptLoop at h
    split at h
    · exact ih app r h
    · cases hres : findGo g true acceptCallback (fun st _ _ => st) fuel (.fcall s b?)
          (if ce then some [] else none) app with
      | none =>
        rw [hres] at h
        exact Option.noConfusion h
      | some p =>
        rcases p with ⟨v, c, app1⟩
        rw [hres] at h
        have h2 : acceptLoop fuel g ce b? rest (true || v) app1 = some r := h
        rw [Bool.true_or] at h2
        exact ih app1 r h2

/-- When the whole accept loop rejects, no callback fired: the appended-stack
list is returned unchanged. -/
theorem acceptLoop_false_frame (fuel : Nat) (g : Grammar) (ce : Bool)
    (b? : Option (List Nat)) :
    ∀ (stks app app' : List (List StackItem)),
      acceptLoop fuel g ce b? stks false app = some (false, app') → app' = app := by
  intro stks
  induction stks with
  | nil =>
    intro app app' h
    injection h with h1
    injection h1 with _ h2
    exact h2.symm
  | cons s rest ih =>
    intro app app' h
    unfold acceptLoop at h
    split at h
    · exact ih app app' h
    · cases hres : findGo g true acceptCallback (fun st _ _ => st) fuel (.fcall s b?)
          (if ce then some [] else none) app with
      | none =>
        rw [hres] at h
        exact Option.noConfusion h
      | some p =>
        rcases p with ⟨v, c, app1⟩
        rw [hres] at h
        have h2 : acceptLoop fuel g ce b? rest (false || v) app1 = some (false, app') := h
        rw [Bool.false_or] at h2
        cases v with
        | true =>
          have := acceptLoop_true fuel g ce b? rest app1 (false, app') h2
          exact Bool.noConfusion this
        | false =>
          have h3 := ih app1 app' h2
          have h4 := findGo_false_frame g true acceptCallback (fun st _ _ => st)
            (fun _ _ _ => rfl) fuel (.fcall s b?) (if ce then some [] else none)
            app c app1 trivial hres
          rw [h3, h4]

/-- In the `None` pass, the accept loop's appendix only grows, its members are
non-empty (or were already present), and a `true` verdict yields a non-empty
member. -/
theorem acceptLoop_none_app (fuel : Nat) (g : Grammar) (ce : Bool) :
    ∀ (stks : List (List StackItem)) (acc : Bool) (app : List (List StackItem))
      (acc' : Bool) (app' : List (List StackItem)),
      acceptLoop fuel g ce none stks acc app = some (acc', app') →
      (app <+: app') ∧ (∀ s ∈ app', s ∈ app ∨ s ≠ []) ∧
        (acc' = true → acc = true ∨ ∃ s ∈ app', s ≠ []) := by
  intro stks
  induction stks with
  | nil =>
    intro acc app acc' app' h
    injection h with h1
    injection h1 with h1 h2
    subst h2
    exact ⟨List.prefix_refl _, fun s hs => Or.inl hs, fun hv => Or.inl (h1.trans hv)⟩
  | cons s rest ih =>
    intro acc app acc' app' h
    unfold acceptLoop at h
    split at h
    · exact ih acc app acc' app' h
    · cases hres : findGo g true acceptCallback (fun st _ _ => st) fuel (.fcall s none)
          (if ce then some [] else none) app with
      | none =>
        rw [hres] at h
        exact Option.noConfusion h
      | some p =>
        rcases p with ⟨v, c, app1⟩
        rw [hres] at h
        have h2 : acceptLoop fuel g ce none rest (acc || v) app1 = some (acc', app') := h
        have hf := findGo_none_app g fuel (.fcall s none) (if ce then some [] else none)
          app app1 v c rfl hres
        have hrec := ih (acc || v) app1 acc' app' h2
        refine ⟨hf.1.trans hrec.1, ?_, ?_⟩
        · intro x hx
          rcases hrec.2.1 x hx with hx1 | hne
          · rcases hf.2.1 x hx1 with hx0 | hne'
            · exact Or.inl hx0
            · exact Or.inr hne'
          · exact Or.inr hne
        · intro hacc
          rcases hrec.2.2 hacc with hor | hex
          · cases acc with
            | true => exact Or.inl rfl
            | false =>
              rw [Bool.false_or] at hor
              obtain ⟨x, hx, hne⟩ := hf.2.2 hor
              exact Or.inr ⟨x, hrec.1.subset hx, hne⟩
          · exact Or.inr hex

/-- A `Failed` pass leaves no stacks at all: the `swap_remove` loop has removed
every original stack and no successor was appended. -/
theorem acceptPass_failed_empty (fuel : Nat) (g : Grammar) (ce : Bool)
    (stks : List (List StackItem)) (b? : Option (List Nat))
    (s' : List (List StackItem))
    (h : acceptPass fuel g ce stks b? = some (.Failed, s')) : s' = [] := by
  unfold acceptPass at h
  cases hres : acceptLoop fuel g ce b? stks false [] with
  | none =>
    rw [hres] at h
    exact Option.noConfusion h
  | some p =>
    rcases p with ⟨accepted, app⟩
    rw [hres] at h
    cases accepted with
    | true =>
      have h2 : some ((if (swapRemoveAll (stks ++ app) stks.length).isEmpty ||
            (swapRemoveAll (stks ++ app) stks.length).all (fun x => x.isEmpty) then
          AcceptTokensResult.End else AcceptTokensResult.Continue),
          swapRemoveAll (stks ++ app) stks.length) = some (.Failed, s') := h
      injection h2 with h3
      injection h3 with h3 _
      split at h3
      · exact AcceptTokensResult.noConfusion h3
      · exact AcceptTokensResult.noConfusion h3
    | false =>
      have h2 : some (AcceptTokensResult.Failed,
          swapRemoveAll (stks ++ app) stks.length) = some (.Failed, s') := h
      injection h2 with h3
      injection h3 with _ h4
      have happ := acceptLoop_false_frame fuel g ce b? stks [] app hres
      rw [happ, List.append_nil] at h4
      rw [← h4]
      exact swapRemoveAll_self stks.length stks rfl

/-- The canonicalising `None` pass never reports `End`: its successor stacks
all carry a terminal top, hence are non-empty. -/
theorem acceptPass_none_ne_End (fuel : Nat) (g : Grammar) (ce : Bool)
    (stks : List (List StackItem)) (r : AcceptTokensResult)
    (s' : List (List StackItem))
    (h : acceptPass fuel g ce stks none = some (r, s')) : r ≠ .End := by
  unfold acceptPass at h
  cases hres : acceptLoop fuel g ce none stks false [] with
  | none =>
    rw [hres] at h
    exact Option.noConfusion h
  | some p =>
    rcases p with ⟨accepted, app⟩
    rw [hres] at h
    cases accepted with
    | false =>
      have h2 : some (AcceptTokensResult.Failed,
          swapRemoveAll (stks ++ app) stks.length) = some (r, s') := h
      injection h2 with h3
      injection h3 with h3 _
      rw [← h3]
      exact fun hc => AcceptTokensResult.noConfusion hc
    | true =>
      have hn := acceptLoop_none_app fuel g ce stks false [] true app hres
      have hex : ∃ s ∈ app, s ≠ [] := by
        rcases hn.2.2 rfl with hfalse | hex
        · exact Bool.noConfusion hfalse
        · exact hex
      obtain ⟨x, hx, hxne⟩ := hex
      have hperm : List.Perm (swapRemoveAll (stks ++ app) stks.length) app := by
        have hp := swapRemoveAll_drop_perm stks.length (stks ++ app)
          (by rw [List.length_append]; omega)
        rwa [List.drop_left] at hp
      have hxmem : x ∈ swapRemoveAll (stks ++ app) stks.length := hperm.mem_iff.mpr hx
      have h2 : some ((if (swapRemoveAll (stks ++ app) stks.length).isEmpty ||
            (swapRemoveAll (stks ++ app) stks.length).all (fun x => x.isEmpty) then
          AcceptTokensResult.End else AcceptTokensResult.Continue),
          swapRemoveAll (stks ++ app) stks.length) = some (r, s') := h
      injection h2 with h3
      injection h3 with h3 _
      split at h3
      · rename_i hc
        have hA : (swapRemoveAll (stks ++ app) stks.length).isEmpty = false := by
          cases hl : swapRemoveAll (stks ++ app) stks.length with
          | nil =>
            rw [hl] at hxmem
            exact absurd hxmem (List.not_mem_nil x)
          | cons a as => rfl
        have hB : (swapRemoveAll (stks ++ app) stks.length).all
            (fun y => y.isEmpty) = false := by
          cases hall : (swapRemoveAll (stks ++ app) stks.length).all
              (fun y => y.isEmpty) with
          | false => rfl
          | true =>
            have := List.all_eq_true.mp hall x hxmem
            exact absurd (List.isEmpty_iff.mp this) hxne
        rw [hA, hB] at hc
        exact Bool.noConfusion hc
      · rw [← h3]
        exact fun hc => AcceptTokensResult.noConfusion hc

/-- A `Failed` verdict of the whole accept step leaves no stacks. -/
theorem acceptAToken_failed_empty (fuel : Nat) (g : Grammar) (v : Vocabulary)
    (ce : Bool) (stks : List (List StackItem)) (tok? : Option ℕ)
    (s' : List (List StackItem))
    (h : acceptAToken fuel g v ce stks tok? = some (.Failed, s')) : s' = [] := by
  unfold acceptAToken at h
  cases tok? with
  | none => exact acceptPass_failed_empty fuel g ce stks none s' h
  | some idt =>
    have h0 : (match acceptPass fuel g ce stks
          (some ((assocFind v.idToToken idt).getD [])) with
      | none => none
      | some (r, stks2) =>
        if r = AcceptTokensResult.Failed ∨ r = AcceptTokensResult.End then some (r, stks2)
        else acceptPass fuel g ce stks2 none) = some (.Failed, s') := h
    cases hp1 : acceptPass fuel g ce stks (some ((assocFind v.idToToken idt).getD [])) with
    | none =>
      rw [hp1] at h0
      exact Option.noConfusion h0
    | some p =>
      rcases p with ⟨r1, s1⟩
      rw [hp1] at h0
      have h2 : (if r1 = .Failed ∨ r1 = .End then some (r1, s1)
          else acceptPass fuel g ce s1 none) = some (.Failed, s') := h0
      split at h2
      · injection h2 with h3
        injection h3 with h3 h4
        rw [← h4]
        rw [h3] at hp1
        exact acceptPass_failed_empty fuel g ce stks _ s1 hp1
      · exact acceptPass_failed_empty fuel g ce s1 none s' h2

/-- C3 (amended): for an accept step on a token id whose byte pass is defined,
the step returns `End` exactly when the byte pass accepted (did not fail) and
*all* of its successor stacks are empty — not when merely one is.  The
canonicalising `None` pass can never itself produce `End`. -/
theorem C3_amended (fuel : Nat) (g : Grammar) (v : Vocabulary) (ce : Bool)
    (stks : List (List StackItem)) (idt : ℕ) (r : AcceptTokensResult)
    (s2 : List (List StackItem)) (r1 : AcceptTokensResult) (s1 : List (List StackItem))
    (h : acceptAToken fuel g v ce stks (some idt) = some (r, s2))
    (hp : acceptPass fuel g ce stks (some ((assocFind v.idToToken idt).getD [])) =
      some (r1, s1)) :
    r = .End ↔ (r1 ≠ .Failed ∧ s1.all (fun x => x.isEmpty) = true) := by
  have hpc := hp
  unfold acceptPass at hpc
  cases hres : acceptLoop fuel g ce (some ((assocFind v.idToToken idt).getD []))
      stks false [] with
  | none =>
    rw [hres] at hpc
    exact Option.noConfusion hpc
  | some p =>
    rcases p with ⟨accepted, app⟩
    rw [hres] at hpc
    have hiff : r1 = .End ↔ (r1 ≠ .Failed ∧ s1.all (fun x => x.isEmpty) = true) := by
      cases accepted with
      | false =>
        have h2 : some (AcceptTokensResult.Failed,
            swapRemoveAll (stks ++ app) stks.length) = some (r1, s1) := hpc
        injection h2 with h3
        injection h3 with hr _
        constructor
        · intro hE
          rw [← hr] at hE
          exact AcceptTokensResult.noConfusion hE
        · intro hc
          exact absurd hr.symm hc.1
      | true =>
        have h2 : some ((if (swapRemoveAll (stks ++ app) stks.length).isEmpty ||
              (swapRemoveAll (stks ++ app) stks.length).all (fun x => x.isEmpty) then
            AcceptTokensResult.End else AcceptTokensResult.Continue),
            swapRemoveAll (stks ++ app) stks.length) = some (r1, s1) := hpc
        injection h2 with h3
        injection h3 with hr hs
        subst hs
        split at hr
        · rename_i hc
          constructor
          · intro _
            refine ⟨?_, ?_⟩
            · rw [← hr]
              exact fun hcc => AcceptTokensResult.noConfusion hcc
            · cases hemp : (swapRemoveAll (stks ++ app) stks.length).isEmpty with
              | true =>
                have hnil : swapRemoveAll (stks ++ app) stks.length = [] :=
                  List.isEmpty_iff.mp hemp
                rw [hnil]
                rfl
              | false =>
                rw [hemp, Bool.false_or] at hc
                exact hc
          · intro _
            exact hr.symm
        · rename_i hc
          constructor
          · intro hE
            rw [← hr] at hE
            exact AcceptTokensResult.noConfusion hE
          · intro hcc
            exfalso
            apply hc
            rw [hcc.2, Bool.or_true]
        -- close both split goals above
    have h2 : (match acceptPass fuel g ce stks
          (some ((assocFind v.idToToken idt).getD [])) with
      | none => none
      | some (rr, ss) =>
        if rr = AcceptTokensResult.Failed ∨ rr = AcceptTokensResult.End then some (rr, ss)
        else acceptPass fuel g ce ss none) = some (r, s2) := h
    rw [hp] at h2
    have h3 : (if r1 = AcceptTokensResult.Failed ∨ r1 = AcceptTokensResult.End then
        some (r1, s1) else acceptPass fuel g ce s1 none) = some (r, s2) := h2
    split at h3
    · injection h3 with h4
      injection h4 with h4 _
      rw [← h4]
      exact hiff
    · rename_i hcond
      push_neg at hcond
      have hrne := acceptPass_none_ne_End fuel g ce s1 r s2 h3
      constructor
      · intro hE
        exact absurd hE hrne
      · intro hcc
        exact absurd (hiff.mpr hcc) hcond.2

/-- C3 counterexample: in the grammar `<s> ::= 'a' | 'a' <s>` with vocabulary
`{0 ↦ "a"}`, accepting token 0 from the canonical state leaves an *empty*
successor stack after consuming the byte (the byte pass yields `[[], [<s>]]`),
yet the accept step returns `Continue`, not `End` as the claim requires. -/
theorem C3_counterexample :
    acceptAToken 50 gAs vAs false
        [[StackItem.terminal [97]], [.nonterminal 0, .terminal [97]]] (some 0) =
      some (.Continue, [[StackItem.terminal [97]], [.nonterminal 0, .terminal [97]]]) ∧
    acceptPass 50 gAs false
        [[StackItem.terminal [97]], [.nonterminal 0, .terminal [97]]] (some [97]) =
      some (.Continue, [[], [StackItem.nonterminal 0]]) ∧
    ([] : List StackItem) ∈ [([] : List StackItem), [StackItem.nonterminal 0]] :=
  ⟨rfl, rfl, List.mem_cons_self _ _⟩

/-- C3 witness: accepting token 1 (`"ac"`) in the grammar `<s> ::= 'a' <n>`,
`<n> ::= 'c'` from the fresh state returns `End`, and the amended
characterisation holds at this input. -/
theorem C3_witness :
    acceptAToken 50 gACn vACn false [[StackItem.nonterminal 0]] (some 1) =
        some (.End, [[]]) ∧
      acceptPass 50 gACn false [[StackItem.nonterminal 0]] (some [97, 99]) =
        some (.End, [[]]) ∧
      (AcceptTokensResult.End = .End ↔
        (AcceptTokensResult.End ≠ .Failed ∧
          ([[]] : List (List StackItem)).all (fun x => x.isEmpty) = true)) :=
  ⟨rfl, rfl,
    C3_amended 50 gACn vACn false [[StackItem.nonterminal 0]] 1 .End [[]] .End [[]]
      rfl rfl⟩

/-- C4 (amended): when `all_possible_next_tokens` reports
`InputTokenRejected`, the engine's stacks are *not* the pre-call stacks: the
`swap_remove` loop has already removed every original stack and no successor
was appended, so the stack set is empty (and the token-id set is cleared). -/
theorem C4_amended (fuel : Nat) (g : Grammar) (v : Vocabulary) (ce : Bool)
    (s : SamplerState) (tok? : Option ℕ) (s' : SamplerState)
    (h : allPossibleNextTokens fuel g v ce s tok? = some (.InputTokenRejected, s')) :
    s'.stks = [] ∧ s'.tokenIds = ∅ := by
  unfold allPossibleNextTokens at h
  cases hacc : acceptAToken fuel g v ce s.stks tok? with
  | none =>
    rw [hacc] at h
    exact Option.noConfusion h
  | some p =>
    rcases p with ⟨ar, stks2⟩
    rw [hacc] at h
    cases ar with
    | End =>
      have h2 : some (PossibleTokensResult.End,
          { s with stks := stks2, tokenIds := ∅ }) =
          some (.InputTokenRejected, s') := h
      injection h2 with h3
      injection h3 with h3 _
      exact PossibleTokensResult.noConfusion h3
    | Continue =>
      have h2 : (match assocFind s.stacksToTokenIds stks2 with
        | some cached =>
          some (PossibleTokensResult.Continue cached,
            { stks := stks2, stacksToTokenIds := s.stacksToTokenIds,
              tokenIds := skipUnion g stks2 ∅ })
        | none =>
          match stacksTokenLoop fuel g v ce stks2 (skipUnion g stks2 ∅) [] with
          | none => none
          | some ids =>
            some (PossibleTokensResult.Continue ids,
              { stks := stks2, stacksToTokenIds := (stks2, ids) :: s.stacksToTokenIds,
                tokenIds := ids })) = some (.InputTokenRejected, s') := h
      split at h2
      · injection h2 with h3
        injection h3 with h3 _
        exact PossibleTokensResult.noConfusion h3
      · split at h2
        · exact Option.noConfusion h2
        · injection h2 with h3
          injection h3 with h3 _
          exact PossibleTokensResult.noConfusion h3
    | Failed =>
      have h2 : some (PossibleTokensResult.InputTokenRejected,
          { s with stks := stks2, tokenIds := ∅ }) =
          some (.InputTokenRejected, s') := h
      injection h2 with h3
      injection h3 with _ h4
      have hempty : stks2 = [] :=
        acceptAToken_failed_empty fuel g v ce s.stks tok? stks2 hacc
      constructor
      · rw [← h4]
        exact hempty
      · rw [← h4]
    
/-- C4 counterexample: rejecting token 0 (`"aab"`, not a prefix of the
language `{"ac"}`) from the fresh state empties the stack set instead of
leaving it unchanged. -/
theorem C4_counterexample :
    allPossibleNextTokens 50 gACn vACn false initState (some 0) =
      some (.InputTokenRejected, ⟨[], [], ∅⟩) ∧ initState.stks ≠ [] :=
  ⟨rfl, fun hc => List.noConfusion hc⟩

/-- C4 witness: the amended statement holds at the concrete rejected input. -/
theorem C4_witness :
    allPossibleNextTokens 50 gACn vACn false initState (some 0) =
        some (.InputTokenRejected, ⟨[], [], ∅⟩) ∧
      (⟨[], [], ∅⟩ : SamplerState).stks = [] ∧
      (⟨[], [], ∅⟩ : SamplerState).tokenIds = ∅ :=
  ⟨rfl, C4_amended 50 gACn vACn false initState (some 0) ⟨[], [], ∅⟩ rfl⟩


theorem mem_foldl_insert (l : List (List Nat × ℕ)) :
    ∀ (init : Finset ℕ) (x : ℕ),
      x ∈ l.foldl (fun s e => insert e.2 s) init ↔ x ∈ init ∨ ∃ p ∈ l, p.2 = x := by
  induction l with
  | nil =>
    intro init x
    simp
  | cons a as ih =>
    intro init x
    rw [List.foldl_cons, ih]
    simp only [Finset.mem_insert, List.mem_cons]
    constructor
    · rintro (⟨h | h⟩ | h)
      · exact Or.inr ⟨a, Or.inl rfl, h.symm⟩
      · exact Or.inl h
      · obtain ⟨p, hp, he⟩ := h
        exact Or.inr ⟨p, Or.inr hp, he⟩
    · rintro (h | ⟨p, hp | hp, he⟩)
      · exact Or.inl (Or.inr h)
      · refine Or.inl (Or.inl ?_)
        rw [← he, hp]
      · exact Or.inr ⟨p, hp, he⟩

theorem exceptPredB_single (L t : List Nat) :
    exceptPredB (some [L]) t = true ↔ (t ≠ L ∧ ¬ (L <:+: t)) := by
  simp [exceptPredB]

/-- C6: for an `except!('literal')` nonterminal with decoded literal bytes
`L`, a token id enters the recorded `nonterminal_to_token_ids` set iff the
token's bytes differ from `L` and do not contain `L` as a sub-string, the
installed productions are exactly the single-terminal right-hand sides of such
tokens, and (tokens being distinct map keys) each such token contributes
exactly one production. -/
theorem C6_except_literal_expansion (v : Vocabulary) (L : List Nat) (tid : ℕ)
    (hnodup : (v.tokenToId.map Prod.fst).Nodup) :
    (tid ∈ addTokensIdSet v (some [L]) ↔
      ∃ t, (t, tid) ∈ v.tokenToId ∧ t ≠ L ∧ ¬ (L <:+: t)) ∧
    (∀ e, e ∈ addTokensExprs v (some [L]) ↔
      ∃ t tid2, (t, tid2) ∈ v.tokenToId ∧ t ≠ L ∧ ¬ (L <:+: t) ∧
        e = [U8Term.terminal t]) ∧
    (addTokensExprs v (some [L])).Nodup := by
  refine ⟨?_, ?_, ?_⟩
  · unfold addTokensIdSet
    rw [mem_foldl_insert]
    constructor
    · rintro (h | ⟨p, hp, he⟩)
      · exact absurd h (Finset.not_mem_empty tid)
      · rw [List.mem_filter] at hp
        obtain ⟨hmem, hpred⟩ := hp
        obtain ⟨hne, hninf⟩ := (exceptPredB_single L p.1).mp hpred
        refine ⟨p.1, ?_, hne, hninf⟩
        rw [← he]
        exact hmem
    · rintro ⟨t, hmem, hne, hninf⟩
      exact Or.inr ⟨(t, tid),
        List.mem_filter.mpr ⟨hmem, (exceptPredB_single L t).mpr ⟨hne, hninf⟩⟩, rfl⟩
  · intro e
    unfold addTokensExprs
    rw [List.mem_map]
    constructor
    · rintro ⟨p, hp, he⟩
      rw [List.mem_filter] at hp
      obtain ⟨hmem, hpred⟩ := hp
      obtain ⟨hne, hninf⟩ := (exceptPredB_single L p.1).mp hpred
      exact ⟨p.1, p.2, hmem, hne, hninf, he.symm⟩
    · rintro ⟨t, tid2, hmem, hne, hninf, he⟩
      refine ⟨(t, tid2),
        List.mem_filter.mpr ⟨hmem, (exceptPredB_single L t).mpr ⟨hne, hninf⟩⟩, he.symm⟩
  · have h1 : ((v.tokenToId.filter (fun e => exceptPredB (some [L]) e.1)).map
        Prod.fst).Nodup :=
      hnodup.sublist ((List.filter_sublist _).map Prod.fst)
    have h2 : addTokensExprs v (some [L]) =
        ((v.tokenToId.filter (fun e => exceptPredB (some [L]) e.1)).map Prod.fst).map
          (fun t => [U8Term.terminal t]) := by
      unfold addTokensExprs
      rw [List.map_map]
      rfl
    rw [h2]
    refine h1.map ?_
    intro a b hab
    simpa using hab

/-- C6 witness: the characterisation at the vocabulary `{0 ↦ "aab", 1 ↦ "ac"}`
with literal `"ac"`. -/
theorem C6_witness :
    (vACn.tokenToId.map Prod.fst).Nodup ∧
      ((0 ∈ addTokensIdSet vACn (some [[97, 99]]) ↔
        ∃ t, (t, 0) ∈ vACn.tokenToId ∧ t ≠ [97, 99] ∧ ¬ ([97, 99] <:+: t)) ∧
      (∀ e, e ∈ addTokensExprs vACn (some [[97, 99]]) ↔
        ∃ t tid2, (t, tid2) ∈ vACn.tokenToId ∧ t ≠ [97, 99] ∧ ¬ ([97, 99] <:+: t) ∧
          e = [U8Term.terminal t]) ∧
      (addTokensExprs vACn (some [[97, 99]])).Nodup) :=
  ⟨by decide, C6_except_literal_expansion vACn [97, 99] 0 (by decide)⟩


/-- Any engine step only inserts canonical entries into `stacks_to_token_ids`:
each stored id set is exactly the one the token loop computes for its key (so
the cache hypothesis of the reset round-trip holds for every reachable
state). -/
theorem cacheGood_step (fuel : Nat) (g : Grammar) (v : Vocabulary) (ce : Bool)
    (s : SamplerState) (tok? : Option ℕ) (r : PossibleTokensResult)
    (s' : SamplerState)
    (h : allPossibleNextTokens fuel g v ce s tok? = some (r, s'))
    (hinv : ∀ k ids, (k, ids) ∈ s.stacksToTokenIds →
      stacksTokenLoop fuel g v ce k (skipUnion g k ∅) [] = some ids) :
    ∀ k ids, (k, ids) ∈ s'.stacksToTokenIds →
      stacksTokenLoop fuel g v ce k (skipUnion g k ∅) [] = some ids := by
  unfold allPossibleNextTokens at h
  cases hacc : acceptAToken fuel g v ce s.stks tok? with
  | none =>
    rw [hacc] at h
    exact Option.noConfusion h
  | some p =>
    rcases p with ⟨ar, stks2⟩
    rw [hacc] at h
    cases ar with
    | End =>
      have h2 : some (PossibleTokensResult.End,
          { s with stks := stks2, tokenIds := ∅ }) = some (r, s') := h
      injection h2 with h3
      injection h3 with _ h4
      rw [← h4]
      exact hinv
    | Failed =>
      have h2 : some (PossibleTokensResult.InputTokenRejected,
          { s with stks := stks2, tokenIds := ∅ }) = some (r, s') := h
      injection h2 with h3
      injection h3 with _ h4
      rw [← h4]
      exact hinv
    | Continue =>
      have h2 : (match assocFind s.stacksToTokenIds stks2 with
        | some cached =>
          some (PossibleTokensResult.Continue cached,
            { stks := stks2, stacksToTokenIds := s.stacksToTokenIds,
              tokenIds := skipUnion g stks2 ∅ })
        | none =>
          match stacksTokenLoop fuel g v ce stks2 (skipUnion g stks2 ∅) [] with
          | none => none
          | some ids =>
            some (PossibleTokensResult.Continue ids,
              { stks := stks2, stacksToTokenIds := (stks2, ids) :: s.stacksToTokenIds,
                tokenIds := ids })) = some (r, s') := h
      cases hf : assocFind s.stacksToTokenIds stks2 with
      | some cached =>
        rw [hf] at h2
        injection h2 with h3
        injection h3 with _ h4
        rw [← h4]
        exact hinv
      | none =>
        rw [hf] at h2
        cases hl : stacksTokenLoop fuel g v ce stks2 (skipUnion g stks2 ∅) [] with
        | none =>
          rw [hl] at h2
          exact Option.noConfusion h2
        | some ids =>
          rw [hl] at h2
          injection h2 with h3
          injection h3 with _ h4
          rw [← h4]
          intro k ids2 hmem
          rcases List.mem_cons.mp hmem with heq | hold
          · injection heq with he1 he2
            rw [he1, he2]
            exact hl
          · exact hinv k ids2 hold

/-- The result of `all_possible_next_tokens` is determined by the stack set
alone when both engines carry only canonical cache entries. -/
theorem allPossible_result_det (fuel : Nat) (g : Grammar) (v : Vocabulary)
    (ce : Bool) (sA sB : SamplerState) (tok? : Option ℕ)
    (hstks : sA.stks = sB.stks)
    (hcA : ∀ k ids, (k, ids) ∈ sA.stacksToTokenIds →
      stacksTokenLoop fuel g v ce k (skipUnion g k ∅) [] = some ids)
    (hcB : ∀ k ids, (k, ids) ∈ sB.stacksToTokenIds →
      stacksTokenLoop fuel g v ce k (skipUnion g k ∅) [] = some ids)
    (rA rB : PossibleTokensResult) (sA' sB' : SamplerState)
    (hA : allPossibleNextTokens fuel g v ce sA tok? = some (rA, sA'))
    (hB : allPossibleNextTokens fuel g v ce sB tok? = some (rB, sB')) :
    rA = rB := by
  unfold allPossibleNextTokens at hA hB
  rw [hstks] at hA
  cases hacc : acceptAToken fuel g v ce sB.stks tok? with
  | none =>
    rw [hacc] at hA
    exact Option.noConfusion hA
  | some p =>
    rcases p with ⟨ar, stks2⟩
    rw [hacc] at hA hB
    cases ar with
    | End =>
      have hA2 : some (PossibleTokensResult.End,
          { sA with stks := stks2, tokenIds := ∅ }) = some (rA, sA') := hA
      have hB2 : some (PossibleTokensResult.End,
          { sB with stks := stks2, tokenIds := ∅ }) = some (rB, sB') := hB
      injection hA2 with hA3
      injection hA3 with hA3 _
      injection hB2 with hB3
      injection hB3 with hB3 _
      rw [← hA3, ← hB3]
    | Failed =>
      have hA2 : some (PossibleTokensResult.InputTokenRejected,
          { sA with stks := stks2, tokenIds := ∅ }) = some (rA, sA') := hA
      have hB2 : some (PossibleTokensResult.InputTokenRejected,
          { sB with stks := stks2, tokenIds := ∅ }) = some (rB, sB') := hB
      injection hA2 with hA3
      injection hA3 with hA3 _
      injection hB2 with hB3
      injection hB3 with hB3 _
      rw [← hA3, ← hB3]
    | Continue =>
      have hA2 : (match assocFind sA.stacksToTokenIds stks2 with
        | some cached =>
          some (PossibleTokensResult.Continue cached,
            { stks := stks2, stacksToTokenIds := sA.stacksToTokenIds,
              tokenIds := skipUnion g stks2 ∅ })
        | none =>
          match stacksTokenLoop fuel g v ce stks2 (skipUnion g stks2 ∅) [] with
          | none => none
          | some ids =>
            some (PossibleTokensResult.Continue ids,
              { stks := stks2, stacksToTokenIds := (stks2, ids) :: sA.stacksToTokenIds,
                tokenIds := ids })) = some (rA, sA') := hA
      have hB2 : (match assocFind sB.stacksToTokenIds stks2 with
        | some cached =>
          some (PossibleTokensResult.Continue cached,
            { stks := stks2, stacksToTokenIds := sB.stacksToTokenIds,
              tokenIds := skipUnion g stks2 ∅ })
        | none =>
          match stacksTokenLoop fuel g v ce stks2 (skipUnion g stks2 ∅) [] with
          | none => none
          | some ids =>
            some (PossibleTokensResult.Continue ids,
              { stks := stks2, stacksToTokenIds := (stks2, ids) :: sB.stacksToTokenIds,
                tokenIds := ids })) = some (rB, sB') := hB
      obtain ⟨idsA, hrA, hlA⟩ : ∃ ids, rA = .Continue ids ∧
          stacksTokenLoop fuel g v ce stks2 (skipUnion g stks2 ∅) [] = some ids := by
        cases hfA : assocFind sA.stacksToTokenIds stks2 with
        | some c =>
          rw [hfA] at hA2
          injection hA2 with h3
          injection h3 with h3 _
          exact ⟨c, h3.symm, hcA stks2 c (assocFind_mem hfA)⟩
        | none =>
          rw [hfA] at hA2
          cases hl : stacksTokenLoop fuel g v ce stks2 (skipUnion g stks2 ∅) [] with
          | none =>
            rw [hl] at hA2
            exact Option.noConfusion hA2
          | some ids =>
            rw [hl] at hA2
            injection hA2 with h3
            injection h3 with h3 _
            exact ⟨ids, h3.symm, rfl⟩
      obtain ⟨idsB, hrB, hlB⟩ : ∃ ids, rB = .Continue ids ∧
          stacksTokenLoop fuel g v ce stks2 (skipUnion g stks2 ∅) [] = some ids := by
        cases hfB : assocFind sB.stacksToTokenIds stks2 with
        | some c =>
          rw [hfB] at hB2
          injection hB2 with h3
          injection h3 with h3 _
          exact ⟨c, h3.symm, hcB stks2 c (assocFind_mem hfB)⟩
        | none =>
          rw [hfB] at hB2
          cases hl : stacksTokenLoop fuel g v ce stks2 (skipUnion g stks2 ∅) [] with
          | none =>
            rw [hl] at hB2
            exact Option.noConfusion hB2
          | some ids =>
            rw [hl] at hB2
            injection hB2 with h3
            injection h3 with h3 _
            exact ⟨ids, h3.symm, rfl⟩
      rw [hrA, hrB, Option.some.inj (hlA.symm.trans hlB)]

/-- C7: reset followed by `all_possible_next_tokens(None)` returns the same
result as the first call on a freshly constructed engine, provided the
engine's surviving cache holds only canonical entries (which `cacheGood_step`
shows is an invariant of every reachable state). -/
theorem C7_reset_round_trip (fuel : Nat) (g : Grammar) (v : Vocabulary)
    (ce : Bool) (startNT : String) (s0 s : SamplerState)
    (hnew : samplerNew g startNT = .ok s0)
    (hcache : ∀ k ids, (k, ids) ∈ s.stacksToTokenIds →
      stacksTokenLoop fuel g v ce k (skipUnion g k ∅) [] = some ids)
    (r1 r2 : PossibleTokensResult) (s1 s2 : SamplerState)
    (h1 : allPossibleNextTokens fuel g v ce s0 none = some (r1, s1))
    (h2 : allPossibleNextTokens fuel g v ce (resetSampler g startNT s) none =
      some (r2, s2)) :
    r2 = r1 := by
  unfold samplerNew at hnew
  cases hfind : assocFind g.nonterminalToTerminalId startNT with
  | none =>
    rw [hfind] at hnew
    exact Except.noConfusion hnew
  | some idt =>
    rw [hfind] at hnew
    have hnew2 : (Except.ok ⟨[[StackItem.nonterminal idt]], [], ∅⟩ :
        Except NewError SamplerState) = .ok s0 := hnew
    have hs0 : (⟨[[StackItem.nonterminal idt]], [], ∅⟩ : SamplerState) = s0 := by
      injection hnew2 with h
    refine allPossible_result_det fuel g v ce (resetSampler g startNT s) s0 none
      ?_ ?_ ?_ r2 r1 s2 s1 h2 h1
    · rw [← hs0]
      show [[StackItem.nonterminal ((assocFind g.nonterminalToTerminalId
        startNT).getD 0)]] = _
      rw [hfind]
      rfl
    · exact hcache
    · intro k ids hmem
      rw [← hs0] at hmem
      exact absurd hmem (List.not_mem_nil _)

/-- C7 witness: for `<s> ::= 'a' <n>; <n> ::= 'c'` with vocabulary
`{0 ↦ "aab", 1 ↦ "ac"}`, the post-reset call returns the same (cached) result
as the fresh first call. -/
theorem C7_witness :
    samplerNew gACn "s" = .ok initState ∧
      allPossibleNextTokens 50 gACn vACn false initState none =
        some (.Continue ∅,
          ⟨[[StackItem.nonterminal 1, .terminal [97]]],
           [([[StackItem.nonterminal 1, .terminal [97]]], ∅)], ∅⟩) ∧
      allPossibleNextTokens 50 gACn vACn false
          (resetSampler gACn "s"
            ⟨[[StackItem.nonterminal 1, .terminal [97]]],
             [([[StackItem.nonterminal 1, .terminal [97]]], ∅)], ∅⟩) none =
        some (.Continue ∅,
          ⟨[[StackItem.nonterminal 1, .terminal [97]]],
           [([[StackItem.nonterminal 1, .terminal [97]]], ∅)], ∅⟩) ∧
      (PossibleTokensResult.Continue ∅ = PossibleTokensResult.Continue ∅) := by
  refine ⟨rfl, rfl, rfl, ?_⟩
  refine C7_reset_round_trip 50 gACn vACn false "s" initState
    ⟨[[StackItem.nonterminal 1, .terminal [97]]],
     [([[StackItem.nonterminal 1, .terminal [97]]], ∅)], ∅⟩
    rfl ?_ (.Continue ∅) (.Continue ∅)
    ⟨[[StackItem.nonterminal 1, .terminal [97]]],
     [([[StackItem.nonterminal 1, .terminal [97]]], ∅)], ∅⟩
    ⟨[[StackItem.nonterminal 1, .terminal [97]]],
     [([[StackItem.nonterminal 1, .terminal [97]]], ∅)], ∅⟩
    rfl rfl
  intro k ids h
  have h2 : (k, ids) ∈
      [([[StackItem.nonterminal 1, StackItem.terminal [97]]], (∅ : Finset ℕ))] := h
  rw [List.mem_singleton] at h2
  injection h2 with he1 he2
  rw [he1, he2]
  rfl


/-! Soundness development for the legal-token set (C1): derivations compose,
productive stacks derive words, and the matcher's results are sound. -/

theorem sentDerives_append {g : Grammar} :
    ∀ {a : List StackItem} {wa : List Nat}, SentDerives g a wa →
      ∀ {b : List StackItem} {wb : List Nat}, SentDerives g b wb →
        SentDerives g (a ++ b) (wa ++ wb) := by
  intro a wa h
  induction h with
  | nil =>
    intro b wb hb
    exact hb
  | term _ ih =>
    intro b wb hb
    rw [List.cons_append, List.append_assoc]
    exact .term (ih hb)
  | expand hf hm _ ih =>
    intro b wb hb
    rw [List.cons_append]
    refine .expand hf hm ?_
    rw [← List.append_assoc]
    exact ih hb
  | expandT hf _ ih =>
    intro b wb hb
    rw [List.cons_append]
    exact .expandT hf (ih hb)
  | tnode hacc _ ih =>
    intro b wb hb
    rw [List.cons_append, List.append_assoc]
    exact .tnode hacc (ih hb)

theorem goodStack_derives {g : Grammar} :
    ∀ (sf : List StackItem), (∀ it ∈ sf, ItemProd g it) →
      ∃ w, SentDerives g sf w := by
  intro sf
  induction sf with
  | nil =>
    intro _
    exact ⟨[], .nil⟩
  | cons it rest ih =>
    intro h
    obtain ⟨w1, h1⟩ := h it (List.mem_cons_self _ _)
    obtain ⟨w2, h2⟩ := ih (fun x hx => h x (List.mem_cons_of_mem _ hx))
    exact ⟨w1 ++ w2, sentDerives_append h1 h2⟩

theorem take_succ_reverse {α : Type} (l : List α) (n : Nat) (d : α)
    (h : n < l.length) :
    (l.take (n + 1)).reverse = l.getD n d :: (l.take n).reverse := by
  rw [List.take_succ, List.getElem?_eq_getElem h]
  rw [List.getD_eq_getElem?_getD, List.getElem?_eq_getElem h]
  simp [Option.toList]

theorem termScan_leafExact :
    ∀ (rb t : List Nat) (pos : Nat), termScan rb t pos = .leafExact → rb = t := by
  intro rb
  induction rb with
  | nil =>
    intro t pos h
    cases t with
    | nil => rfl
    | cons b tl => exact TermScanRes.noConfusion h
  | cons b rb' ih =>
    intro t pos h
    cases t with
    | nil => exact TermScanRes.noConfusion h
    | cons tb tl =>
      unfold termScan at h
      split at h
      · rename_i heq
        rw [heq, ih tl (pos + 1) h]
      · exact TermScanRes.noConfusion h

theorem termScan_leafModified :
    ∀ (rb t : List Nat) (pos : Nat) (rest : List Nat),
      termScan rb t pos = .leafModified rest → t = rb ++ rest := by
  intro rb
  induction rb with
  | nil =>
    intro t pos rest h
    cases t with
    | nil => exact TermScanRes.noConfusion h
    | cons b tl =>
      injection h with h1
  | cons b rb' ih =>
    intro t pos rest h
    cases t with
    | nil => exact TermScanRes.noConfusion h
    | cons tb tl =>
      unfold termScan at h
      split at h
      · rename_i heq
        rw [heq, List.cons_append, ih tl (pos + 1) rest h]
      · exact TermScanRes.noConfusion h

theorem termScan_continueBelow :
    ∀ (rb t : List Nat) (pos : Nat),
      termScan rb t pos = .continueBelow → t <+: rb ∧ t.length < rb.length := by
  intro rb
  induction rb with
  | nil =>
    intro t pos h
    cases t with
    | nil => exact TermScanRes.noConfusion h
    | cons b tl => exact TermScanRes.noConfusion h
  | cons b rb' ih =>
    intro t pos h
    cases t with
    | nil => exact ⟨List.nil_prefix, by simp⟩
    | cons tb tl =>
      unfold termScan at h
      split at h
      · rename_i heq
        obtain ⟨hpre, hlen⟩ := ih tl (pos + 1) h
        refine ⟨?_, by simpa using hlen⟩
        obtain ⟨k, hk⟩ := hpre
        exact ⟨k, by rw [heq, List.cons_append, hk]⟩
      · exact TermScanRes.noConfusion h

theorem trieWalk_cons (t : TerminalsTrie) (n x : Nat) (xs : List Nat) :
    trieWalk t n (x :: xs) =
      match childLookup (t.get n) x with
      | some c =>
        if (t.get c).negativeBytesIndex.isSome = true then none else trieWalk t c xs
      | none => none := rfl

theorem trieWalk_append (t : TerminalsTrie) (hmf : MarkerFree t) :
    ∀ (a : List Nat) (n m : Nat), trieWalk t n a = some m →
      ∀ (b : List Nat), trieWalk t n (a ++ b) = trieWalk t m b := by
  intro a
  induction a with
  | nil =>
    intro n m h b
    injection h with h
    rw [h]
    rfl
  | cons x a' ih =>
    intro n m h b
    rw [trieWalk_cons] at h
    rw [List.cons_append, trieWalk_cons]
    cases hc : childLookup (t.get n) x with
    | none =>
      rw [hc] at h
      exact Option.noConfusion h
    | some c =>
      rw [hc] at h
      have h2 : (if (t.get c).negativeBytesIndex.isSome = true then none
          else trieWalk t c a') = some m := h
      rw [hmf c] at h2
      have h3 : trieWalk t c a' = some m := h2
      show (if (t.get c).negativeBytesIndex.isSome = true then none
        else trieWalk t c (a' ++ b)) = trieWalk t m b
      rw [hmf c]
      show trieWalk t c (a' ++ b) = trieWalk t m b
      exact ih c m h3 b

theorem trieAccepts_extend (t : TerminalsTrie) (hmf : MarkerFree t)
    (n m : Nat) (a b : List Nat) (hw : trieWalk t n a = some m)
    (hb : trieAccepts t m b = true) : trieAccepts t n (a ++ b) = true := by
  unfold trieAccepts at hb ⊢
  rw [trieWalk_append t hmf a n m hw b]
  exact hb

theorem trieWalk_bound (t : TerminalsTrie) (hwf : ChildrenWf t) :
    ∀ (w : List Nat) (n m : Nat), w ≠ [] → trieWalk t n w = some m →
      m < t.arena.length := by
  intro w
  induction w with
  | nil =>
    intro n m hne _
    exact absurd rfl hne
  | cons x w' ih =>
    intro n m _ h
    unfold trieWalk at h
    cases hc : childLookup (t.get n) x with
    | none =>
      rw [hc] at h
      exact Option.noConfusion h
    | some c =>
      rw [hc] at h
      have h2 : (if (t.get c).negativeBytesIndex.isSome = true then none
          else trieWalk t c w') = some m := h
      have hcb : c < t.arena.length := hwf n (x, c) (assocFind_mem hc)
      split at h2
      · exact Option.noConfusion h2
      · cases w' with
        | nil =>
          injection h2 with h2
          rw [← h2]
          exact hcb
        | cons y w2 => exact ih c m (by simp) h2


theorem walkNodes_nil (t : TerminalsTrie) (bI cur i : Nat) (acc : List Nat) :
    walkNodes t bI cur [] i acc = (acc, true, none) := rfl

theorem walkNodes_cons (t : TerminalsTrie) (bI cur b : Nat) (rb : List Nat)
    (i : Nat) (acc : List Nat) :
    walkNodes t bI cur (b :: rb) i acc =
      match childLookup (t.get cur) b with
      | some nid =>
        match (t.get nid).negativeBytesIndex with
        | some k => ((acc ++ [nid]).take (i + 1 - bI - k), false, none)
        | none => walkNodes t bI nid rb (i + 1) (acc ++ [nid])
      | none => (acc, false, some i) := rfl

/-- One marker-free step of the trie walk. -/
theorem walkNodes_step (t : TerminalsTrie) (hmf : MarkerFree t) (bI cur b : Nat)
    (rb : List Nat) (i : Nat) (acc : List Nat) (nid : Nat)
    (hc : childLookup (t.get cur) b = some nid) :
    walkNodes t bI cur (b :: rb) i acc =
      walkNodes t bI nid rb (i + 1) (acc ++ [nid]) := by
  rw [walkNodes_cons, hc]
  show (match (t.get nid).negativeBytesIndex with
    | some k => ((acc ++ [nid]).take (i + 1 - bI - k), false, none)
    | none => walkNodes t bI nid rb (i + 1) (acc ++ [nid])) =
    walkNodes t bI nid rb (i + 1) (acc ++ [nid])
  rw [hmf nid]

/-- Missing-child step of the trie walk. -/
theorem walkNodes_fail (t : TerminalsTrie) (bI cur b : Nat) (rb : List Nat)
    (i : Nat) (acc : List Nat) (hc : childLookup (t.get cur) b = none) :
    walkNodes t bI cur (b :: rb) i acc = (acc, false, some i) := by
  rw [walkNodes_cons, hc]

/-- The accumulator of the trie walk is a passive prefix (no negative markers
truncate it). -/
theorem walkNodes_acc (t : TerminalsTrie) (hmf : MarkerFree t) (bI : Nat) :
    ∀ (rb : List Nat) (cur i : Nat) (acc : List Nat),
      walkNodes t bI cur rb i acc =
        (acc ++ (walkNodes t bI cur rb i []).1,
         (walkNodes t bI cur rb i []).2.1, (walkNodes t bI cur rb i []).2.2) := by
  intro rb
  induction rb with
  | nil =>
    intro cur i acc
    rw [walkNodes_nil, walkNodes_nil]
    simp
  | cons b rb' ih =>
    intro cur i acc
    cases hc : childLookup (t.get cur) b with
    | none =>
      rw [walkNodes_fail t bI cur b rb' i acc hc, walkNodes_fail t bI cur b rb' i [] hc]
      simp
    | some nid =>
      rw [walkNodes_step t hmf bI cur b rb' i acc nid hc,
          walkNodes_step t hmf bI cur b rb' i [] nid hc]
      rw [ih nid (i + 1) (acc ++ [nid]), ih nid (i + 1) ([] ++ [nid])]
      simp

/-- Specification of the trie walk with empty accumulator: the `j`-th
collected node is the walk of the first `j+1` demand bytes, and the success
flag means every byte was consumed. -/
theorem walkNodes_spec (t : TerminalsTrie) (hmf : MarkerFree t) (bI : Nat) :
    ∀ (rb : List Nat) (cur i : Nat),
      (∀ j, j < (walkNodes t bI cur rb i []).1.length →
        trieWalk t cur (rb.take (j + 1)) =
          some ((walkNodes t bI cur rb i []).1.getD j 0)) ∧
      ((walkNodes t bI cur rb i []).2.1 = true →
        (walkNodes t bI cur rb i []).1.length = rb.length) := by
  intro rb
  induction rb with
  | nil =>
    intro cur i
    rw [walkNodes_nil]
    exact ⟨fun j hj => absurd hj (by simp), fun _ => rfl⟩
  | cons b rb' ih =>
    intro cur i
    cases hc : childLookup (t.get cur) b with
    | none =>
      rw [walkNodes_fail t bI cur b rb' i [] hc]
      exact ⟨fun j hj => absurd hj (by simp), fun hfl => Bool.noConfusion hfl⟩
    | some nid =>
      rw [walkNodes_step t hmf bI cur b rb' i [] nid hc]
      rw [walkNodes_acc t hmf bI rb' nid (i + 1) ([] ++ [nid])]
      have hstep : ∀ (xs : List Nat), trieWalk t cur (b :: xs) = trieWalk t nid xs := by
        intro xs
        rw [trieWalk_cons, hc]
        show (if (t.get nid).negativeBytesIndex.isSome = true then none
          else trieWalk t nid xs) = trieWalk t nid xs
        rw [hmf nid]
        rfl
      obtain ⟨ihw, ihl⟩ := ih nid (i + 1)
      constructor
      · intro j hj
        simp only [List.nil_append, List.length_cons, List.length_append,
          List.length_singleton, List.length_nil] at hj ⊢
        cases j with
        | zero =>
          rw [List.take_succ_cons, List.take_zero, hstep []]
          rfl
        | succ j' =>
          rw [List.take_succ_cons, hstep (rb'.take (j' + 1))]
          rw [ihw j' (by omega)]
          rfl
      · intro hfl
        simp only [List.nil_append, List.length_append, List.length_cons,
          List.length_singleton, List.length_nil] at hfl ⊢
        rw [ihl hfl]
        omega

theorem getD_lt_of_getD_item (stack : List StackItem) (so : Nat) (it : StackItem)
    (h : stack.getD so (.nonterminal 0) = it) (hne : it ≠ .nonterminal 0) :
    so < stack.length := by
  by_contra hge
  push_neg at hge
  rw [List.getD_eq_default _ _ hge] at h
  exact hne h.symm

theorem getLast?_getD {α : Type} (l : List α) (x : α) (d : α)
    (h : l.getLast? = some x) : l ≠ [] ∧ x = l.getD (l.length - 1) d := by
  have hne : l ≠ [] := by
    intro he
    rw [he] at h
    exact Option.noConfusion h
  refine ⟨hne, ?_⟩
  rw [List.getLast?_eq_getElem?] at h
  rw [List.getD_eq_getElem?_getD, h]
  rfl

theorem matchAux_stop (trie : TerminalsTrie) (stack : List StackItem)
    (bytes : List Nat) (findAll : Bool) (fuel bI so : Nat) (st : MatchSt)
    (hcond : (bytes.isEmpty || (!findAll && st.found)) = true) :
    matchAux trie stack bytes findAll (fuel + 1) bI so st = st := by
  unfold matchAux
  rw [hcond]
  rfl

theorem matchAux_nonterminal_eq (trie : TerminalsTrie) (stack : List StackItem)
    (bytes : List Nat) (findAll : Bool) (fuel bI so : Nat) (st : MatchSt)
    (nt : Nat) (hitem : stack.getD so (.nonterminal 0) = .nonterminal nt)
    (hcond : (bytes.isEmpty || (!findAll && st.found)) = false) :
    matchAux trie stack bytes findAll (fuel + 1) bI so st =
      if bI ≠ 0 then { st with results := st.results ++ [⟨some bI, so, none⟩] }
      else st := by
  unfold matchAux
  rw [hcond, hitem]
  rfl

theorem matchAux_terminal_eq (trie : TerminalsTrie) (stack : List StackItem)
    (bytes : List Nat) (findAll : Bool) (fuel bI so : Nat) (st : MatchSt)
    (t : List Nat) (hitem : stack.getD so (.nonterminal 0) = .terminal t)
    (hcond : (bytes.isEmpty || (!findAll && st.found)) = false) :
    matchAux trie stack bytes findAll (fuel + 1) bI so st =
      match termScan (bytes.drop bI) t bI with
      | .leafExact =>
        { st with found := true, results := st.results ++ [⟨none, so, none⟩] }
      | .leafModified rest =>
        { st with found := true,
                  results := st.results ++ [⟨none, so, some (.terminal rest)⟩] }
      | .mismatch p => { st with shortest := minShort st.shortest p }
      | .continueBelow =>
        if 0 < so then matchAux trie stack bytes findAll fuel (bI + t.length) (so - 1) st
        else st := by
  conv_lhs => unfold matchAux
  rw [hcond, hitem]
  rw [if_neg Bool.false_ne_true]

theorem matchAux_terminals_eq (trie : TerminalsTrie) (stack : List StackItem)
    (bytes : List Nat) (findAll : Bool) (fuel bI so : Nat) (st : MatchSt)
    (nid : Nat) (hitem : stack.getD so (.nonterminal 0) = .terminals nid)
    (hcond : (bytes.isEmpty || (!findAll && st.found)) = false) :
    matchAux trie stack bytes findAll (fuel + 1) bI so st =
      match (walkNodes trie bI nid (bytes.drop bI) bI []).1.getLast? with
      | none => (splitLoop trie bytes findAll
      (fun a b c => matchAux trie stack bytes findAll fuel a b c) bI so
      (walkNodes trie bI nid (bytes.drop bI) bI []).1 0
      (match (walkNodes trie bI nid (bytes.drop bI) bI []).2.2 with
       | some i => { st with shortest := minShort st.shortest i }
       | none => st))
      | some lastId =>
        if (walkNodes trie bI nid (bytes.drop bI) bI []).2.1 = true then
          (if (trie.get lastId).value.isSome = true then
            { (if !(trie.get lastId).children.isEmpty && (trie.get lastId).canStop then
        { (splitLoop trie bytes findAll
      (fun a b c => matchAux trie stack bytes findAll fuel a b c) bI so
      (walkNodes trie bI nid (bytes.drop bI) bI []).1 0
      (match (walkNodes trie bI nid (bytes.drop bI) bI []).2.2 with
       | some i => { st with shortest := minShort st.shortest i }
       | none => st)) with
          found := true,
          results := (splitLoop trie bytes findAll
      (fun a b c => matchAux trie stack bytes findAll fuel a b c) bI so
      (walkNodes trie bI nid (bytes.drop bI) bI []).1 0
      (match (walkNodes trie bI nid (bytes.drop bI) bI []).2.2 with
       | some i => { st with shortest := minShort st.shortest i }
       | none => st)).results ++
            [⟨none, so, some (.terminals lastId)⟩] }
      else (splitLoop trie bytes findAll
      (fun a b c => matchAux trie stack bytes findAll fuel a b c) bI so
      (walkNodes trie bI nid (bytes.drop bI) bI []).1 0
      (match (walkNodes trie bI nid (bytes.drop bI) bI []).2.2 with
       | some i => { st with shortest := minShort st.shortest i }
       | none => st))) with
              found := true,
              results := (if !(trie.get lastId).children.isEmpty && (trie.get lastId).canStop then
        { (splitLoop trie bytes findAll
      (fun a b c => matchAux trie stack bytes findAll fuel a b c) bI so
      (walkNodes trie bI nid (bytes.drop bI) bI []).1 0
      (match (walkNodes trie bI nid (bytes.drop bI) bI []).2.2 with
       | some i => { st with shortest := minShort st.shortest i }
       | none => st)) with
          found := true,
          results := (splitLoop trie bytes findAll
      (fun a b c => matchAux trie stack bytes findAll fuel a b c) bI so
      (walkNodes trie bI nid (bytes.drop bI) bI []).1 0
      (match (walkNodes trie bI nid (bytes.drop bI) bI []).2.2 with
       | some i => { st with shortest := minShort st.shortest i }
       | none => st)).results ++
            [⟨none, so, some (.terminals lastId)⟩] }
      else (splitLoop trie bytes findAll
      (fun a b c => matchAux trie stack bytes findAll fuel a b c) bI so
      (walkNodes trie bI nid (bytes.drop bI) bI []).1 0
      (match (walkNodes trie bI nid (bytes.drop bI) bI []).2.2 with
       | some i => { st with shortest := minShort st.shortest i }
       | none => st))).results ++ [⟨none, so, none⟩] }
          else (if !(trie.get lastId).children.isEmpty && (trie.get lastId).canStop then
        { (splitLoop trie bytes findAll
      (fun a b c => matchAux trie stack bytes findAll fuel a b c) bI so
      (walkNodes trie bI nid (bytes.drop bI) bI []).1 0
      (match (walkNodes trie bI nid (bytes.drop bI) bI []).2.2 with
       | some i => { st with shortest := minShort st.shortest i }
       | none => st)) with
          found := true,
          results := (splitLoop trie bytes findAll
      (fun a b c => matchAux trie stack bytes findAll fuel a b c) bI so
      (walkNodes trie bI nid (bytes.drop bI) bI []).1 0
      (match (walkNodes trie bI nid (bytes.drop bI) bI []).2.2 with
       | some i => { st with shortest := minShort st.shortest i }
       | none => st)).results ++
            [⟨none, so, some (.terminals lastId)⟩] }
      else (splitLoop trie bytes findAll
      (fun a b c => matchAux trie stack bytes findAll fuel a b c) bI so
      (walkNodes trie bI nid (bytes.drop bI) bI []).1 0
      (match (walkNodes trie bI nid (bytes.drop bI) bI []).2.2 with
       | some i => { st with shortest := minShort st.shortest i }
       | none => st))))
        else (splitLoop trie bytes findAll
      (fun a b c => matchAux trie stack bytes findAll fuel a b c) bI so
      (walkNodes trie bI nid (bytes.drop bI) bI []).1 0
      (match (walkNodes trie bI nid (bytes.drop bI) bI []).2.2 with
       | some i => { st with shortest := minShort st.shortest i }
       | none => st)) := by
  conv_lhs => unfold matchAux
  rw [hcond, hitem]
  rw [if_neg Bool.false_ne_true]

/-- The split loop preserves result soundness: every recursive call it makes
is on a guarded index, and the guard supplies the invariant. -/
theorem splitLoop_sound (trie : TerminalsTrie) (bytes : List Nat)
    (findAll : Bool) (rec : Nat → Nat → MatchSt → MatchSt) (bI so : Nat)
    (P : BytesMatchResult → Prop) :
    ∀ (nodes : List Nat) (i : Nat) (st : MatchSt),
      (∀ j st2, j < nodes.length →
        ((trie.get (nodes.getD j 0)).value.isSome = true ∧ 0 < so ∧
          (i + j) + bI < bytes.length - 1) →
        (∀ r ∈ st2.results, P r) →
        ∀ r ∈ (rec (bI + (i + j) + 1) (so - 1) st2).results, P r) →
      (∀ r ∈ st.results, P r) →
      ∀ r ∈ (splitLoop trie bytes findAll rec bI so nodes i st).results, P r := by
  intro nodes
  induction nodes with
  | nil =>
    intro i st _ hst r hr
    exact hst r hr
  | cons nid rest ih =>
    intro i st hrec hst r hr
    unfold splitLoop at hr
    split at hr
    · rename_i hguard
      simp only [Bool.and_eq_true, decide_eq_true_eq] at hguard
      have hst2 := hrec 0 st (by simp)
        ⟨by simpa using hguard.1.1, hguard.1.2, by simpa using hguard.2⟩ hst
      have hr2 : r ∈ (if (!findAll && (rec (bI + i + 1) (so - 1) st).found) = true
          then rec (bI + i + 1) (so - 1) st
          else splitLoop trie bytes findAll rec bI so rest (i + 1)
            (rec (bI + i + 1) (so - 1) st)).results := hr
      split at hr2
      · exact hst2 r hr2
      · refine ih (i + 1) _ ?_ hst2 r hr2
        intro j st3 hj hg hst3
        have := hrec (j + 1) st3 (by simpa using hj)
          ⟨by simpa using hg.1, hg.2.1, by
            have h3 := hg.2.2
            omega⟩ hst3
        have harg : i + 1 + j = i + (j + 1) := by omega
        rw [harg]
        exact this
    · refine ih (i + 1) st ?_ hst r hr
      intro j st3 hj hg hst3
      have := hrec (j + 1) st3 (by simpa using hj)
        ⟨by simpa using hg.1, hg.2.1, by
          have h3 := hg.2.2
          omega⟩ hst3
      have harg : i + 1 + j = i + (j + 1) := by omega
      rw [harg]
      exact this


/-- Soundness of `_match_stack_to_bytes`: every result it records maps words
of its reported residual stack to words of the original stack that extend the
demanded bytes. -/
theorem matchAux_sound (g : Grammar) (findAll : Bool)
    (hmf : MarkerFree g.terminalsTrie) (hwf : ChildrenWf g.terminalsTrie)
    (hnp : NodesProd g) (stack : List StackItem) (bytes : List Nat) :
    ∀ (fuel bI so : Nat) (st : MatchSt),
      bI ≤ bytes.length →
      so < stack.length →
      (∀ w, SentDerives g ((stack.take (so + 1)).reverse) w →
        SentDerives g stack.reverse (bytes.take bI ++ w)) →
      (∀ r ∈ st.results, ResultSound g stack bytes r) →
      ∀ r ∈ (matchAux g.terminalsTrie stack bytes findAll fuel bI so st).results,
        ResultSound g stack bytes r := by
  intro fuel
  induction fuel with
  | zero =>
    intro bI so st _ _ _ hst r hr
    exact hst r hr
  | succ fuel ih =>
    intro bI so st hbI hso0 hctx hst r hr
    cases hcondv : (bytes.isEmpty || (!findAll && st.found)) with
    | true =>
      rw [matchAux_stop g.terminalsTrie stack bytes findAll fuel bI so st hcondv] at hr
      exact hst r hr
    | false =>
      cases hitem : stack.getD so (.nonterminal 0) with
      | nonterminal nt =>
        rw [matchAux_nonterminal_eq g.terminalsTrie stack bytes findAll fuel bI so st
          nt hitem hcondv] at hr
        split at hr
        · have hr2 : r ∈ st.results ++ [⟨some bI, so, none⟩] := hr
          rcases List.mem_append.mp hr2 with hold | hnew
          · exact hst r hold
          · rw [List.mem_singleton.mp hnew]
            constructor
            · intro hnone
              exact Option.noConfusion hnone
            · intro rem hrem
              injection hrem with hrem
              subst hrem
              exact ⟨rfl, hbI, hso0, ⟨nt, hitem⟩, hctx⟩
        · exact hst r hr
      | terminal t =>
        have hso : so < stack.length := hso0
        rw [matchAux_terminal_eq g.terminalsTrie stack bytes findAll fuel bI so st
          t hitem hcondv] at hr
        cases hts : termScan (bytes.drop bI) t bI with
        | leafExact =>
          rw [hts] at hr
          have hr2 : r ∈ st.results ++ [⟨none, so, none⟩] := hr
          rcases List.mem_append.mp hr2 with hold | hnew
          · exact hst r hold
          · rw [List.mem_singleton.mp hnew]
            have hdrop : bytes.drop bI = t := termScan_leafExact _ _ _ hts
            constructor
            · intro _
              refine ⟨fun m hm => Option.noConfusion hm, ?_⟩
              intro w hw
              have hw2 : SentDerives g ((stack.take so).reverse) w := by
                simpa [modL] using hw
              have hstep : SentDerives g ((stack.take (so + 1)).reverse) (t ++ w) := by
                rw [take_succ_reverse stack so (.nonterminal 0) hso, hitem]
                exact .term hw2
              have hmain := hctx (t ++ w) hstep
              have heq : bytes.take bI ++ (t ++ w) = bytes ++ w := by
                rw [← hdrop, ← List.append_assoc, List.take_append_drop]
              rwa [heq] at hmain
            · intro rem hrem
              exact Option.noConfusion hrem
        | leafModified rest =>
          rw [hts] at hr
          have hr2 : r ∈ st.results ++ [⟨none, so, some (.terminal rest)⟩] := hr
          rcases List.mem_append.mp hr2 with hold | hnew
          · exact hst r hold
          · rw [List.mem_singleton.mp hnew]
            have hteq : t = bytes.drop bI ++ rest := termScan_leafModified _ _ _ _ hts
            constructor
            · intro _
              refine ⟨?_, ?_⟩
              · intro m hm
                injection hm with hm
                rw [← hm]
                exact ⟨rest ++ [], .term .nil⟩
              · intro w hw
                have hw2 : SentDerives g (.terminal rest :: (stack.take so).reverse) w := by
                  simpa [modL] using hw
                obtain ⟨w2, hw3, hweq⟩ := sentDerives_terminal_inv hw2
                have hstep : SentDerives g ((stack.take (so + 1)).reverse) (t ++ w2) := by
                  rw [take_succ_reverse stack so (.nonterminal 0) hso, hitem]
                  exact .term hw3
                have hmain := hctx (t ++ w2) hstep
                have heq : bytes.take bI ++ (t ++ w2) = bytes ++ w := by
                  rw [hweq, hteq, ← List.append_assoc, ← List.append_assoc,
                    List.take_append_drop, List.append_assoc]
                rwa [heq] at hmain
            · intro rem hrem
              exact Option.noConfusion hrem
        | mismatch p =>
          rw [hts] at hr
          have hr2 : r ∈ st.results := hr
          exact hst r hr2
        | continueBelow =>
          rw [hts] at hr
          have hrb : r ∈ (if 0 < so then
              matchAux g.terminalsTrie stack bytes findAll fuel (bI + t.length)
                (so - 1) st
            else st).results := hr
          split at hrb
          · rename_i hpos
            obtain ⟨hpre, hlt⟩ := termScan_continueBelow _ _ _ hts
            have hdlen : (bytes.drop bI).length = bytes.length - bI :=
              List.length_drop bI bytes
            have h8 : t.length < bytes.length - bI := by
              rw [← hdlen]
              exact hlt
            have hlen : bI + t.length ≤ bytes.length := by omega
            have htake : bytes.take (bI + t.length) = bytes.take bI ++ t := by
              rw [List.take_add]
              congr 1
              obtain ⟨k, hk⟩ := hpre
              rw [← hk, List.take_left]
            refine ih (bI + t.length) (so - 1) st hlen (by omega) ?_ hst r hrb
            intro w hw
            have hso1 : so - 1 + 1 = so := by omega
            rw [hso1] at hw
            have hstep : SentDerives g ((stack.take (so + 1)).reverse) (t ++ w) := by
              rw [take_succ_reverse stack so (.nonterminal 0) hso, hitem]
              exact .term hw
            have hmain := hctx (t ++ w) hstep
            rw [htake, List.append_assoc]
            exact hmain
          · exact hst r hrb
      | terminals nid =>
        have hso : so < stack.length := hso0
        rw [matchAux_terminals_eq g.terminalsTrie stack bytes findAll fuel bI so st
          nid hitem hcondv] at hr
        obtain ⟨hwspec, hwlen⟩ := walkNodes_spec g.terminalsTrie hmf bI (bytes.drop bI) nid bI
        have hst1 : ∀ r2 ∈ (match (walkNodes g.terminalsTrie bI nid (bytes.drop bI) bI []).2.2 with
          | some i => { st with shortest := minShort st.shortest i }
          | none => st).results,
            ResultSound g stack bytes r2 := by
          intro r2 hr2
          split at hr2
          · exact hst r2 hr2
          · exact hst r2 hr2
        have hSL : ∀ r2 ∈ (splitLoop g.terminalsTrie bytes findAll
          (fun a b c => matchAux g.terminalsTrie stack bytes findAll fuel a b c) bI so
          (walkNodes g.terminalsTrie bI nid (bytes.drop bI) bI []).1 0
          (match (walkNodes g.terminalsTrie bI nid (bytes.drop bI) bI []).2.2 with
          | some i => { st with shortest := minShort st.shortest i }
          | none => st)).results,
            ResultSound g stack bytes r2 := by
          refine splitLoop_sound g.terminalsTrie bytes findAll
            (fun a b c => matchAux g.terminalsTrie stack bytes findAll fuel a b c) bI so
            (ResultSound g stack bytes)
            (walkNodes g.terminalsTrie bI nid (bytes.drop bI) bI []).1 0
            (match (walkNodes g.terminalsTrie bI nid (bytes.drop bI) bI []).2.2 with
          | some i => { st with shortest := minShort st.shortest i }
          | none => st) ?_ hst1
          intro j st2 hj hg hst2
          refine ih (bI + (0 + j) + 1) (so - 1) st2 ?_ (by omega) ?_ hst2
          · have h3 := hg.2.2
            omega
          · intro w hw
            have hso1 : so - 1 + 1 = so := by
              have := hg.2.1
              omega
            rw [hso1] at hw
            have hwalkj := hwspec j hj
            have hval := hg.1
            have hacc : trieAccepts g.terminalsTrie nid ((bytes.drop bI).take (j + 1)) =
                true := by
              unfold trieAccepts
              rw [hwalkj]
              exact hval
            have hstep : SentDerives g ((stack.take (so + 1)).reverse)
                ((bytes.drop bI).take (j + 1) ++ w) := by
              rw [take_succ_reverse stack so (.nonterminal 0) hso, hitem]
              exact .tnode hacc hw
            have hmain := hctx _ hstep
            have htake : bytes.take (bI + (0 + j) + 1) =
                bytes.take bI ++ (bytes.drop bI).take (j + 1) := by
              have h4 : bI + (0 + j) + 1 = bI + (j + 1) := by omega
              rw [h4, List.take_add]
            rw [htake, List.append_assoc]
            exact hmain
        cases hlast : (walkNodes g.terminalsTrie bI nid (bytes.drop bI) bI []).1.getLast? with
        | none =>
          rw [hlast] at hr
          have hr2 : r ∈ (splitLoop g.terminalsTrie bytes findAll
          (fun a b c => matchAux g.terminalsTrie stack bytes findAll fuel a b c) bI so
          (walkNodes g.terminalsTrie bI nid (bytes.drop bI) bI []).1 0
          (match (walkNodes g.terminalsTrie bI nid (bytes.drop bI) bI []).2.2 with
          | some i => { st with shortest := minShort st.shortest i }
          | none => st)).results := hr
          exact hSL r hr2
        | some lastId =>
          rw [hlast] at hr
          have hr2 : r ∈ (if (walkNodes g.terminalsTrie bI nid (bytes.drop bI) bI []).2.1 = true then
              (if (g.terminalsTrie.get lastId).value.isSome = true then
                { (if !(g.terminalsTrie.get lastId).children.isEmpty &&
            (g.terminalsTrie.get lastId).canStop then
          { (splitLoop g.terminalsTrie bytes findAll
          (fun a b c => matchAux g.terminalsTrie stack bytes findAll fuel a b c) bI so
          (walkNodes g.terminalsTrie bI nid (bytes.drop bI) bI []).1 0
          (match (walkNodes g.terminalsTrie bI nid (bytes.drop bI) bI []).2.2 with
          | some i => { st with shortest := minShort st.shortest i }
          | none => st)) with
            found := true,
            results := (splitLoop g.terminalsTrie bytes findAll
          (fun a b c => matchAux g.terminalsTrie stack bytes findAll fuel a b c) bI so
          (walkNodes g.terminalsTrie bI nid (bytes.drop bI) bI []).1 0
          (match (walkNodes g.terminalsTrie bI nid (bytes.drop bI) bI []).2.2 with
          | some i => { st with shortest := minShort st.shortest i }
          | none => st)).results ++
              [⟨none, so, some (.terminals lastId)⟩] }
        else (splitLoop g.terminalsTrie bytes findAll
          (fun a b c => matchAux g.terminalsTrie stack bytes findAll fuel a b c) bI so
          (walkNodes g.terminalsTrie bI nid (bytes.drop bI) bI []).1 0
          (match (walkNodes g.terminalsTrie bI nid (bytes.drop bI) bI []).2.2 with
          | some i => { st with shortest := minShort st.shortest i }
          | none => st))) with
                  found := true,
                  results := (if !(g.terminalsTrie.get lastId).children.isEmpty &&
            (g.terminalsTrie.get lastId).canStop then
          { (splitLoop g.terminalsTrie bytes findAll
          (fun a b c => matchAux g.terminalsTrie stack bytes findAll fuel a b c) bI so
          (walkNodes g.terminalsTrie bI nid (bytes.drop bI) bI []).1 0
          (match (walkNodes g.terminalsTrie bI nid (bytes.drop bI) bI []).2.2 with
          | some i => { st with shortest := minShort st.shortest i }
          | none => st)) with
            found := true,
            results := (splitLoop g.terminalsTrie bytes findAll
          (fun a b c => matchAux g.terminalsTrie stack bytes findAll fuel a b c) bI so
          (walkNodes g.terminalsTrie bI nid (bytes.drop bI) bI []).1 0
          (match (walkNodes g.terminalsTrie bI nid (bytes.drop bI) bI []).2.2 with
          | some i => { st with shortest := minShort st.shortest i }
          | none => st)).results ++
              [⟨none, so, some (.terminals lastId)⟩] }
        else (splitLoop g.terminalsTrie bytes findAll
          (fun a b c => matchAux g.terminalsTrie stack bytes findAll fuel a b c) bI so
          (walkNodes g.terminalsTrie bI nid (bytes.drop bI) bI []).1 0
          (match (walkNodes g.terminalsTrie bI nid (bytes.drop bI) bI []).2.2 with
          | some i => { st with shortest := minShort st.shortest i }
          | none => st))).results ++ [⟨none, so, none⟩] }
              else (if !(g.terminalsTrie.get lastId).children.isEmpty &&
            (g.terminalsTrie.get lastId).canStop then
          { (splitLoop g.terminalsTrie bytes findAll
          (fun a b c => matchAux g.terminalsTrie stack bytes findAll fuel a b c) bI so
          (walkNodes g.terminalsTrie bI nid (bytes.drop bI) bI []).1 0
          (match (walkNodes g.terminalsTrie bI nid (bytes.drop bI) bI []).2.2 with
          | some i => { st with shortest := minShort st.shortest i }
          | none => st)) with
            found := true,
            results := (splitLoop g.terminalsTrie bytes findAll
          (fun a b c => matchAux g.terminalsTrie stack bytes findAll fuel a b c) bI so
          (walkNodes g.terminalsTrie bI nid (bytes.drop bI) bI []).1 0
          (match (walkNodes g.terminalsTrie bI nid (bytes.drop bI) bI []).2.2 with
          | some i => { st with shortest := minShort st.shortest i }
          | none => st)).results ++
              [⟨none, so, some (.terminals lastId)⟩] }
        else (splitLoop g.terminalsTrie bytes findAll
          (fun a b c => matchAux g.terminalsTrie stack bytes findAll fuel a b c) bI so
          (walkNodes g.terminalsTrie bI nid (bytes.drop bI) bI []).1 0
          (match (walkNodes g.terminalsTrie bI nid (bytes.drop bI) bI []).2.2 with
          | some i => { st with shortest := minShort st.shortest i }
          | none => st))))
            else (splitLoop g.terminalsTrie bytes findAll
          (fun a b c => matchAux g.terminalsTrie stack bytes findAll fuel a b c) bI so
          (walkNodes g.terminalsTrie bI nid (bytes.drop bI) bI []).1 0
          (match (walkNodes g.terminalsTrie bI nid (bytes.drop bI) bI []).2.2 with
          | some i => { st with shortest := minShort st.shortest i }
          | none => st))).results := hr
          split at hr2
          · rename_i hflag
            obtain ⟨hne, hlastD⟩ := getLast?_getD _ _ 0 hlast
            have hlenW := hwlen hflag
            have hWpos : 0 < (walkNodes g.terminalsTrie bI nid (bytes.drop bI) bI []).1.length := List.length_pos.mpr hne
            have hrbne : bytes.drop bI ≠ [] := by
              intro he
              have h5 : (bytes.drop bI).length = 0 := by rw [he]; rfl
              omega
            have hwalkLast : trieWalk g.terminalsTrie nid (bytes.drop bI) = some lastId := by
              have h6 := hwspec ((walkNodes g.terminalsTrie bI nid (bytes.drop bI) bI []).1.length - 1) (by omega)
              have h7 : (walkNodes g.terminalsTrie bI nid (bytes.drop bI) bI []).1.length - 1 + 1 = (walkNodes g.terminalsTrie bI nid (bytes.drop bI) bI []).1.length := by omega
              rw [h7, hlenW, List.take_length] at h6
              rw [hlenW] at hlastD
              rw [h6]
              exact congrArg some hlastD.symm
            have hbound : lastId < g.terminalsTrie.arena.length :=
              trieWalk_bound g.terminalsTrie hwf (bytes.drop bI) nid lastId hrbne hwalkLast
            have hST3 : ∀ r2 ∈ (if !(g.terminalsTrie.get lastId).children.isEmpty &&
            (g.terminalsTrie.get lastId).canStop then
          { (splitLoop g.terminalsTrie bytes findAll
          (fun a b c => matchAux g.terminalsTrie stack bytes findAll fuel a b c) bI so
          (walkNodes g.terminalsTrie bI nid (bytes.drop bI) bI []).1 0
          (match (walkNodes g.terminalsTrie bI nid (bytes.drop bI) bI []).2.2 with
          | some i => { st with shortest := minShort st.shortest i }
          | none => st)) with
            found := true,
            results := (splitLoop g.terminalsTrie bytes findAll
          (fun a b c => matchAux g.terminalsTrie stack bytes findAll fuel a b c) bI so
          (walkNodes g.terminalsTrie bI nid (bytes.drop bI) bI []).1 0
          (match (walkNodes g.terminalsTrie bI nid (bytes.drop bI) bI []).2.2 with
          | some i => { st with shortest := minShort st.shortest i }
          | none => st)).results ++
              [⟨none, so, some (.terminals lastId)⟩] }
        else (splitLoop g.terminalsTrie bytes findAll
          (fun a b c => matchAux g.terminalsTrie stack bytes findAll fuel a b c) bI so
          (walkNodes g.terminalsTrie bI nid (bytes.drop bI) bI []).1 0
          (match (walkNodes g.terminalsTrie bI nid (bytes.drop bI) bI []).2.2 with
          | some i => { st with shortest := minShort st.shortest i }
          | none => st))).results,
                ResultSound g stack bytes r2 := by
              intro r2 hr3
              split at hr3
              · have hr4 : r2 ∈ (splitLoop g.terminalsTrie bytes findAll
          (fun a b c => matchAux g.terminalsTrie stack bytes findAll fuel a b c) bI so
          (walkNodes g.terminalsTrie bI nid (bytes.drop bI) bI []).1 0
          (match (walkNodes g.terminalsTrie bI nid (bytes.drop bI) bI []).2.2 with
          | some i => { st with shortest := minShort st.shortest i }
          | none => st)).results ++
                    [⟨none, so, some (.terminals lastId)⟩] := hr3
                rcases List.mem_append.mp hr4 with hold | hnew2
                · exact hSL r2 hold
                · rw [List.mem_singleton.mp hnew2]
                  constructor
                  · intro _
                    refine ⟨?_, ?_⟩
                    · intro m hm
                      injection hm with hm
                      rw [← hm]
                      exact hnp lastId hbound
                    · intro w hw
                      have hw2 : SentDerives g
                          (.terminals lastId :: (stack.take so).reverse) w := by
                        simpa [modL] using hw
                      obtain ⟨tc, w2, hacc2, hrest, hweq⟩ := sentDerives_terminals_inv hw2
                      have haccN : trieAccepts g.terminalsTrie nid
                          (bytes.drop bI ++ tc) = true :=
                        trieAccepts_extend g.terminalsTrie hmf nid lastId
                          (bytes.drop bI) tc hwalkLast hacc2
                      have hstep : SentDerives g ((stack.take (so + 1)).reverse)
                          ((bytes.drop bI ++ tc) ++ w2) := by
                        rw [take_succ_reverse stack so (.nonterminal 0) hso, hitem]
                        exact .tnode haccN hrest
                      have hmain := hctx _ hstep
                      have heq2 : bytes.take bI ++ ((bytes.drop bI ++ tc) ++ w2) =
                          bytes ++ w := by
                        rw [hweq, ← List.append_assoc, ← List.append_assoc,
                          List.take_append_drop, List.append_assoc]
                      rwa [heq2] at hmain
                  · intro rem hrem
                    exact Option.noConfusion hrem
              · exact hSL r2 hr3
            split at hr2
            · rename_i hval
              have hr3 : r ∈ (if !(g.terminalsTrie.get lastId).children.isEmpty &&
            (g.terminalsTrie.get lastId).canStop then
          { (splitLoop g.terminalsTrie bytes findAll
          (fun a b c => matchAux g.terminalsTrie stack bytes findAll fuel a b c) bI so
          (walkNodes g.terminalsTrie bI nid (bytes.drop bI) bI []).1 0
          (match (walkNodes g.terminalsTrie bI nid (bytes.drop bI) bI []).2.2 with
          | some i => { st with shortest := minShort st.shortest i }
          | none => st)) with
            found := true,
            results := (splitLoop g.terminalsTrie bytes findAll
          (fun a b c => matchAux g.terminalsTrie stack bytes findAll fuel a b c) bI so
          (walkNodes g.terminalsTrie bI nid (bytes.drop bI) bI []).1 0
          (match (walkNodes g.terminalsTrie bI nid (bytes.drop bI) bI []).2.2 with
          | some i => { st with shortest := minShort st.shortest i }
          | none => st)).results ++
              [⟨none, so, some (.terminals lastId)⟩] }
        else (splitLoop g.terminalsTrie bytes findAll
          (fun a b c => matchAux g.terminalsTrie stack bytes findAll fuel a b c) bI so
          (walkNodes g.terminalsTrie bI nid (bytes.drop bI) bI []).1 0
          (match (walkNodes g.terminalsTrie bI nid (bytes.drop bI) bI []).2.2 with
          | some i => { st with shortest := minShort st.shortest i }
          | none => st))).results ++ [⟨none, so, none⟩] := hr2
              rcases List.mem_append.mp hr3 with hold | hnew
              · exact hST3 r hold
              · rw [List.mem_singleton.mp hnew]
                have haccN : trieAccepts g.terminalsTrie nid (bytes.drop bI) = true := by
                  unfold trieAccepts
                  rw [hwalkLast]
                  exact hval
                constructor
                · intro _
                  refine ⟨fun m hm => Option.noConfusion hm, ?_⟩
                  intro w hw
                  have hw2 : SentDerives g ((stack.take so).reverse) w := by
                    simpa [modL] using hw
                  have hstep : SentDerives g ((stack.take (so + 1)).reverse)
                      (bytes.drop bI ++ w) := by
                    rw [take_succ_reverse stack so (.nonterminal 0) hso, hitem]
                    exact .tnode haccN hw2
                  have hmain := hctx _ hstep
                  have heq2 : bytes.take bI ++ (bytes.drop bI ++ w) = bytes ++ w := by
                    rw [← List.append_assoc, List.take_append_drop]
                  rwa [heq2] at hmain
                · intro rem hrem
                  exact Option.noConfusion hrem
            · exact hST3 r hr2
          · exact hSL r hr2


/-- Soundness of `match_stack_to_bytes` on a byte demand: the result list, when
present, is non-empty and all its entries are sound. -/
theorem matchStackToBytes_sound (g : Grammar) (findAll : Bool)
    (hmf : MarkerFree g.terminalsTrie) (hwf : ChildrenWf g.terminalsTrie)
    (hnp : NodesProd g) (stack : List StackItem) (bs : List Nat)
    (rs : List BytesMatchResult) (hne : stack ≠ [])
    (h : matchStackToBytes g.terminalsTrie stack (some bs) findAll = .matches rs) :
    rs ≠ [] ∧ ∀ r ∈ rs, ResultSound g stack bs r := by
  unfold matchStackToBytes at h
  have h2 : (if (matchAux g.terminalsTrie stack bs findAll (stack.length + 1) 0
      (stack.length - 1) ⟨false, none, []⟩).results.isEmpty = true then
      BytesMatchResults.failed (matchAux g.terminalsTrie stack bs findAll
        (stack.length + 1) 0 (stack.length - 1) ⟨false, none, []⟩).shortest
    else BytesMatchResults.matches (matchAux g.terminalsTrie stack bs findAll
      (stack.length + 1) 0 (stack.length - 1) ⟨false, none, []⟩).results) =
      .matches rs := h
  split at h2
  · exact BytesMatchResults.noConfusion h2
  · rename_i hres
    injection h2 with h3
    have hlen : 0 < stack.length := List.length_pos.mpr hne
    constructor
    · intro hnil
      apply hres
      rw [h3, hnil]
      rfl
    · intro r hr
      rw [← h3] at hr
      refine matchAux_sound g findAll hmf hwf hnp stack bs (stack.length + 1) 0
        (stack.length - 1) ⟨false, none, []⟩ (by omega) (by omega) ?_ ?_ r hr
      · intro w hw
        rw [List.take_of_length_le (by omega)] at hw
        simpa using hw
      · intro r2 hr2
        exact absurd hr2 (List.not_mem_nil r2)

theorem goodStack_sub {g : Grammar} {l1 l2 : List StackItem} (hsub : l1 ⊆ l2)
    (h : GoodStack g l2) : GoodStack g l1 :=
  fun it hit => h it (hsub hit)

/-- A reported residual stack of a sound leaf result derives some word. -/
theorem residual_derives (g : Grammar) (stack : List StackItem)
    (mod : Option StackItem) (n : Nat) (hg : GoodStack g stack)
    (hm : ∀ m, mod = some m → ItemProd g m) :
    ∃ w, SentDerives g ((stack.take n ++ modL mod).reverse) w := by
  apply goodStack_derives
  intro it hit
  rw [List.mem_reverse] at hit
  rcases List.mem_append.mp hit with h1 | h2
  · exact hg it (List.take_subset _ _ h1)
  · cases mod with
    | none => exact absurd h2 (List.not_mem_nil it)
    | some m =>
      have h4 : it = m := List.mem_singleton.mp h2
      rw [h4]
      exact hm m rfl

/-- The reversed stack decomposes at its top. -/
theorem reverse_getLast {α : Type} (l : List α) (x : α) (h : l.getLast? = some x) :
    l.reverse = x :: l.dropLast.reverse := by
  have hne : l ≠ [] := by
    intro he
    rw [he] at h
    exact Option.noConfusion h
  have hx : l.getLast hne = x := by
    rw [List.getLast?_eq_getLast _ hne] at h
    exact Option.some.inj h
  conv_lhs => rw [← List.dropLast_append_getLast hne]
  rw [List.reverse_append, hx]
  rfl

/-- When the leaf loop sets its flag or stops early, a fully-consumed result
exists in the list. -/
theorem leafLoop_true_leaf {σ : Type} (findAll : Bool) (stack : List StackItem)
    (afterFind : σ → List StackItem → Option StackItem → σ) :
    ∀ (rs : List BytesMatchResult) (st : σ) (flag0 : Bool) (st1 : σ)
      (flag1 stop : Bool),
      leafLoop findAll stack afterFind rs st flag0 = (st1, flag1, stop) →
      (flag1 = true → flag0 = true ∨ ∃ r ∈ rs, r.remainingBytesStart = none) ∧
      (stop = true → ∃ r ∈ rs, r.remainingBytesStart = none) := by
  intro rs
  induction rs with
  | nil =>
    intro st flag0 st1 flag1 stop h
    injection h with h1 h2
    injection h2 with h2 h3
    constructor
    · intro hf
      exact Or.inl (h2 ▸ hf)
    · intro hs
      rw [← h3] at hs
      exact Bool.noConfusion hs
  | cons r rest ih =>
    intro st flag0 st1 flag1 stop h
    unfold leafLoop at h
    split at h
    · rename_i hnone
      split at h
      · injection h with h1 h2
        injection h2 with h2 h3
        exact ⟨fun _ => Or.inr ⟨r, List.mem_cons_self _ _, hnone⟩,
          fun _ => ⟨r, List.mem_cons_self _ _, hnone⟩⟩
      · exact ⟨fun _ => Or.inr ⟨r, List.mem_cons_self _ _, hnone⟩,
          fun _ => ⟨r, List.mem_cons_self _ _, hnone⟩⟩
    · obtain ⟨ih1, ih2⟩ := ih st flag0 st1 flag1 stop h
      constructor
      · intro hf
        rcases ih1 hf with h1 | ⟨r2, hr2, he2⟩
        · exact Or.inl h1
        · exact Or.inr ⟨r2, List.mem_cons_of_mem _ hr2, he2⟩
      · intro hs
        obtain ⟨r2, hr2, he2⟩ := ih2 hs
        exact ⟨r2, List.mem_cons_of_mem _ hr2, he2⟩

/-- A cache-disabled run stays cache-disabled. -/
theorem findGo_cache_none {σ : Type} (g : Grammar) (findAll : Bool)
    (afterFind : σ → List StackItem → Option StackItem → σ)
    (afterFail : σ → List Nat → Option Nat → σ) :
    ∀ (fuel : Nat) (call : FindCall) (st : σ) (v : Bool) (c' : Option Cache)
      (st' : σ),
      findGo g findAll afterFind afterFail fuel call none st = some (v, c', st') →
      c' = none := by
  intro fuel
  induction fuel with
  | zero =>
    intro call st v c' st' h
    exact Option.noConfusion h
  | succ n ih =>
    intro call st v c' st' h
    cases call with
    | fcall stack b? =>
      simp only [findGo] at h
      split at h
      · injection h with h1
        injection h1 with _ h2
        injection h2 with h2 _
        exact h2.symm
      · exact ih _ st v c' st' h
      · split at h
        · injection h with h1
          injection h1 with _ h2
          injection h2 with h2 _
          exact h2.symm
        · split at h
          · injection h with h1
            injection h1 with _ h2
            injection h2 with h2 _
            exact h2.symm
          · split at h
            · injection h with h1
              injection h1 with _ h2
              injection h2 with h2 _
              exact h2.symm
            · exact ih _ _ v c' st' h
    | ecall pre idn b? =>
      simp only [findGo] at h
      split at h
      · exact ih _ st v c' st' h
      · exact ih _ st v c' st' h
    | eloop pre es b? f =>
      cases es with
      | nil =>
        simp only [findGo] at h
        injection h with h1
        injection h1 with _ h2
        injection h2 with h2 _
        exact h2.symm
      | cons e rest =>
        simp only [findGo] at h
        cases hres : findGo g findAll afterFind afterFail n
            (.fcall (pre ++ (e.map (toItem g)).reverse) b?) none st with
        | none =>
          rw [hres] at h
          exact Option.noConfusion h
        | some p =>
          rcases p with ⟨v1, c1, st1⟩
          rw [hres] at h
          have hc1 := ih _ st v1 c1 st1 hres
          subst hc1
          have h2 : (if (!findAll && (f || v1)) = true then
              some (f || v1, (none : Option Cache), st1)
            else findGo g findAll afterFind afterFail n
              (.eloop pre rest b? (f || v1)) none st1) = some (v, c', st') := h
          split at h2
          · injection h2 with h1
            injection h1 with _ h3
            injection h3 with h3 _
            exact h3.symm
          · exact ih _ st1 v c' st' h2
    | rloop stack bytes rs f =>
      cases rs with
      | nil =>
        simp only [findGo] at h
        injection h with h1
        injection h1 with _ h2
        injection h2 with h2 _
        exact h2.symm
      | cons r rest =>
        simp only [findGo] at h
        split at h
        · exact ih _ st v c' st' h
        · split at h
          · cases hres : findGo g findAll afterFind afterFail n
                (.ecall (stack.take r.stackOffset) _ (some (bytes.drop _))) none st with
            | none =>
              rw [hres] at h
              exact Option.noConfusion h
            | some p =>
              rcases p with ⟨v1, c1, st1⟩
              rw [hres] at h
              have h2 : (if (!findAll && (f || v1)) = true then
                  some (true, (none : Option Cache), st1)
                else findGo g findAll afterFind afterFail n
                  (.rloop stack bytes rest (f || v1)) none st1) = some (v, c', st') := h
              split at h2
              · injection h2 with h1
                injection h1 with _ h3
                injection h3 with h3 _
                exact h3.symm
              · exact ih _ st1 v c' st' h2
          · exact Option.noConfusion h


/-- Soundness of `find_stacks_matching_bytes` in cache-disabled mode: a `true`
verdict on a byte demand means the demanded bytes extend into a word derivable
from the queried stack (productivity hypotheses complete partial matches). -/
theorem findGo_sound {σ : Type} (g : Grammar) (findAll : Bool)
    (afterFind : σ → List StackItem → Option StackItem → σ)
    (afterFail : σ → List Nat → Option Nat → σ)
    (hmf : MarkerFree g.terminalsTrie) (hwf : ChildrenWf g.terminalsTrie)
    (hnp : NodesProd g) (hgp : GramProd g) :
    ∀ (fuel : Nat) (call : FindCall) (st : σ) (v : Bool) (c' : Option Cache)
      (st' : σ),
      findGo g findAll afterFind afterFail fuel call none st = some (v, c', st') →
      v = true →
      (match call with
       | .fcall stack b? => ∀ bs, b? = some bs → GoodStack g stack →
           ∃ w, SentDerives g stack.reverse (bs ++ w)
       | .ecall pre idn b? => ∀ bs, b? = some bs → GoodStack g pre →
           ∃ w, SentDerives g (.nonterminal idn :: pre.reverse) (bs ++ w)
       | .eloop pre es b? found => ∀ bs, b? = some bs → GoodStack g pre →
           (∀ e ∈ es, ∀ tm ∈ e, ItemProd g (toItem g tm)) →
           (found = true ∨ ∃ e ∈ es, ∃ w,
             SentDerives g ((pre ++ (e.map (toItem g)).reverse).reverse) (bs ++ w))
       | .rloop stack bytes rs flag => GoodStack g stack →
           (∀ r ∈ rs, ResultSound g stack bytes r) →
           (flag = true ∨ ∃ w, SentDerives g stack.reverse (bytes ++ w))) := by
  intro fuel
  induction fuel with
  | zero =>
    intro call st v c' st' h
    exact Option.noConfusion h
  | succ n ih =>
    intro call st v c' st' h hv
    cases call with
    | fcall stack b? =>
      intro bs hbs hg
      subst hbs
      simp only [findGo] at h
      split at h
      · injection h with h1
        injection h1 with h1 _
        exact Bool.noConfusion (h1.trans hv)
      · rename_i idn hlast
        have hcall := ih _ st v c' st' h hv
        obtain ⟨w, hw⟩ := hcall bs rfl
          (goodStack_sub (List.dropLast_sublist stack).subset hg)
        refine ⟨w, ?_⟩
        rw [reverse_getLast stack _ hlast]
        exact hw
      · rename_i item hlast
        have hne : stack ≠ [] := by
          intro he
          rw [he] at hlast
          exact Option.noConfusion hlast
        split at h
        · injection h with h1
          injection h1 with h1 _
          exact Bool.noConfusion (h1.trans hv)
        · rename_i rs hmatch
          obtain ⟨hrsne, hrs⟩ :=
            matchStackToBytes_sound g findAll hmf hwf hnp stack bs rs hne hmatch
          split at h
          · rename_i hemp
            exact absurd (List.isEmpty_iff.mp hemp) hrsne
          · split at h
            · rename_i st1 fl heq
              obtain ⟨_, hstop⟩ :=
                leafLoop_true_leaf findAll stack afterFind rs st false st1 fl true heq
              obtain ⟨r, hrmem, hrnone⟩ := hstop rfl
              obtain ⟨hmprod, hmain⟩ := (hrs r hrmem).1 hrnone
              obtain ⟨w, hw⟩ := residual_derives g stack r.modifiedItemAtOffset
                r.stackOffset hg hmprod
              exact ⟨w, hmain w hw⟩
            · rename_i st1 fl1 heq
              have hrloop := ih _ st1 v c' st' h hv
              have hres := hrloop hg (fun r2 hr2 => hrs r2 (List.mem_reverse.mp hr2))
              rcases hres with hfl | ⟨w, hw⟩
              · obtain ⟨hflag, _⟩ :=
                  leafLoop_true_leaf findAll stack afterFind rs st false st1 fl1 false heq
                rcases hflag hfl with hff | ⟨r, hrmem, hrnone⟩
                · exact Bool.noConfusion hff
                · obtain ⟨hmprod, hmain⟩ := (hrs r hrmem).1 hrnone
                  obtain ⟨w, hw⟩ := residual_derives g stack r.modifiedItemAtOffset
                    r.stackOffset hg hmprod
                  exact ⟨w, hmain w hw⟩
              · exact ⟨w, hw⟩
    | ecall pre idn b? =>
      intro bs hbs hg
      subst hbs
      simp only [findGo] at h
      split at h
      · rename_i es hexpr
        have hel := ih _ st v c' st' h hv
        have hgood := hgp.1 idn es hexpr
        rcases hel bs rfl hg hgood with hff | ⟨e, hmem, w, hw⟩
        · exact Bool.noConfusion hff
        · refine ⟨w, .expand hexpr hmem ?_⟩
          rw [List.reverse_append, List.reverse_reverse] at hw
          exact hw
      · rename_i nid hexpr
        have hfc := ih _ st v c' st' h hv
        have hnb := hgp.2 idn nid hexpr
        have hgood2 : GoodStack g (pre ++ [.terminals nid]) := by
          intro it hit
          rcases List.mem_append.mp hit with h1 | h2
          · exact hg it h1
          · rw [List.mem_singleton.mp h2]
            exact hnp nid hnb
        obtain ⟨w, hw⟩ := hfc bs rfl hgood2
        refine ⟨w, .expandT hexpr ?_⟩
        rw [List.reverse_append] at hw
        simpa using hw
    | eloop pre es b? f =>
      intro bs hbs hg hprod
      subst hbs
      cases es with
      | nil =>
        simp only [findGo] at h
        injection h with h1
        injection h1 with h1 _
        exact Or.inl (h1.trans hv)
      | cons e rest =>
        simp only [findGo] at h
        cases hres : findGo g findAll afterFind afterFail n
            (.fcall (pre ++ (e.map (toItem g)).reverse) (some bs)) none st with
        | none =>
          rw [hres] at h
          exact Option.noConfusion h
        | some p =>
          rcases p with ⟨v1, c1, st1⟩
          rw [hres] at h
          have hc1 := findGo_cache_none g findAll afterFind afterFail n _ st v1 c1 st1 hres
          subst hc1
          have hgood3 : GoodStack g (pre ++ (e.map (toItem g)).reverse) := by
            intro it hit
            rcases List.mem_append.mp hit with h1 | h2
            · exact hg it h1
            · rw [List.mem_reverse] at h2
              obtain ⟨tm, htm, hteq⟩ := List.mem_map.mp h2
              rw [← hteq]
              exact hprod e (List.mem_cons_self _ _) tm htm
          have hv1case : v1 = true → ∃ e2 ∈ e :: rest, ∃ w,
              SentDerives g ((pre ++ (e2.map (toItem g)).reverse).reverse) (bs ++ w) := by
            intro hv1
            obtain ⟨w, hw⟩ := ih _ st v1 none st1 hres hv1 bs rfl hgood3
            exact ⟨e, List.mem_cons_self _ _, w, hw⟩
          have h2 : (if (!findAll && (f || v1)) = true then
              some (f || v1, (none : Option Cache), st1)
            else findGo g findAll afterFind afterFail n
              (.eloop pre rest (some bs) (f || v1)) none st1) = some (v, c', st') := h
          split at h2
          · injection h2 with h1
            injection h1 with h1 _
            have hor : (f || v1) = true := h1.trans hv
            cases f with
            | true => exact Or.inl rfl
            | false =>
              rw [Bool.false_or] at hor
              exact Or.inr (hv1case hor)
          · have hel := ih _ st1 v c' st' h2 hv bs rfl hg
              (fun e2 he2 => hprod e2 (List.mem_cons_of_mem _ he2))
            rcases hel with hor | ⟨e2, hmem, w, hw⟩
            · cases f with
              | true => exact Or.inl rfl
              | false =>
                rw [Bool.false_or] at hor
                exact Or.inr (hv1case hor)
            · exact Or.inr ⟨e2, List.mem_cons_of_mem _ hmem, w, hw⟩
    | rloop stack bytes rs f =>
      intro hg hrs
      cases rs with
      | nil =>
        simp only [findGo] at h
        injection h with h1
        injection h1 with h1 _
        exact Or.inl (h1.trans hv)
      | cons r rest =>
        simp only [findGo] at h
        split at h
        · exact ih _ st v c' st' h hv hg
            (fun r2 hr2 => hrs r2 (List.mem_cons_of_mem _ hr2))
        · rename_i rem hrem
          obtain ⟨hmod, hremle, hofflt, ⟨nt, hgetD⟩, hmain⟩ :=
            (hrs r (List.mem_cons_self _ _)).2 rem hrem
          have hscrut : r.modifiedItemAtOffset.getD
              (stack.getD r.stackOffset (.nonterminal 0)) = .nonterminal nt := by
            rw [hmod, Option.getD_none, hgetD]
          rw [hscrut] at h
          have h2 : (match findGo g findAll afterFind afterFail n
              (.ecall (stack.take r.stackOffset) nt (some (bytes.drop rem))) none st with
            | none => none
            | some (v1, _, st1) =>
              if (!findAll && (f || v1)) = true then some (true, (none : Option Cache), st1)
              else findGo g findAll afterFind afterFail n
                (.rloop stack bytes rest (f || v1)) none st1) = some (v, c', st') := h
          cases hres : findGo g findAll afterFind afterFail n
              (.ecall (stack.take r.stackOffset) nt (some (bytes.drop rem))) none st with
          | none =>
            rw [hres] at h2
            exact Option.noConfusion h2
          | some p =>
            rcases p with ⟨v1, cx, st1⟩
            rw [hres] at h2
            have hv1case : v1 = true → ∃ w, SentDerives g stack.reverse (bytes ++ w) := by
              intro hv1
              obtain ⟨w1, hw1⟩ := ih _ st v1 cx st1 hres hv1 (bytes.drop rem) rfl
                (goodStack_sub (List.take_subset _ _) hg)
              have hstep : SentDerives g ((stack.take (r.stackOffset + 1)).reverse)
                  (bytes.drop rem ++ w1) := by
                rw [take_succ_reverse stack r.stackOffset (.nonterminal 0) hofflt, hgetD]
                exact hw1
              have h3 := hmain _ hstep
              refine ⟨w1, ?_⟩
              rwa [← List.append_assoc, List.take_append_drop] at h3
            have h4 : (if (!findAll && (f || v1)) = true then
                some (true, (none : Option Cache), st1)
              else findGo g findAll afterFind afterFail n
                (.rloop stack bytes rest (f || v1)) none st1) = some (v, c', st') := h2
            split at h4
            · rename_i hcnd
              have hor : (f || v1) = true := (Bool.and_eq_true _ _).mp hcnd |>.2
              cases f with
              | true => exact Or.inl rfl
              | false =>
                rw [Bool.false_or] at hor
                exact Or.inr (hv1case hor)
            · have hnext := ih _ st1 v c' st' h4 hv hg
                (fun r2 hr2 => hrs r2 (List.mem_cons_of_mem _ hr2))
              rcases hnext with hor | hex
              · cases f with
                | true => exact Or.inl rfl
                | false =>
                  rw [Bool.false_or] at hor
                  exact Or.inr (hv1case hor)
              · exact Or.inr hex


/-- With no precomputed token-id sets, the skip-union is the identity. -/
theorem skipUnion_fold_empty (g : Grammar) (hsf : g.nonterminalToTokenIds = []) :
    ∀ (l : List (List StackItem)) (acc : Finset ℕ × Finset Nat),
      l.foldl
        (fun (acc : Finset ℕ × Finset Nat) stack =>
          match stack.getLast? with
          | some (.terminals nid) =>
            if nid ∈ acc.2 then acc
            else
              match (g.terminalsTrie.roots.find? (fun p => decide (p.2 = nid))).map
                  (fun p => p.1) with
              | some k =>
                match assocFind g.nonterminalToTokenIds k with
                | some x => (acc.1 ∪ x, insert nid acc.2)
                | none => acc
              | none => acc
          | _ => acc)
        acc = acc := by
  intro l
  induction l with
  | nil =>
    intro acc
    rfl
  | cons a l ih =>
    intro acc
    rw [List.foldl_cons]
    cases hl : a.getLast? with
    | none => exact ih acc
    | some item =>
      cases item with
      | nonterminal nt => exact ih acc
      | terminal t => exact ih acc
      | terminals nid =>
        have hstep : (if nid ∈ acc.2 then acc
          else
            match (g.terminalsTrie.roots.find? (fun p => decide (p.2 = nid))).map
                (fun p => p.1) with
            | some k =>
              match assocFind g.nonterminalToTokenIds k with
              | some x => (acc.1 ∪ x, insert nid acc.2)
              | none => acc
            | none => acc) = acc := by
          by_cases hmem : nid ∈ acc.2
          · exact if_pos hmem
          · rw [if_neg hmem]
            cases hf : (g.terminalsTrie.roots.find? (fun p => decide (p.2 = nid))).map
                (fun p => p.1) with
            | none => rfl
            | some k =>
              rw [hsf]
              rfl
        show List.foldl _ (if nid ∈ acc.2 then acc
          else
            match (g.terminalsTrie.roots.find? (fun p => decide (p.2 = nid))).map
                (fun p => p.1) with
            | some k =>
              match assocFind g.nonterminalToTokenIds k with
              | some x => (acc.1 ∪ x, insert nid acc.2)
              | none => acc
            | none => acc) l = acc
        rw [hstep]
        exact ih acc

theorem skipUnion_empty (g : Grammar) (hsf : g.nonterminalToTokenIds = [])
    (stks : List (List StackItem)) (ids0 : Finset ℕ) :
    skipUnion g stks ids0 = ids0 := by
  unfold skipUnion
  rw [skipUnion_fold_empty g hsf stks (ids0, ∅)]

/-- Every id the per-stack token loop adds comes from a candidate token on
which the find-one matcher succeeded. -/
theorem tokenLoop_mem (fuel : Nat) (g : Grammar) (stack : List StackItem) :
    ∀ (cands : List (List Nat × ℕ)) (ids : Finset ℕ) (fp : List (List Nat))
      (c : Cache) (ids2 : Finset ℕ) (c2 : Cache),
      tokenLoop fuel g false stack cands ids fp c = some (ids2, c2) →
      ∀ tid ∈ ids2, tid ∈ ids ∨ ∃ tok fp1 cr fpr,
        (tok, tid) ∈ cands ∧
        findGo g false (fun st _ _ => st) failCallback fuel (.fcall stack (some tok))
          none fp1 = some (true, cr, fpr) := by
  intro cands
  induction cands with
  | nil =>
    intro ids fp c ids2 c2 h tid htid
    injection h with h1
    injection h1 with h1 _
    rw [← h1] at htid
    exact Or.inl htid
  | cons p rest ih =>
    rcases p with ⟨tok, tid2⟩
    intro ids fp c ids2 c2 h tid htid
    unfold tokenLoop at h
    split at h
    · rcases ih ids fp c ids2 c2 h tid htid with h1 | ⟨tok2, fp1, cr, fpr, hmem, hrun⟩
      · exact Or.inl h1
      · exact Or.inr ⟨tok2, fp1, cr, fpr, List.mem_cons_of_mem _ hmem, hrun⟩
    · have h2 : (match findGo g false (fun st _ _ => st) failCallback fuel
          (.fcall stack (some tok)) none fp with
        | none => none
        | some (res, c3, fp2) =>
          tokenLoop fuel g false stack rest (if res then insert tid2 ids else ids)
            fp2 c) = some (ids2, c2) := h
      cases hres : findGo g false (fun st _ _ => st) failCallback fuel
          (.fcall stack (some tok)) none fp with
      | none =>
        rw [hres] at h2
        exact Option.noConfusion h2
      | some q =>
        rcases q with ⟨res, c3, fp2⟩
        rw [hres] at h2
        cases res with
        | true =>
          have h3 : tokenLoop fuel g false stack rest (insert tid2 ids) fp2 c =
              some (ids2, c2) := h2
          rcases ih (insert tid2 ids) fp2 c ids2 c2 h3 tid htid with h1 |
            ⟨tok2, fp1, cr, fpr, hmem, hrun⟩
          · rcases Finset.mem_insert.mp h1 with heq | hin
            · subst heq
              exact Or.inr ⟨tok, fp, c3, fp2, List.mem_cons_self _ _, hres⟩
            · exact Or.inl hin
          · exact Or.inr ⟨tok2, fp1, cr, fpr, List.mem_cons_of_mem _ hmem, hrun⟩
        | false =>
          have h3 : tokenLoop fuel g false stack rest ids fp2 c = some (ids2, c2) := h2
          rcases ih ids fp2 c ids2 c2 h3 tid htid with h1 |
            ⟨tok2, fp1, cr, fpr, hmem, hrun⟩
          · exact Or.inl h1
          · exact Or.inr ⟨tok2, fp1, cr, fpr, List.mem_cons_of_mem _ hmem, hrun⟩

/-- Every id the stack loop adds comes from a candidate of one of the stacks
on which the matcher succeeded. -/
theorem stacksTokenLoop_mem (fuel : Nat) (g : Grammar) (v : Vocabulary) :
    ∀ (stks : List (List StackItem)) (ids : Finset ℕ) (c : Cache) (ids2 : Finset ℕ),
      stacksTokenLoop fuel g v false stks ids c = some ids2 →
      ∀ tid ∈ ids2, tid ∈ ids ∨ ∃ stack ∈ stks, ∃ tok fp1 cr fpr,
        (tok, tid) ∈ candidatesFor fuel g v stack.getLast? ∧
        findGo g false (fun st _ _ => st) failCallback fuel (.fcall stack (some tok))
          none fp1 = some (true, cr, fpr) := by
  intro stks
  induction stks with
  | nil =>
    intro ids c ids2 h tid htid
    injection h with h1
    rw [← h1] at htid
    exact Or.inl htid
  | cons stack rest ih =>
    intro ids c ids2 h tid htid
    unfold stacksTokenLoop at h
    cases htl : tokenLoop fuel g false stack
        (candidatesFor fuel g v stack.getLast?) ids [] c with
    | none =>
      rw [htl] at h
      exact Option.noConfusion h
    | some q =>
      rcases q with ⟨ids1, c1⟩
      rw [htl] at h
      have h2 : stacksTokenLoop fuel g v false rest ids1 c1 = some ids2 := h
      rcases ih ids1 c1 ids2 h2 tid htid with h1 |
        ⟨stack2, hsm, tok, fp1, cr, fpr, hcm, hrun⟩
      · rcases tokenLoop_mem fuel g stack _ ids [] c ids1 c1 htl tid h1 with h3 |
          ⟨tok, fp1, cr, fpr, hcm, hrun⟩
        · exact Or.inl h3
        · exact Or.inr ⟨stack, List.mem_cons_self _ _, tok, fp1, cr, fpr, hcm, hrun⟩
      · exact Or.inr ⟨stack2, List.mem_cons_of_mem _ hsm, tok, fp1, cr, fpr, hcm, hrun⟩

/-- Candidate tokens always come from the vocabulary. -/
theorem candidatesFor_sub (fuel : Nat) (g : Grammar) (v : Vocabulary)
    (top? : Option StackItem) (tok : List Nat) (tid : ℕ)
    (h : (tok, tid) ∈ candidatesFor fuel g v top?) : (tok, tid) ∈ v.tokenToId := by
  cases top? with
  | none => exact absurd h (List.not_mem_nil _)
  | some item =>
    cases item with
    | nonterminal nt => exact absurd h (List.not_mem_nil _)
    | terminal t =>
      have h2 : (tok, tid) ∈ iterPref v (qpLcp (v.tokenToId.map (fun e => e.1)) t) := h
      exact (List.mem_filter.mp h2).1
    | terminals nid =>
      have h2 : (tok, tid) ∈ (if 127 < (g.terminalsTrie.get nid).children.length then
          v.tokenToId
        else (trieValues fuel g.terminalsTrie nid).flatMap
          (fun key => iterPref v (qpLcp (v.tokenToId.map (fun e => e.1)) key))) := h
      split at h2
      · exact h2
      · obtain ⟨key, _, h3⟩ := List.mem_flatMap.mp h2
        exact (List.mem_filter.mp h3).1

/-- C1 (amended): with the byte cache disabled, no `except!` constructs (a
marker-free trie and no precomputed token-id sets), a productive well-formed
grammar, canonical surviving cache entries, and stacks that soundly represent
the accepted byte prefix, every id in a `Continue` result is the id of a
vocabulary token whose bytes extend the accepted prefix into a prefix of the
language. -/
theorem C1_amended (fuel : Nat) (g : Grammar) (v : Vocabulary) (s : SamplerState)
    (tok? : Option ℕ) (ids : Finset ℕ) (s' : SamplerState) (tid : ℕ)
    (start : Nat) (acc : List Nat)
    (hmf : MarkerFree g.terminalsTrie) (hwf : ChildrenWf g.terminalsTrie)
    (hnp : NodesProd g) (hgp : GramProd g)
    (hsf : g.nonterminalToTokenIds = [])
    (hcanon : ∀ k ids2, (k, ids2) ∈ s.stacksToTokenIds →
      stacksTokenLoop fuel g v false k (skipUnion g k ∅) [] = some ids2)
    (hgood : ∀ stack ∈ s'.stks, GoodStack g stack)
    (hsound : ∀ stack ∈ s'.stks, ∀ w, SentDerives g stack.reverse w →
      InLanguage g start (acc ++ w))
    (h : allPossibleNextTokens fuel g v false s tok? = some (.Continue ids, s'))
    (htid : tid ∈ ids) :
    ∃ tok, (tok, tid) ∈ v.tokenToId ∧ ExtendsIntoPrefix g start acc tok := by
  unfold allPossibleNextTokens at h
  cases hacc : acceptAToken fuel g v false s.stks tok? with
  | none =>
    rw [hacc] at h
    exact Option.noConfusion h
  | some p =>
    rcases p with ⟨ar, stks2⟩
    rw [hacc] at h
    cases ar with
    | End =>
      have h2 : some (PossibleTokensResult.End,
          { s with stks := stks2, tokenIds := ∅ }) = some (.Continue ids, s') := h
      injection h2 with h3
      injection h3 with h3 _
      exact PossibleTokensResult.noConfusion h3
    | Failed =>
      have h2 : some (PossibleTokensResult.InputTokenRejected,
          { s with stks := stks2, tokenIds := ∅ }) = some (.Continue ids, s') := h
      injection h2 with h3
      injection h3 with h3 _
      exact PossibleTokensResult.noConfusion h3
    | Continue =>
      have h2 : (match assocFind s.stacksToTokenIds stks2 with
        | some cached =>
          some (PossibleTokensResult.Continue cached,
            { stks := stks2, stacksToTokenIds := s.stacksToTokenIds,
              tokenIds := skipUnion g stks2 ∅ })
        | none =>
          match stacksTokenLoop fuel g v false stks2 (skipUnion g stks2 ∅) [] with
          | none => none
          | some ids3 =>
            some (PossibleTokensResult.Continue ids3,
              { stks := stks2, stacksToTokenIds := (stks2, ids3) :: s.stacksToTokenIds,
                tokenIds := ids3 })) = some (.Continue ids, s') := h
      have hmain : stacksTokenLoop fuel g v false stks2 (skipUnion g stks2 ∅) [] =
          some ids ∧ s'.stks = stks2 := by
        cases hf : assocFind s.stacksToTokenIds stks2 with
        | some cached =>
          rw [hf] at h2
          injection h2 with h3
          injection h3 with h3 h4
          have hids : cached = ids := PossibleTokensResult.Continue.inj h3
          constructor
          · rw [← hids]
            exact hcanon stks2 cached (assocFind_mem hf)
          · rw [← h4]
        | none =>
          rw [hf] at h2
          cases hl : stacksTokenLoop fuel g v false stks2 (skipUnion g stks2 ∅) [] with
          | none =>
            rw [hl] at h2
            exact Option.noConfusion h2
          | some ids3 =>
            rw [hl] at h2
            injection h2 with h3
            injection h3 with h3 h4
            have hids : ids3 = ids := PossibleTokensResult.Continue.inj h3
            constructor
            · exact congrArg some hids
            · rw [← h4]
      obtain ⟨hloop, hstks⟩ := hmain
      rw [skipUnion_empty g hsf] at hloop
      rcases stacksTokenLoop_mem fuel g v stks2 ∅ [] ids hloop tid htid with h0 |
        ⟨stack, hsm, tok, fp1, cr, fpr, hcm, hrun⟩
      · exact absurd h0 (Finset.not_mem_empty tid)
      · have hsm2 : stack ∈ s'.stks := by
          rw [hstks]
          exact hsm
        have hsnd := findGo_sound g false (fun st _ _ => st) failCallback hmf hwf hnp hgp
          fuel (.fcall stack (some tok)) fp1 true cr fpr hrun rfl
        obtain ⟨w, hw⟩ := hsnd tok rfl (hgood stack hsm2)
        refine ⟨tok, candidatesFor_sub fuel g v stack.getLast? tok tid hcm, w, ?_⟩
        rw [List.append_assoc]
        exact hsound stack hsm2 (tok ++ w) hw


/-- C1 witness: the amended soundness statement at the grammar
`<s> ::= 'a' | 'a' <s>` with vocabulary `{0 ↦ "a"}`: the first call returns
`{0}`, and token 0 (`"a"`) indeed extends the empty prefix into the
language. -/
theorem C1_witness :
    allPossibleNextTokens 50 gAs vAs false initState none =
      some (.Continue {0}, ⟨[[StackItem.nonterminal 0, .terminal [97]], [.terminal [97]]],
         [([[StackItem.nonterminal 0, .terminal [97]], [.terminal [97]]], {0})], {0}⟩) ∧
    (0 : ℕ) ∈ ({0} : Finset ℕ) ∧
    ∃ tok, (tok, 0) ∈ vAs.tokenToId ∧ ExtendsIntoPrefix gAs 0 [] tok := by
  have hi97 : ItemProd gAs (.terminal [97]) := ⟨[97] ++ [], .term .nil⟩
  have hiN0 : ItemProd gAs (.nonterminal 0) :=
    ⟨[97] ++ [], .expand rfl (List.mem_cons_self _ _) (.term .nil)⟩
  have heval : allPossibleNextTokens 50 gAs vAs false initState none =
      some (.Continue {0}, ⟨[[StackItem.nonterminal 0, .terminal [97]], [.terminal [97]]],
         [([[StackItem.nonterminal 0, .terminal [97]], [.terminal [97]]], {0})], {0}⟩) := by decide
  have hgoodS : ∀ stack ∈ (⟨[[StackItem.nonterminal 0, .terminal [97]], [.terminal [97]]],
         [([[StackItem.nonterminal 0, .terminal [97]], [.terminal [97]]], {0})], {0}⟩ : SamplerState).stks,
      GoodStack gAs stack := by
    intro stack hs it hit
    rcases List.mem_cons.mp hs with heq | hs2
    · subst heq
      rcases List.mem_cons.mp hit with heq2 | hit2
      · subst heq2
        exact hiN0
      · rcases List.mem_cons.mp hit2 with heq3 | hit3
        · subst heq3
          exact hi97
        · exact absurd hit3 (List.not_mem_nil _)
    · rcases List.mem_cons.mp hs2 with heq | hs3
      · subst heq
        rcases List.mem_cons.mp hit with heq2 | hit2
        · subst heq2
          exact hi97
        · exact absurd hit2 (List.not_mem_nil _)
      · exact absurd hs3 (List.not_mem_nil _)
  have hsoundS : ∀ stack ∈ (⟨[[StackItem.nonterminal 0, .terminal [97]], [.terminal [97]]],
         [([[StackItem.nonterminal 0, .terminal [97]], [.terminal [97]]], {0})], {0}⟩ : SamplerState).stks,
      ∀ w, SentDerives gAs stack.reverse w → InLanguage gAs 0 ([] ++ w) := by
    intro stack hs w hw
    rcases List.mem_cons.mp hs with heq | hs2
    · subst heq
      exact .expand rfl (List.mem_cons_of_mem _ (List.mem_cons_self _ _)) hw
    · rcases List.mem_cons.mp hs2 with heq | hs3
      · subst heq
        exact .expand rfl (List.mem_cons_self _ _) hw
      · exact absurd hs3 (List.not_mem_nil _)
  have hother : ∀ idn : Nat, idn ≠ 0 → exprFind gAs idn = .expressions [] := by
    intro idn hid
    have hfind : List.find? (fun p => decide (p.1 = idn))
        gAs.nonterminalIdToExpression = none := by
      rw [List.find?_eq_none]
      intro p hp
      have hp2 : p = (0, SimplifiedExpressions.expressions
          [[U8Term.terminal [97]], [U8Term.terminal [97], U8Term.nonterminal "s"]]) :=
        List.mem_singleton.mp hp
      rw [hp2]
      simp only [decide_eq_true_eq]
      exact fun hc => hid hc.symm
    unfold exprFind assocFind
    rw [hfind]
    rfl
  have hgp : GramProd gAs := by
    constructor
    · intro idn es hes e he tm htm
      by_cases hid : idn = 0
      · subst hid
        have hes2 : SimplifiedExpressions.expressions
            [[U8Term.terminal [97]], [U8Term.terminal [97], U8Term.nonterminal "s"]] =
            .expressions es := hes
        have hes3 := SimplifiedExpressions.expressions.inj hes2
        rw [← hes3] at he
        rcases List.mem_cons.mp he with heq | he2
        · subst heq
          rcases List.mem_cons.mp htm with heq2 | htm2
          · subst heq2
            exact hi97
          · exact absurd htm2 (List.not_mem_nil _)
        · rcases List.mem_cons.mp he2 with heq | he3
          · subst heq
            rcases List.mem_cons.mp htm with heq2 | htm2
            · subst heq2
              exact hi97
            · rcases List.mem_cons.mp htm2 with heq3 | htm3
              · subst heq3
                exact hiN0
              · exact absurd htm3 (List.not_mem_nil _)
          · exact absurd he3 (List.not_mem_nil _)
      · rw [hother idn hid] at hes
        have hes3 := SimplifiedExpressions.expressions.inj hes
        rw [← hes3] at he
        exact absurd he (List.not_mem_nil _)
    · intro idn nid hter
      by_cases hid : idn = 0
      · subst hid
        exact SimplifiedExpressions.noConfusion hter
      · rw [hother idn hid] at hter
        exact SimplifiedExpressions.noConfusion hter
  refine ⟨heval, by decide, ?_⟩
  exact C1_amended 50 gAs vAs initState none {0} ⟨[[StackItem.nonterminal 0, .terminal [97]], [.terminal [97]]],
         [([[StackItem.nonterminal 0, .terminal [97]], [.terminal [97]]], {0})], {0}⟩ 0 0 []
    (fun n => rfl) (fun n p hp => absurd hp (List.not_mem_nil p))
    (fun n hn => absurd hn (Nat.not_lt_zero n)) hgp rfl
    (fun k ids2 hk => absurd hk (List.not_mem_nil _))
    hgoodS hsoundS heval (by decide)


end BnfSampler
